import Mathlib

/-!
# TTaskScheduler: a lazy, memoising task graph (src/lib/Scheduler.hpp)

Shallow embedding of the class `TTaskScheduler`.

* A node (`Task_<FncT, Args...>`) lives in a heap; a `std::shared_ptr<AnyTask_>` is the
  index of the node in the heap.  A registry (`TTaskScheduler`) is the vector `tasks_` of
  such pointers, so that copies of a registry share their nodes.
* C++ types are tags (`Ty`); values are type erased (`Val`).  `dynamic_cast<BaseTask_<T>*>`
  succeeds exactly when `T` is the node's result type `std::invoke_result_t<FncT, Args...>`.
* A callable is a function from the argument values to a value or an exception.  The only
  side effects that are observed are that its body was entered and that it threw: every
  invocation appends the address of the node to the log `World.calls`, and every invocation
  that throws appends it to the log `World.thrown` as well.
* `Task_::eval` and `FutureResult_::get` are mutually recursive without any cycle check; the
  embedding is driven by fuel, and `Outcome.timeout` stands for unbounded recursion.
* The order in which `fnc_(args->get()...)` reads the bindings is unspecified in C++; the
  embedding takes it as a parameter `rtl` (`false`: left to right, `true`: right to left).
-/

namespace Scheduler

/-- C++ types, as tags compared by `dynamic_cast`. -/
inductive Ty where
  | int
  | float
  | double
  | string
  | other (n : Nat)
  deriving DecidableEq, Repr

/-- Type erased C++ values. -/
inductive Val where
  | num (z : Int)
  | str (s : String)
  deriving DecidableEq, Repr

/-- C++ exceptions: `std::bad_cast` thrown by `AnyTask_::getRes`, and whatever a callable
throws. -/
inductive Exn where
  | bad_cast
  | runtime_error (what : String)
  deriving DecidableEq, Repr

/-- How a call ends: normal return, a C++ exception, undefined behaviour (an index out of
the bounds of a vector, a read of a result slot that was never written), or unbounded
recursion (the fuel ran out). -/
inductive Outcome (α : Type) where
  | ok (a : α)
  | throw (e : Exn)
  | ub
  | timeout
  deriving DecidableEq, Repr

/-- The struct `TaskId_`: a wrapped index into `tasks_`. -/
structure TaskId_ where
  id_ : Nat
  deriving DecidableEq, Repr

/-- The member `TaskId_::getId`. -/
def TaskId_.getId (t : TaskId_) : Nat := t.id_

/-- The struct `FutureResult_<RtrnT>`: the type `T` it will be read as and the shared
pointer `task_` to the node it names. -/
structure FutureResult_ where
  T : Ty
  task_ : Nat
  deriving DecidableEq, Repr

/-- The two implementations of `AbstractArgument_<RtrnT>`: `SimpleArgument_` holding a
copy `arg_` of a value, and `FutureResult_`. -/
inductive AbstractArgument_ where
  | simple (arg_ : Val)
  | future (f : FutureResult_)
  deriving DecidableEq, Repr

/-- The struct `Task_<FncT, Args...>` with the members it inherits from `AnyTask_`:
the callable `fnc_`, its result type `ret` (`std::invoke_result_t<FncT, Args...>`), the
tuple of bindings `args_`, the result slot `res_` and the flag `isEvaulated_`. -/
structure Task_ where
  fnc_ : List Val → Except Exn Val
  ret : Ty
  args_ : List AbstractArgument_
  res_ : Option Val
  isEvaulated_ : Bool

/-- The member `AnyTask_::getStatus`. -/
def AnyTask_.getStatus (t : Task_) : Bool := t.isEvaulated_

/-- The member `AnyTask_::getRes<T>`: the checked downcast to `BaseTask_<T>`, then
`getResImpl`, which returns `res_`. -/
def AnyTask_.getRes (t : Task_) (T : Ty) : Outcome Val :=
  if T = t.ret then
    match t.res_ with
    | some v => .ok v
    | none => .ub
  else .throw .bad_cast

/-- The memory: every node allocated so far, the log of the nodes whose callable body was
entered, oldest first, and the log of the nodes whose callable body threw. -/
structure World where
  heap : List Task_
  calls : List Nat
  thrown : List Nat

/-- The member `FutureResult_::get`; `evalRec` is `task_->eval()`. -/
def FutureResult_.get (evalRec : World → Nat → World × Outcome Unit) (f : FutureResult_)
    (w : World) : World × Outcome Val :=
  match w.heap[f.task_]? with
  | none => (w, .ub)
  | some t =>
    if AnyTask_.getStatus t then (w, AnyTask_.getRes t f.T)
    else
      match evalRec w f.task_ with
      | (w1, .ok _) =>
        match w1.heap[f.task_]? with
        | some t1 => (w1, AnyTask_.getRes t1 f.T)
        | none => (w1, .ub)
      | (w1, .throw e) => (w1, .throw e)
      | (w1, .ub) => (w1, .ub)
      | (w1, .timeout) => (w1, .timeout)

/-- The virtual call `AbstractArgument_::get`. -/
def AbstractArgument_.get (evalRec : World → Nat → World × Outcome Unit) :
    AbstractArgument_ → World → World × Outcome Val
  | .simple arg_, w => (w, .ok arg_)
  | .future f, w => FutureResult_.get evalRec f w

/-- The reads `args->get()...` of a pack of bindings, one after the other in the order of
the list; the first read that does not return ends the sequence. -/
def getAll (evalRec : World → Nat → World × Outcome Unit) :
    List AbstractArgument_ → World → World × Outcome (List Val)
  | [], w => (w, .ok [])
  | a :: as, w =>
    match AbstractArgument_.get evalRec a w with
    | (w1, .ok v) =>
      match getAll evalRec as w1 with
      | (w2, .ok vs) => (w2, .ok (v :: vs))
      | (w2, .throw e) => (w2, .throw e)
      | (w2, .ub) => (w2, .ub)
      | (w2, .timeout) => (w2, .timeout)
    | (w1, .throw e) => (w1, .throw e)
    | (w1, .ub) => (w1, .ub)
    | (w1, .timeout) => (w1, .timeout)

/-- The argument reads of `fnc_(args->get()...)` in one of the two orders; the values come
back in the order of the parameters. -/
def readArgs (evalRec : World → Nat → World × Outcome Unit) (rtl : Bool)
    (args : List AbstractArgument_) (w : World) : World × Outcome (List Val) :=
  if rtl then
    match getAll evalRec args.reverse w with
    | (w1, .ok vs) => (w1, .ok vs.reverse)
    | (w1, .throw e) => (w1, .throw e)
    | (w1, .ub) => (w1, .ub)
    | (w1, .timeout) => (w1, .timeout)
  else getAll evalRec args w

/-- The member `Task_::eval` of the node at address `a`:
`res_ = fnc_(args->get()...); isEvaulated_ = true;`.  Nothing is written when a read or
the callable throws. -/
def Task_.eval (rtl : Bool) : Nat → World → Nat → World × Outcome Unit
  | 0, w, _ => (w, .timeout)
  | fuel + 1, w, a =>
    match w.heap[a]? with
    | none => (w, .ub)
    | some t =>
      match readArgs (Task_.eval rtl fuel) rtl t.args_ w with
      | (w1, .ok vs) =>
        match t.fnc_ vs with
        | .ok v =>
          (⟨w1.heap.set a { t with res_ := some v, isEvaulated_ := true },
            w1.calls ++ [a], w1.thrown⟩, .ok ())
        | .error e => (⟨w1.heap, w1.calls ++ [a], w1.thrown ++ [a]⟩, .throw e)
      | (w1, .throw e) => (w1, .throw e)
      | (w1, .ub) => (w1, .ub)
      | (w1, .timeout) => (w1, .timeout)

end Scheduler

/-- The class `TTaskScheduler`: the vector `tasks_` of shared pointers to nodes. -/
structure TTaskScheduler where
  tasks_ : List Nat
  deriving DecidableEq, Repr

namespace TTaskScheduler

open Scheduler

/-- What a caller passes to `add` in one slot of `Args&&...`: a value, or a handle obtained
from `getFutureResult`. -/
inductive Argument where
  | value (v : Val)
  | future (f : FutureResult_)
  deriving DecidableEq, Repr

/-- The static member `WrapArgument_`: a handle is copied, a value is wrapped in a
`SimpleArgument_`. -/
def WrapArgument_ : Argument → AbstractArgument_
  | .future f => .future f
  | .value v => .simple v

/-- The member `add`: allocates the node, appends the pointer to `tasks_` and returns
`TaskId_(tasks_.size() - 1)`.  `ret` is `std::invoke_result_t` of the callable. -/
def add (s : TTaskScheduler) (w : World) (func : List Val → Except Exn Val) (ret : Ty)
    (args : List Argument) : World × TTaskScheduler × TaskId_ :=
  let task : Task_ :=
    { fnc_ := func, ret := ret, args_ := args.map WrapArgument_, res_ := none,
      isEvaulated_ := false }
  let tasks := s.tasks_ ++ [w.heap.length]
  (⟨w.heap ++ [task], w.calls, w.thrown⟩, ⟨tasks⟩, ⟨tasks.length - 1⟩)

/-- The loop of `executeAll` over the pointers that are left. -/
def executeAll.loop (fuel : Nat) (rtl : Bool) : List Nat → World → World × Outcome Unit
  | [], w => (w, .ok ())
  | a :: rest, w =>
    match w.heap[a]? with
    | none => (w, .ub)
    | some t =>
      if AnyTask_.getStatus t then executeAll.loop fuel rtl rest w
      else
        match Task_.eval rtl fuel w a with
        | (w1, .ok _) => executeAll.loop fuel rtl rest w1
        | (w1, .throw e) => (w1, .throw e)
        | (w1, .ub) => (w1, .ub)
        | (w1, .timeout) => (w1, .timeout)

/-- The member `executeAll`. -/
def executeAll (fuel : Nat) (rtl : Bool) (s : TTaskScheduler) (w : World) :
    World × Outcome Unit :=
  executeAll.loop fuel rtl s.tasks_ w

/-- The member `getFutureResult<T>`: `FutureResult_<T>{tasks_[id.getId()]}`; the index is
not checked. -/
def getFutureResult (s : TTaskScheduler) (T : Ty) (id : TaskId_) : Outcome FutureResult_ :=
  match s.tasks_[id.getId]? with
  | none => .ub
  | some a => .ok ⟨T, a⟩

/-- The member `getResult<T>`. -/
def getResult (fuel : Nat) (rtl : Bool) (s : TTaskScheduler) (w : World) (T : Ty)
    (tid : TaskId_) : World × Outcome Val :=
  match s.tasks_[tid.getId]? with
  | none => (w, .ub)
  | some a =>
    match w.heap[a]? with
    | none => (w, .ub)
    | some t =>
      if AnyTask_.getStatus t then (w, AnyTask_.getRes t T)
      else
        match Task_.eval rtl fuel w a with
        | (w1, .ok _) =>
          match w1.heap[a]? with
          | some t1 => (w1, AnyTask_.getRes t1 T)
          | none => (w1, .ub)
        | (w1, .throw e) => (w1, .throw e)
        | (w1, .ub) => (w1, .ub)
        | (w1, .timeout) => (w1, .timeout)

/-- The defaulted copy constructor `TTaskScheduler(const TTaskScheduler& another)`: the
vector `tasks_` is copied member-wise, so the copy holds the same shared pointers. -/
def copy (another : TTaskScheduler) : TTaskScheduler := ⟨another.tasks_⟩

end TTaskScheduler

namespace Scheduler

open TTaskScheduler

/-! ## Specification vocabulary -/

/-- The value a binding yields without any evaluation: the stored copy for a
`SimpleArgument_`; for a `FutureResult_<T>` the result slot of the node it names, when
that node is evaluated and its result type is `T`. -/
def AbstractArgument_.cached (heap : List Task_) : AbstractArgument_ → Option Val
  | .simple arg_ => some arg_
  | .future f =>
    match heap[f.task_]? with
    | some t => if t.isEvaulated_ = true ∧ f.T = t.ret then t.res_ else none
    | none => none

/-- Every binding of the pack yields its value from the cache, and `vs` are these values in
the order of the parameters. -/
def Cached (heap : List Task_) (args : List AbstractArgument_) (vs : List Val) : Prop :=
  List.Forall₂ (fun a v => AbstractArgument_.cached heap a = some v) args vs

/-- No forward reference held by a node names the node itself or a node allocated later. -/
def Acyclic (heap : List Task_) : Prop :=
  ∀ (a : Nat) (t : Task_), heap[a]? = some t →
    ∀ f, AbstractArgument_.future f ∈ t.args_ → f.task_ < a

/-- Every evaluated node holds in its result slot the value that its callable returned on
the cached values of its bindings. -/
def Sound (heap : List Task_) : Prop :=
  ∀ (a : Nat) (t : Task_), heap[a]? = some t → t.isEvaulated_ = true →
    ∃ vs v, Cached heap t.args_ vs ∧ t.fnc_ vs = .ok v ∧ t.res_ = some v

/-- No callable of the heap throws, whatever its arguments. -/
def NoFail (heap : List Task_) : Prop :=
  ∀ (a : Nat) (t : Task_), heap[a]? = some t → ∀ vs e, t.fnc_ vs ≠ .error e

/-- Every forward reference is read at the result type of the node it names. -/
def WellTyped (heap : List Task_) : Prop :=
  ∀ (a : Nat) (t : Task_), heap[a]? = some t → ∀ f, AbstractArgument_.future f ∈ t.args_ →
    ∀ tb, heap[f.task_]? = some tb → f.T = tb.ret

/-- The exception `e` has a source in the heap: a callable that throws it, or, for
`std::bad_cast`, a forward reference read at a type that is not the result type of the node
it names. -/
def Raises (heap : List Task_) (e : Exn) : Prop :=
  (∃ (a : Nat) (t : Task_) (vs : List Val), heap[a]? = some t ∧ t.fnc_ vs = .error e) ∨
  (e = .bad_cast ∧ ∃ (a : Nat) (t tb : Task_) (f : FutureResult_), heap[a]? = some t ∧ AbstractArgument_.future f ∈ t.args_ ∧
    heap[f.task_]? = some tb ∧ f.T ≠ tb.ret)

/-- The node after a successful `eval`: `res_` written, `isEvaulated_` set. -/
def Task_.done (t : Task_) (v : Val) : Task_ :=
  { t with res_ := some v, isEvaulated_ := true }

/-- One invocation of the callable of the node at `a`, all of whose bindings are cached:
either it returns and the node is written, or it throws and only the log grows. -/
inductive Fire (a : Nat) (w : World) : World → Prop where
  | ok (t : Task_) (vs : List Val) (v : Val) (ht : w.heap[a]? = some t)
      (hu : t.isEvaulated_ = false) (hc : Cached w.heap t.args_ vs)
      (hf : t.fnc_ vs = .ok v) :
      Fire a w ⟨w.heap.set a (t.done v), w.calls ++ [a], w.thrown⟩
  | fail (t : Task_) (vs : List Val) (e : Exn) (ht : w.heap[a]? = some t)
      (hu : t.isEvaulated_ = false) (hc : Cached w.heap t.args_ vs)
      (hf : t.fnc_ vs = .error e) :
      Fire a w ⟨w.heap, w.calls ++ [a], w.thrown ++ [a]⟩

/-- A finite sequence of invocations, all at addresses below `n`. -/
def Fires (n : Nat) : World → World → Prop :=
  Relation.ReflTransGen (fun w w1 => ∃ a, a < n ∧ Fire a w w1)

/-- What `Task_::eval` on the unevaluated node `t` at `a` does, by outcome. -/
def EvalPost (a : Nat) (t : Task_) (w w1 : World) : Outcome Unit → Prop
  | .ok _ => ∃ w0 vs v, Fires a w w0 ∧ Cached w0.heap t.args_ vs ∧ t.fnc_ vs = .ok v ∧
      w1 = ⟨w0.heap.set a (t.done v), w0.calls ++ [a], w0.thrown⟩
  | .throw e => (Fires a w w1 ∧ Raises w.heap e) ∨
      ∃ w0 vs, Fires a w w0 ∧ Cached w0.heap t.args_ vs ∧ t.fnc_ vs = .error e ∧
        w1 = ⟨w0.heap, w0.calls ++ [a], w0.thrown ++ [a]⟩
  | .ub => Fires a w w1
  | .timeout => Fires a w w1

/-- The call ended with defined behaviour: it returned or it threw. -/
def Outcome.Ends {α : Type} : Outcome α → Prop
  | .ok _ => True
  | .throw _ => True
  | .ub => False
  | .timeout => False

/-- The world `w1` comes after `w`: the same nodes with the same callables, result types
and bindings, and every node that was evaluated in `w` is untouched. -/
structure Ext (w w1 : World) : Prop where
  length : w1.heap.length = w.heap.length
  shape : ∀ (b : Nat) (tb : Task_), w.heap[b]? = some tb →
    ∃ tb1, w1.heap[b]? = some tb1 ∧ tb1.fnc_ = tb.fnc_ ∧ tb1.ret = tb.ret ∧
      tb1.args_ = tb.args_
  frozen : ∀ (b : Nat) (tb : Task_), w.heap[b]? = some tb → tb.isEvaulated_ = true →
    w1.heap[b]? = some tb

/-- The node at `a` exists and is not evaluated. -/
def World.pending (w : World) (a : Nat) : Bool :=
  match w.heap[a]? with
  | some t => !t.isEvaulated_
  | none => false

/-- Every node below `k` is evaluated. -/
def EvaluatedBelow (k : Nat) (w : World) : Prop :=
  ∀ (b : Nat) (tb : Task_), b < k → w.heap[b]? = some tb → tb.isEvaulated_ = true

/-- The log agrees with the flags: the callable of an evaluated node was entered exactly
once; the callable of an unevaluated node was never entered, unless it throws on the cached
values of its bindings. -/
def Counted (w : World) : Prop :=
  ∀ (a : Nat) (t : Task_), w.heap[a]? = some t →
    (t.isEvaulated_ = true → w.calls.count a = 1) ∧
    (t.isEvaulated_ = false → w.calls.count a = 0 ∨
      ∃ vs e, Cached w.heap t.args_ vs ∧ t.fnc_ vs = .error e)

/-- The two logs agree with the flags: the callable of a node was entered once for every
time it threw, and once more if the node is evaluated. -/
def Tallied (w : World) : Prop :=
  ∀ (a : Nat), w.calls.count a =
    (match w.heap[a]? with
      | some t => if t.isEvaulated_ = true then 1 else 0
      | none => 0) + w.thrown.count a

/-- The invariant of the memory of a program that uses registries through their public
members. -/
structure Good (w : World) : Prop where
  acyclic : Acyclic w.heap
  sound : Sound w.heap
  counted : Counted w
  tallied : Tallied w
  logged : ∀ x ∈ w.calls, x < w.heap.length
  fresh : ∀ (a : Nat) (t : Task_), w.heap[a]? = some t → t.isEvaulated_ = false →
    t.res_ = none

/-- A program state: the memory, one registry, and the handles that `getFutureResult` has
returned so far. -/
structure Config where
  world : World
  sched : TTaskScheduler
  handles : List FutureResult_

/-- The state of a program that has just constructed its registry. -/
def Config.init : Config := ⟨⟨[], [], []⟩, ⟨[]⟩, []⟩

/-- One call of a public member of the registry, with defined behaviour.  A call that
throws is a step too: the program may catch the exception and go on. -/
inductive Step : Config → Config → Prop where
  | getFutureResult (c : Config) (T : Ty) (tid : TaskId_) (f : FutureResult_)
      (h : c.sched.getFutureResult T tid = .ok f) :
      Step c ⟨c.world, c.sched, f :: c.handles⟩
  | add (c : Config) (func : List Val → Except Exn Val) (ret : Ty)
      (args : List TTaskScheduler.Argument)
      (h : ∀ f, TTaskScheduler.Argument.future f ∈ args → f ∈ c.handles) :
      Step c ⟨(c.sched.add c.world func ret args).1, (c.sched.add c.world func ret args).2.1,
        c.handles⟩
  | getResult (c : Config) (fuel : Nat) (rtl : Bool) (T : Ty) (tid : TaskId_) (w1 : World)
      (o : Outcome Val) (h : c.sched.getResult fuel rtl c.world T tid = (w1, o))
      (hends : o.Ends) :
      Step c ⟨w1, c.sched, c.handles⟩
  | executeAll (c : Config) (fuel : Nat) (rtl : Bool) (w1 : World) (o : Outcome Unit)
      (h : c.sched.executeAll fuel rtl c.world = (w1, o)) (hends : o.Ends) :
      Step c ⟨w1, c.sched, c.handles⟩

/-- The states a program reaches from a fresh registry by calls of its public members. -/
def Reachable (c : Config) : Prop := Relation.ReflTransGen Step Config.init c

/-- The invariant of the reachable states: the registry owns every node, in the order of
allocation, the memory is good, and every handle names a node. -/
structure Inv (c : Config) : Prop where
  tasks : c.sched.tasks_ = List.range c.world.heap.length
  good : Good c.world
  handles : ∀ f ∈ c.handles, f.task_ < c.world.heap.length

/-- The values of a pack of bindings in the un-memoised reading: a literal binding yields
the value passed at `add` time, a forward reference yields the value `result` gives to the
task it names. -/
def bindingValues (result : Nat → Option Val) : List AbstractArgument_ → Option (List Val)
  | [] => some []
  | .simple arg_ :: rest =>
    match bindingValues result rest with
    | some vs => some (arg_ :: vs)
    | none => none
  | .future f :: rest =>
    match result f.task_, bindingValues result rest with
    | some v, some vs => some (v :: vs)
    | _, _ => none

/-- The un-memoised recursive definition of the result of the task at `a`, in the words of
the specification: the callable of the task applied to the values of its bindings.  No
flag and no result slot is read.  The first argument bounds the depth of the recursion. -/
def unmemoised : Nat → List Task_ → Nat → Option Val
  | 0, _, _ => none
  | depth + 1, heap, a =>
    match heap[a]? with
    | none => none
    | some t =>
      match bindingValues (unmemoised depth heap) t.args_ with
      | none => none
      | some vs =>
        match t.fnc_ vs with
        | .ok v => some v
        | .error _ => none

/-! ## Programs of the test suite, on integers -/

/-- The sum of the numbers of a pack of values. -/
def sumNums : List Val → Int
  | [] => 0
  | .num z :: rest => z + sumNums rest
  | .str _ :: rest => sumNums rest

/-- The callable `[](a1, ..., an) { return a1 + ... + an; }`. -/
def plus : List Val → Except Exn Val := fun vs => .ok (.num (sumNums vs))

/-- The callable `[](a1) { return a1 * a1; }`. -/
def square : List Val → Except Exn Val := fun vs => .ok (.num (sumNums vs * sumNums vs))

/-- The callable `[]() { return c; }`. -/
def constant (c : Val) : List Val → Except Exn Val := fun _ => .ok c

/-- The callable `[]() { throw std::runtime_error("Error!"); return 5; }` of the test
`TaskThrowsException`. -/
def thrower : List Val → Except Exn Val := fun _ => .error (.runtime_error "Error!")

/-- The four literal arguments `1, 1, 1, 1`. -/
def fourOnes : List TTaskScheduler.Argument :=
  [.value (.num 1), .value (.num 1), .value (.num 1), .value (.num 1)]

/-- The registry of the test `MultipleArgsTest.test2`: a task adding four ones, the handle
`getFutureResult<int>(id1)`, and a task squaring the result of the first. -/
def squareConfig : Config :=
  let r1 := TTaskScheduler.add ⟨[]⟩ ⟨[], [], []⟩ plus .int fourOnes
  let r2 := TTaskScheduler.add r1.2.1 r1.1 square .int [.future ⟨.int, 0⟩]
  ⟨r2.1, r2.2.1, [⟨.int, 0⟩]⟩

/-- The same registry with the handle taken as `getFutureResult<float>(id1)` although the
first task returns an `int`; the second task takes and returns a `float`. -/
def mismatchConfig : Config :=
  let r1 := TTaskScheduler.add ⟨[]⟩ ⟨[], [], []⟩ plus .int fourOnes
  let r2 := TTaskScheduler.add r1.2.1 r1.1 square .float [.future ⟨.float, 0⟩]
  ⟨r2.1, r2.2.1, [⟨.float, 0⟩]⟩

/-- The registry of the test `UnnecessaryCalculations.test1`: a root task adding two
literals, followed by `n` tasks, each adding a literal to the result of the task before it,
taken with `getFutureResult<float>`. -/
def chain : Nat → Config
  | 0 =>
    let r := TTaskScheduler.add ⟨[]⟩ ⟨[], [], []⟩ plus .float [.value (.num 1), .value (.num 1)]
    ⟨r.1, r.2.1, []⟩
  | n + 1 =>
    let c := chain n
    let r := c.sched.add c.world plus .float [.value (.num 1), .future ⟨.float, n⟩]
    ⟨r.1, r.2.1, ⟨.float, n⟩ :: c.handles⟩

/-- The memory of the registry `squareConfig` after `executeAll`. -/
def squareDone : World := (squareConfig.sched.executeAll 2 false squareConfig.world).1

/-- A registry with a task that throws: a constant task, the task of the test
`TaskThrowsException`, and a task adding 1 to the result of the first. -/
def throwConfig : Config :=
  let r0 := TTaskScheduler.add ⟨[]⟩ ⟨[], [], []⟩ (constant (.num 5)) .int []
  let r1 := TTaskScheduler.add r0.2.1 r0.1 thrower .int []
  let r2 := TTaskScheduler.add r1.2.1 r1.1 plus .int [.future ⟨.int, 0⟩, .value (.num 1)]
  ⟨r2.1, r2.2.1, [⟨.int, 0⟩]⟩

/-- The memory of `throwConfig` after the `executeAll` that throws. -/
def throwDone : World := (throwConfig.sched.executeAll 3 false throwConfig.world).1

/-- The state of `throwConfig` after the `executeAll` that throws. -/
def throwConfigDone : Config := ⟨throwDone, throwConfig.sched, throwConfig.handles⟩

/-- A registry whose second task reads, as a `float`, the result of a first task that
returns an `int` and whose callable throws. -/
def throwMismatchConfig : Config :=
  let r0 := TTaskScheduler.add ⟨[]⟩ ⟨[], [], []⟩ thrower .int []
  let r1 := TTaskScheduler.add r0.2.1 r0.1 plus .float [.future ⟨.float, 0⟩]
  ⟨r1.1, r1.2.1, [⟨.float, 0⟩]⟩

/-- The registry with the single task adding four ones. -/
def plusConfig : Config :=
  let r1 := TTaskScheduler.add ⟨[]⟩ ⟨[], [], []⟩ plus .int fourOnes
  ⟨r1.1, r1.2.1, []⟩

/-- The node at `n` holds a forward reference that is read at a type that is not the
result type of the node it names. -/
def Mismatched (w : World) (n : Nat) (t : Task_) : Prop :=
  w.heap[n]? = some t ∧ t.isEvaulated_ = false ∧
    ∃ (f : FutureResult_) (tb : Task_), AbstractArgument_.future f ∈ t.args_ ∧
      w.heap[f.task_]? = some tb ∧ f.T ≠ tb.ret

/-- A finite sequence of invocations, all at addresses in the set `S`. -/
def FiresIn (S : Nat → Prop) : World → World → Prop :=
  Relation.ReflTransGen (fun w w1 => ∃ a, S a ∧ Fire a w w1)

/-- The set `S` of addresses contains every node named by a forward reference of one of
its nodes. -/
def Closed (S : Nat → Prop) (heap : List Task_) : Prop :=
  ∀ (a : Nat) (t : Task_) (f : FutureResult_), S a → heap[a]? = some t →
    AbstractArgument_.future f ∈ t.args_ → S f.task_

/-- The node at `b` is the node at `a` or a transitive forward-reference dependency of
it. -/
inductive DependsOn (heap : List Task_) : Nat → Nat → Prop where
  | self (a : Nat) : DependsOn heap a a
  | step (a b : Nat) (t : Task_) (f : FutureResult_) (ht : heap[a]? = some t)
      (hf : AbstractArgument_.future f ∈ t.args_) (h : DependsOn heap f.task_ b) :
      DependsOn heap a b

/-- The world `w1` comes after `w`, possibly with more nodes: the nodes of `w` are nodes of
`w1` with the same callables, result types and bindings, and every node that was evaluated
in `w` is untouched. -/
structure Grows (w w1 : World) : Prop where
  length : w.heap.length ≤ w1.heap.length
  shape : ∀ (b : Nat) (tb : Task_), w.heap[b]? = some tb →
    ∃ tb1, w1.heap[b]? = some tb1 ∧ tb1.fnc_ = tb.fnc_ ∧ tb1.ret = tb.ret ∧
      tb1.args_ = tb.args_
  frozen : ∀ (b : Nat) (tb : Task_), w.heap[b]? = some tb → tb.isEvaulated_ = true →
    w1.heap[b]? = some tb

/-- The state of the registry `squareConfig` after `executeAll`. -/
def squareConfigDone : Config := ⟨squareDone, squareConfig.sched, squareConfig.handles⟩

/-- The registry of the test `ZeroArguments`: one task `[]() { return 42; }`. -/
def zeroConfig : Config :=
  let r := TTaskScheduler.add ⟨[]⟩ ⟨[], [], []⟩ (constant (.num 42)) .int []
  ⟨r.1, r.2.1, []⟩

/-- The state of `zeroConfig` after `executeAll`. -/
def zeroConfigDone : Config :=
  ⟨(zeroConfig.sched.executeAll 1 false zeroConfig.world).1, zeroConfig.sched, []⟩

/-- A registry whose third task adds the results of two constant tasks, reading the first
with a handle taken as `getFutureResult<float>` although the task returns an `int`. -/
def orderConfig : Config :=
  let r0 := TTaskScheduler.add ⟨[]⟩ ⟨[], [], []⟩ (constant (.num 1)) .int []
  let r1 := TTaskScheduler.add r0.2.1 r0.1 (constant (.num 2)) .int []
  let r2 := TTaskScheduler.add r1.2.1 r1.1 plus .int [.future ⟨.float, 0⟩, .future ⟨.int, 1⟩]
  ⟨r2.1, r2.2.1, [⟨.int, 1⟩, ⟨.float, 0⟩]⟩

/-- A registry whose second task adds nothing to the result of a first task whose callable
throws; the handle is taken at the result type of the first task. -/
def throwDepConfig : Config :=
  let r0 := TTaskScheduler.add ⟨[]⟩ ⟨[], [], []⟩ thrower .int []
  let r1 := TTaskScheduler.add r0.2.1 r0.1 plus .int [.future ⟨.int, 0⟩]
  ⟨r1.1, r1.2.1, [⟨.int, 0⟩]⟩

/-- An argument of an `add` call as the program writes it: a literal value, or the
expression `getFutureResult<T>(id)` on the registry that receives the call. -/
inductive ArgExpr where
  | value (v : Val)
  | future (T : Ty) (id : TaskId_)

/-- One `add` call as the program writes it: the callable, its result type and the
arguments. -/
structure AddCall where
  func : List Val → Except Exn Val
  ret : Ty
  args : List ArgExpr

/-- The arguments of an `add` call evaluated on the registry `s`: every
`getFutureResult<T>(id)` is called on `s`; `none` when one of them indexes out of bounds. -/
def resolve (s : TTaskScheduler) : List ArgExpr → Option (List TTaskScheduler.Argument)
  | [] => some []
  | .value v :: rest =>
    match resolve s rest with
    | some as => some (.value v :: as)
    | none => none
  | .future T id :: rest =>
    match s.getFutureResult T id, resolve s rest with
    | .ok f, some as => some (.future f :: as)
    | _, _ => none

/-- A program state with two separately constructed registries `left` and `right` in one
memory, and the `add` calls that each of them has received. -/
structure Pair where
  world : World
  left : TTaskScheduler
  right : TTaskScheduler
  leftCalls : List AddCall
  rightCalls : List AddCall

/-- The state of a program that has just constructed two registries. -/
def Pair.init : Pair := ⟨⟨[], [], []⟩, ⟨[]⟩, ⟨[]⟩, [], []⟩

/-- One of the two registries: `right` for `true`, `left` for `false`. -/
def Pair.reg (c : Pair) (side : Bool) : TTaskScheduler := if side then c.right else c.left

/-- The `add` calls that one of the two registries has received. -/
def Pair.script (c : Pair) (side : Bool) : List AddCall :=
  if side then c.rightCalls else c.leftCalls

/-- The state after a call on one of the two registries: the memory, that registry and its
list of `add` calls are replaced; the other registry is not an operand of the call. -/
def Pair.put (c : Pair) (side : Bool) (w : World) (s : TTaskScheduler)
    (calls : List AddCall) : Pair :=
  if side then ⟨w, c.left, s, c.leftCalls, calls⟩ else ⟨w, s, c.right, calls, c.rightCalls⟩

/-- One call of a public member on the registry `side`, with defined behaviour; the handles
passed to `add` are taken from the same registry. -/
inductive PairStep (side : Bool) : Pair → Pair → Prop where
  | add (c : Pair) (call : AddCall) (args : List TTaskScheduler.Argument)
      (h : resolve (c.reg side) call.args = some args) :
      PairStep side c
        (c.put side ((c.reg side).add c.world call.func call.ret args).1
          ((c.reg side).add c.world call.func call.ret args).2.1 (c.script side ++ [call]))
  | getResult (c : Pair) (fuel : Nat) (rtl : Bool) (T : Ty) (tid : TaskId_) (w1 : World)
      (o : Outcome Val) (h : (c.reg side).getResult fuel rtl c.world T tid = (w1, o))
      (hends : o.Ends) :
      PairStep side c (c.put side w1 (c.reg side) (c.script side))
  | executeAll (c : Pair) (fuel : Nat) (rtl : Bool) (w1 : World) (o : Outcome Unit)
      (h : (c.reg side).executeAll fuel rtl c.world = (w1, o)) (hends : o.Ends) :
      PairStep side c (c.put side w1 (c.reg side) (c.script side))

/-- The states that a program reaches with two separately constructed registries. -/
def PairReachable (c : Pair) : Prop :=
  Relation.ReflTransGen (fun c c1 => ∃ side, PairStep side c c1) Pair.init c

/-- The binding `x` of a node of the registry `s` is what `add` stores for the argument
expression `e`. -/
def Matches (s : TTaskScheduler) : ArgExpr → AbstractArgument_ → Prop
  | .value v, x => x = .simple v
  | .future T id, x => ∃ a, s.tasks_[id.getId]? = some a ∧ x = .future ⟨T, a⟩

/-- The registry `s` holds, index by index, the tasks of the `add` calls `calls`. -/
def Built (w : World) (s : TTaskScheduler) (calls : List AddCall) : Prop :=
  s.tasks_.length = calls.length ∧
  ∀ (i : Nat) (call : AddCall), calls[i]? = some call →
    ∃ a t, s.tasks_[i]? = some a ∧ w.heap[a]? = some t ∧ t.fnc_ = call.func ∧
      t.ret = call.ret ∧ List.Forall₂ (Matches s) call.args t.args_

/-- The invariant of the states with two separately constructed registries. -/
structure PairInv (c : Pair) : Prop where
  good : Good c.world
  owned : ∀ (side : Bool) (a : Nat), a ∈ (c.reg side).tasks_ → a < c.world.heap.length
  apart : ∀ (side : Bool) (a : Nat), a ∈ (c.reg side).tasks_ → a ∉ (c.reg (!side)).tasks_
  closed : ∀ (side : Bool), Closed (fun a => a ∈ (c.reg side).tasks_) c.world.heap
  built : ∀ (side : Bool), Built c.world (c.reg side) (c.script side)

/-- The program of the test `MultipleSchedulersSameArgs` before its calls of `executeAll`:
both registries have received `add([](int a, int b) { return a + b; }, 1, 2)`. -/
def sameArgsPair : Pair :=
  let call : AddCall := ⟨plus, .int, [.value (.num 1), .value (.num 2)]⟩
  let c1 := Pair.init.put false
    (Pair.init.left.add Pair.init.world plus .int [.value (.num 1), .value (.num 2)]).1
    (Pair.init.left.add Pair.init.world plus .int [.value (.num 1), .value (.num 2)]).2.1
    [call]
  c1.put true
    (c1.right.add c1.world plus .int [.value (.num 1), .value (.num 2)]).1
    (c1.right.add c1.world plus .int [.value (.num 1), .value (.num 2)]).2.1
    [call]

/-- A program state with a registry `left`, a registry `right` that was copy-constructed
from it, and the handles that `getFutureResult` has returned so far on either. -/
structure Copies where
  world : World
  left : TTaskScheduler
  right : TTaskScheduler
  handles : List FutureResult_

/-- The state right after `TTaskScheduler scheduler2 = scheduler;` in the state `c`. -/
def Copies.of (c : Config) : Copies := ⟨c.world, c.sched, c.sched.copy, c.handles⟩

/-- One of the two registries: the copy for `true`, the original for `false`. -/
def Copies.reg (c : Copies) (side : Bool) : TTaskScheduler := if side then c.right else c.left

/-- The state after a call on one of the two registries: the memory and that registry are
replaced; the other registry is not an operand of the call. -/
def Copies.put (c : Copies) (side : Bool) (w : World) (s : TTaskScheduler) : Copies :=
  if side then ⟨w, c.left, s, c.handles⟩ else ⟨w, s, c.right, c.handles⟩

/-- One call of a public member on the registry `side`, with defined behaviour; `add` may
be passed handles obtained from either registry. -/
inductive CopyStep (side : Bool) : Copies → Copies → Prop where
  | getFutureResult (c : Copies) (T : Ty) (tid : TaskId_) (f : FutureResult_)
      (h : (c.reg side).getFutureResult T tid = .ok f) :
      CopyStep side c ⟨c.world, c.left, c.right, f :: c.handles⟩
  | add (c : Copies) (func : List Val → Except Exn Val) (ret : Ty)
      (args : List TTaskScheduler.Argument)
      (h : ∀ f, TTaskScheduler.Argument.future f ∈ args → f ∈ c.handles) :
      CopyStep side c
        (c.put side ((c.reg side).add c.world func ret args).1
          ((c.reg side).add c.world func ret args).2.1)
  | getResult (c : Copies) (fuel : Nat) (rtl : Bool) (T : Ty) (tid : TaskId_) (w1 : World)
      (o : Outcome Val) (h : (c.reg side).getResult fuel rtl c.world T tid = (w1, o))
      (hends : o.Ends) :
      CopyStep side c (c.put side w1 (c.reg side))
  | executeAll (c : Copies) (fuel : Nat) (rtl : Bool) (w1 : World) (o : Outcome Unit)
      (h : (c.reg side).executeAll fuel rtl c.world = (w1, o)) (hends : o.Ends) :
      CopyStep side c (c.put side w1 (c.reg side))

/-- The invariant of the states after the copy of the registry of `c0`. -/
structure CopyInv (c0 : Config) (c : Copies) : Prop where
  good : Good c.world
  owned : ∀ (side : Bool) (a : Nat), a ∈ (c.reg side).tasks_ → a < c.world.heap.length
  handles : ∀ f ∈ c.handles, f.task_ < c.world.heap.length
  base : ∀ (side : Bool), ∃ l, (c.reg side).tasks_ = c0.sched.tasks_ ++ l ∧
    ∀ a ∈ l, a ∉ (c.reg (!side)).tasks_

/-- The registry of the test `CopyTest`: a task adding two ones, and a task adding the
result of the first to itself. -/
def copyConfig : Config :=
  let r1 := TTaskScheduler.add ⟨[]⟩ ⟨[], [], []⟩ plus .int [.value (.num 1), .value (.num 1)]
  let r2 := TTaskScheduler.add r1.2.1 r1.1 plus .int [.future ⟨.int, 0⟩, .future ⟨.int, 0⟩]
  ⟨r2.1, r2.2.1, [⟨.int, 0⟩]⟩

end Scheduler

/-! ## Theorems -/

namespace Scheduler

open TTaskScheduler

theorem cached_simple (heap : List Task_) (v : Val) :
    AbstractArgument_.cached heap (.simple v) = some v := rfl

theorem cached_future_iff (heap : List Task_) (f : FutureResult_) (v : Val) :
    AbstractArgument_.cached heap (.future f) = some v ↔
      ∃ t, heap[f.task_]? = some t ∧ t.isEvaulated_ = true ∧ f.T = t.ret ∧
        t.res_ = some v := by
  simp only [AbstractArgument_.cached]
  constructor
  · intro h
    cases ht : heap[f.task_]? with
    | none => simp [ht] at h
    | some t =>
      simp only [ht] at h
      split at h
      · rename_i hc
        exact ⟨t, rfl, hc.1, hc.2, h⟩
      · cases h
  · rintro ⟨t, ht, he, hty, hr⟩
    simp [ht, he, hty, hr]

theorem Ext.ext_refl (w : World) : Ext w w :=
  ⟨rfl, fun _ tb h => ⟨tb, h, rfl, rfl, rfl⟩, fun _ _ h _ => h⟩

theorem Ext.ext_trans {w w1 w2 : World} (h1 : Ext w w1) (h2 : Ext w1 w2) : Ext w w2 := by
  refine ⟨h2.length.trans h1.length, ?_, ?_⟩
  · intro b tb hb
    obtain ⟨tb1, hb1, e1, e2, e3⟩ := h1.shape b tb hb
    obtain ⟨tb2, hb2, f1, f2, f3⟩ := h2.shape b tb1 hb1
    exact ⟨tb2, hb2, f1.trans e1, f2.trans e2, f3.trans e3⟩
  · intro b tb hb he
    exact h2.frozen b tb (h1.frozen b tb hb he) he

/-- A node of the later world is a node of the earlier one, with the same static part. -/
theorem Ext.back {w w1 : World} (h : Ext w w1) {b : Nat} {tb1 : Task_}
    (hb : w1.heap[b]? = some tb1) :
    ∃ tb, w.heap[b]? = some tb ∧ tb1.fnc_ = tb.fnc_ ∧ tb1.ret = tb.ret ∧
      tb1.args_ = tb.args_ := by
  have hlt : b < w.heap.length := by
    have := (List.getElem?_eq_some.1 hb).1
    rw [h.length] at this
    exact this
  obtain ⟨tb, htb⟩ : ∃ tb, w.heap[b]? = some tb := ⟨w.heap[b], by simp [hlt]⟩
  obtain ⟨tb2, hb2, e1, e2, e3⟩ := h.shape b tb htb
  rw [hb] at hb2
  cases hb2
  exact ⟨tb, htb, e1, e2, e3⟩

theorem Ext.cached {w w1 : World} (h : Ext w w1) {a : AbstractArgument_} {v : Val}
    (hc : AbstractArgument_.cached w.heap a = some v) :
    AbstractArgument_.cached w1.heap a = some v := by
  cases a with
  | simple x => exact hc
  | future f =>
    rw [cached_future_iff] at hc ⊢
    obtain ⟨t, ht, he, hty, hr⟩ := hc
    exact ⟨t, h.frozen _ t ht he, he, hty, hr⟩

theorem Ext.cachedAll {w w1 : World} (h : Ext w w1) {args : List AbstractArgument_}
    {vs : List Val} (hc : Cached w.heap args vs) : Cached w1.heap args vs := by
  unfold Scheduler.Cached at hc ⊢
  exact hc.imp (fun _ _ hx => h.cached hx)

theorem Ext.acyclic {w w1 : World} (h : Ext w w1) (ha : Acyclic w.heap) :
    Acyclic w1.heap := by
  intro b tb1 hb f hf
  obtain ⟨tb, htb, _, _, e3⟩ := h.back hb
  exact ha b tb htb f (e3 ▸ hf)

theorem Ext.ext_raises {w w1 : World} (h : Ext w w1) {e : Exn} (hr : Raises w1.heap e) :
    Raises w.heap e := by
  rcases hr with ⟨a, t, vs, ht, hf⟩ | ⟨he, a, t, tb, f, ht, hmem, htb, hne⟩
  · obtain ⟨t0, ht0, e1, _, _⟩ := h.back ht
    exact Or.inl ⟨a, t0, vs, ht0, e1 ▸ hf⟩
  · obtain ⟨t0, ht0, _, _, e3⟩ := h.back ht
    obtain ⟨tb0, htb0, _, e2, _⟩ := h.back htb
    exact Or.inr ⟨he, a, t0, tb0, f, ht0, e3 ▸ hmem, htb0, e2 ▸ hne⟩

theorem Ext.noFail {w w1 : World} (h : Ext w w1) (hn : NoFail w.heap) :
    NoFail w1.heap := by
  intro a t ht vs e
  obtain ⟨t0, ht0, e1, _, _⟩ := h.back ht
  rw [e1]
  exact hn a t0 ht0 vs e

theorem Ext.wellTyped {w w1 : World} (h : Ext w w1) (hn : WellTyped w.heap) :
    WellTyped w1.heap := by
  intro a t ht f hf tb htb
  obtain ⟨t0, ht0, _, _, e3⟩ := h.back ht
  obtain ⟨tb0, htb0, _, e2, _⟩ := h.back htb
  rw [e2]
  exact hn a t0 ht0 f (e3 ▸ hf) tb0 htb0

/-- The node written by a successful `eval` is read back at its address. -/
theorem getElem?_set_done {heap : List Task_} {a : Nat} {t x : Task_}
    (ht : heap[a]? = some t) : (heap.set a x)[a]? = some x := by
  have hlt : a < heap.length := (List.getElem?_eq_some.1 ht).1
  simp [List.getElem?_set, hlt]

theorem Fire.fire_ext {a : Nat} {w w1 : World} (h : Fire a w w1) : Ext w w1 := by
  cases h with
  | ok t vs v ht hu hc hf =>
    refine ⟨by simp, ?_, ?_⟩
    · intro b tb hb
      by_cases hab : a = b
      · subst hab
        rw [ht] at hb
        cases hb
        exact ⟨t.done v, getElem?_set_done ht, rfl, rfl, rfl⟩
      · exact ⟨tb, by simpa [List.getElem?_set_ne hab] using hb, rfl, rfl, rfl⟩
    · intro b tb hb he
      by_cases hab : a = b
      · subst hab
        rw [ht] at hb
        cases hb
        rw [hu] at he
        cases he
      · simpa [List.getElem?_set_ne hab] using hb
  | fail t vs e ht hu hc hf => exact ⟨rfl, fun _ tb h => ⟨tb, h, rfl, rfl, rfl⟩, fun _ _ h _ => h⟩

theorem Fire.other {a : Nat} {w w1 : World} (h : Fire a w w1) {b : Nat} (hab : a ≠ b) :
    w1.heap[b]? = w.heap[b]? := by
  cases h with
  | ok t vs v ht hu hc hf => simp [List.getElem?_set_ne hab]
  | fail t vs e ht hu hc hf => rfl

theorem Fire.fire_calls {a : Nat} {w w1 : World} (h : Fire a w w1) :
    w1.calls = w.calls ++ [a] := by
  cases h <;> rfl

theorem Fires.fires_refl (n : Nat) (w : World) : Fires n w w := Relation.ReflTransGen.refl

theorem Fires.fires_trans {n : Nat} {w w1 w2 : World} (h1 : Fires n w w1) (h2 : Fires n w1 w2) :
    Fires n w w2 := Relation.ReflTransGen.trans h1 h2

theorem Fires.tail {n a : Nat} {w w1 w2 : World} (h1 : Fires n w w1) (ha : a < n)
    (h2 : Fire a w1 w2) : Fires n w w2 := Relation.ReflTransGen.tail h1 ⟨a, ha, h2⟩

theorem Fires.mono {n m : Nat} {w w1 : World} (hnm : n ≤ m) (h : Fires n w w1) :
    Fires m w w1 := by
  induction h with
  | refl => exact Fires.fires_refl _ _
  | tail _ hs ih =>
    obtain ⟨a, ha, hf⟩ := hs
    exact Fires.tail ih (lt_of_lt_of_le ha hnm) hf

theorem Fires.fires_ext {n : Nat} {w w1 : World} (h : Fires n w w1) : Ext w w1 := by
  induction h with
  | refl => exact Ext.ext_refl _
  | tail _ hs ih =>
    obtain ⟨a, _, hf⟩ := hs
    exact ih.ext_trans hf.fire_ext

/-- Invocations below `n` leave the nodes from `n` on untouched. -/
theorem Fires.above {n : Nat} {w w1 : World} (h : Fires n w w1) {b : Nat} (hb : n ≤ b) :
    w1.heap[b]? = w.heap[b]? := by
  induction h with
  | refl => rfl
  | tail _ hs ih =>
    obtain ⟨a, ha, hf⟩ := hs
    rw [hf.other (by omega), ih]

/-- Invocations below `n` append addresses below `n` to the log. -/
theorem Fires.fires_calls {n : Nat} {w w1 : World} (h : Fires n w w1) :
    ∃ l, w1.calls = w.calls ++ l ∧ ∀ x ∈ l, x < n := by
  induction h with
  | refl => exact ⟨[], by simp, by simp⟩
  | tail _ hs ih =>
    obtain ⟨a, ha, hf⟩ := hs
    obtain ⟨l, hl, hlt⟩ := ih
    refine ⟨l ++ [a], by rw [hf.fire_calls, hl, List.append_assoc], ?_⟩
    intro x hx
    rcases List.mem_append.1 hx with hx | hx
    · exact hlt x hx
    · simp at hx
      omega

theorem Fire.fire_sound {a : Nat} {w w1 : World} (h : Fire a w w1) (hs : Sound w.heap) :
    Sound w1.heap := by
  have hext := h.fire_ext
  cases h with
  | ok t vs v ht hu hc hf =>
    intro b tb hb he
    by_cases hab : a = b
    · subst hab
      rw [getElem?_set_done ht] at hb
      cases hb
      exact ⟨vs, v, hext.cachedAll hc, hf, rfl⟩
    · rw [List.getElem?_set_ne hab] at hb
      obtain ⟨vs1, v1, h1, h2, h3⟩ := hs b tb hb he
      exact ⟨vs1, v1, hext.cachedAll h1, h2, h3⟩
  | fail t vs e ht hu hc hf => exact hs

theorem Fires.fires_sound {n : Nat} {w w1 : World} (h : Fires n w w1) (hs : Sound w.heap) :
    Sound w1.heap := by
  induction h with
  | refl => exact hs
  | tail _ hstep ih =>
    obtain ⟨a, _, hf⟩ := hstep
    exact hf.fire_sound ih

/-- The invocation that ends a successful `eval` is a `Fire` step. -/
theorem EvalPost.fires {a : Nat} {t : Task_} {w w1 : World} {o : Outcome Unit}
    (h : EvalPost a t w w1 o) (ht : w.heap[a]? = some t) (hu : t.isEvaulated_ = false) :
    Fires (a + 1) w w1 := by
  cases o with
  | ok u =>
    obtain ⟨w0, vs, v, hf, hc, hv, rfl⟩ := h
    have ht0 : w0.heap[a]? = some t := by rw [hf.above (le_refl a), ht]
    exact Fires.tail (hf.mono (Nat.le_succ a)) (Nat.lt_succ_self a) (Fire.ok t vs v ht0 hu hc hv)
  | throw e =>
    rcases h with ⟨hf, _⟩ | ⟨w0, vs, hf, hc, hv, rfl⟩
    · exact hf.mono (Nat.le_succ a)
    · have ht0 : w0.heap[a]? = some t := by rw [hf.above (le_refl a), ht]
      exact Fires.tail (hf.mono (Nat.le_succ a)) (Nat.lt_succ_self a)
        (Fire.fail t vs e ht0 hu hc hv)
  | ub => exact Fires.mono (Nat.le_succ a) h
  | timeout => exact Fires.mono (Nat.le_succ a) h

/-- After a successful `eval` the node is written with the value of the callable. -/
theorem EvalPost.ok_node {a : Nat} {t : Task_} {w w1 : World} {u : Unit}
    (h : EvalPost a t w w1 (.ok u)) (ht : w.heap[a]? = some t)
    (hu : t.isEvaulated_ = false) :
    ∃ vs v, Cached w1.heap t.args_ vs ∧ t.fnc_ vs = .ok v ∧
      w1.heap[a]? = some (t.done v) := by
  obtain ⟨w0, vs, v, hf, hc, hv, rfl⟩ := h
  have ht0 : w0.heap[a]? = some t := by rw [hf.above (le_refl a), ht]
  exact ⟨vs, v, (Fire.ok t vs v ht0 hu hc hv).fire_ext.cachedAll hc, hv, getElem?_set_done ht0⟩

/-- An `eval` that does not return normally leaves its own node untouched. -/
theorem EvalPost.not_ok_node {a : Nat} {t : Task_} {w w1 : World} {o : Outcome Unit}
    (h : EvalPost a t w w1 o) (ht : w.heap[a]? = some t) (ho : ∀ u, o ≠ .ok u) :
    w1.heap[a]? = some t := by
  cases o with
  | ok u => exact absurd rfl (ho u)
  | throw e =>
    rcases h with ⟨hf, _⟩ | ⟨w0, vs, hf, hc, hv, rfl⟩
    · rw [hf.above (le_refl a), ht]
    · show w0.heap[a]? = some t
      rw [hf.above (le_refl a), ht]
  | ub => rw [Fires.above h (le_refl a), ht]
  | timeout => rw [Fires.above h (le_refl a), ht]

/-- The exception of an `eval` has a source in the heap. -/
theorem EvalPost.post_raises {a : Nat} {t : Task_} {w w1 : World} {e : Exn}
    (h : EvalPost a t w w1 (.throw e)) (ht : w.heap[a]? = some t) : Raises w.heap e := by
  rcases h with ⟨_, hr⟩ | ⟨w0, vs, hf, hc, hv, rfl⟩
  · exact hr
  · exact Or.inl ⟨a, t, vs, ht, hv⟩

/-- What one read `arg->get()` does, for a binding held by the node at `a`, when the
recursive `eval` meets its specification. -/
theorem get_post (evalRec : World → Nat → World × Outcome Unit)
    (hrec : ∀ (w : World) (b : Nat) (t : Task_) (w1 : World) (o : Outcome Unit),
      Acyclic w.heap → w.heap[b]? = some t → t.isEvaulated_ = false →
      evalRec w b = (w1, o) → EvalPost b t w w1 o)
    (a : Nat) (ta : Task_) (arg : AbstractArgument_) (w w1 : World) (o : Outcome Val)
    (hac : Acyclic w.heap) (hta : w.heap[a]? = some ta) (hmem : arg ∈ ta.args_)
    (hget : AbstractArgument_.get evalRec arg w = (w1, o)) :
    Fires a w w1 ∧
      (∀ v, o = .ok v → AbstractArgument_.cached w1.heap arg = some v) ∧
      (∀ e, o = .throw e → Raises w.heap e) := by
  cases arg with
  | simple x =>
    simp only [AbstractArgument_.get, Prod.mk.injEq] at hget
    obtain ⟨rfl, rfl⟩ := hget
    exact ⟨Fires.fires_refl _ _, (fun v hv => by cases hv; rfl), (fun e he => by cases he)⟩
  | future f =>
    have hlt : f.task_ < a := hac a ta hta f hmem
    simp only [AbstractArgument_.get, FutureResult_.get] at hget
    cases htb : w.heap[f.task_]? with
    | none =>
      simp only [htb, Prod.mk.injEq] at hget
      obtain ⟨rfl, rfl⟩ := hget
      exact ⟨Fires.fires_refl _ _, (fun v hv => by cases hv), (fun e he => by cases he)⟩
    | some tb =>
      simp only [htb, AnyTask_.getStatus] at hget
      cases hst : tb.isEvaulated_ with
      | true =>
        simp only [hst, if_true, Prod.mk.injEq] at hget
        obtain ⟨rfl, rfl⟩ := hget
        refine ⟨Fires.fires_refl _ _, ?_, ?_⟩
        · intro v hv
          rw [cached_future_iff]
          unfold AnyTask_.getRes at hv
          split at hv
          · rename_i hty
            split at hv
            · rename_i v1 hr
              cases hv
              exact ⟨tb, htb, hst, hty, hr⟩
            · cases hv
          · cases hv
        · intro e he
          unfold AnyTask_.getRes at he
          split at he
          · split at he <;> cases he
          · rename_i hty
            cases he
            exact Or.inr ⟨rfl, a, ta, tb, f, hta, hmem, htb, hty⟩
      | false =>
        simp only [hst, Bool.false_eq_true, if_false] at hget
        cases hev : evalRec w f.task_ with
        | mk w2 o2 =>
          have hpost := hrec w f.task_ tb w2 o2 hac htb hst hev
          have hfires : Fires a w w2 := (hpost.fires htb hst).mono hlt
          simp only [hev] at hget
          cases o2 with
          | ok u =>
            obtain ⟨vs, v, hc, hv, hnode⟩ := hpost.ok_node htb hst
            simp only [hnode, Prod.mk.injEq] at hget
            obtain ⟨rfl, rfl⟩ := hget
            refine ⟨hfires, ?_, ?_⟩
            · intro v1 hv1
              rw [cached_future_iff]
              unfold AnyTask_.getRes at hv1
              split at hv1
              · rename_i hty
                simp only [Task_.done] at hv1
                cases hv1
                exact ⟨tb.done v, hnode, rfl, hty, rfl⟩
              · cases hv1
            · intro e he
              unfold AnyTask_.getRes at he
              split at he
              · simp only [Task_.done] at he
                cases he
              · rename_i hty
                cases he
                exact Or.inr ⟨rfl, a, ta, tb, f, hta, hmem, htb, hty⟩
          | throw e2 =>
            simp only [Prod.mk.injEq] at hget
            obtain ⟨rfl, rfl⟩ := hget
            exact ⟨hfires, (fun v hv => by cases hv),
              (fun e he => by cases he; exact hpost.post_raises htb)⟩
          | ub =>
            simp only [Prod.mk.injEq] at hget
            obtain ⟨rfl, rfl⟩ := hget
            exact ⟨hfires, (fun v hv => by cases hv), (fun e he => by cases he)⟩
          | timeout =>
            simp only [Prod.mk.injEq] at hget
            obtain ⟨rfl, rfl⟩ := hget
            exact ⟨hfires, (fun v hv => by cases hv), (fun e he => by cases he)⟩

/-- What the sequence of reads does, for bindings held by the node at `a`. -/
theorem getAll_post (evalRec : World → Nat → World × Outcome Unit)
    (hrec : ∀ (w : World) (b : Nat) (t : Task_) (w1 : World) (o : Outcome Unit),
      Acyclic w.heap → w.heap[b]? = some t → t.isEvaulated_ = false →
      evalRec w b = (w1, o) → EvalPost b t w w1 o)
    (a : Nat) (ta : Task_) :
    ∀ (args : List AbstractArgument_) (w w1 : World) (o : Outcome (List Val)),
      Acyclic w.heap → w.heap[a]? = some ta → (∀ x ∈ args, x ∈ ta.args_) →
      getAll evalRec args w = (w1, o) →
      Fires a w w1 ∧ (∀ vs, o = .ok vs → Cached w1.heap args vs) ∧
        (∀ e, o = .throw e → Raises w.heap e) := by
  intro args
  induction args with
  | nil =>
    intro w w1 o _ _ _ h
    simp only [getAll, Prod.mk.injEq] at h
    obtain ⟨rfl, rfl⟩ := h
    exact ⟨Fires.fires_refl _ _, (fun vs hvs => by cases hvs; exact List.Forall₂.nil),
      (fun e he => by cases he)⟩
  | cons x rest ih =>
    intro w w1 o hac hta hmem h
    simp only [getAll] at h
    cases hx : AbstractArgument_.get evalRec x w with
    | mk w2 o2 =>
      obtain ⟨hf2, hok2, hthrow2⟩ :=
        get_post evalRec hrec a ta x w w2 o2 hac hta (hmem x (List.mem_cons_self _ _)) hx
      simp only [hx] at h
      cases o2 with
      | ok v =>
        have hac2 : Acyclic w2.heap := hf2.fires_ext.acyclic hac
        have hta2 : w2.heap[a]? = some ta := by rw [hf2.above (le_refl a), hta]
        cases hr : getAll evalRec rest w2 with
        | mk w3 o3 =>
          obtain ⟨hf3, hok3, hthrow3⟩ := ih w2 w3 o3 hac2 hta2
            (fun y hy => hmem y (List.mem_cons_of_mem _ hy)) hr
          simp only [hr] at h
          cases o3 with
          | ok vs =>
            simp only [Prod.mk.injEq] at h
            obtain ⟨rfl, rfl⟩ := h
            refine ⟨hf2.fires_trans hf3, ?_, (fun e he => by cases he)⟩
            intro vs1 hvs1
            cases hvs1
            exact List.Forall₂.cons (hf3.fires_ext.cached (hok2 v rfl)) (hok3 vs rfl)
          | throw e =>
            simp only [Prod.mk.injEq] at h
            obtain ⟨rfl, rfl⟩ := h
            exact ⟨hf2.fires_trans hf3, (fun vs hvs => by cases hvs),
              (fun e1 he1 => by cases he1; exact hf2.fires_ext.ext_raises (hthrow3 e rfl))⟩
          | ub =>
            simp only [Prod.mk.injEq] at h
            obtain ⟨rfl, rfl⟩ := h
            exact ⟨hf2.fires_trans hf3, (fun vs hvs => by cases hvs), (fun e he => by cases he)⟩
          | timeout =>
            simp only [Prod.mk.injEq] at h
            obtain ⟨rfl, rfl⟩ := h
            exact ⟨hf2.fires_trans hf3, (fun vs hvs => by cases hvs), (fun e he => by cases he)⟩
      | throw e =>
        simp only [Prod.mk.injEq] at h
        obtain ⟨rfl, rfl⟩ := h
        exact ⟨hf2, (fun vs hvs => by cases hvs),
          (fun e1 he1 => by cases he1; exact hthrow2 e rfl)⟩
      | ub =>
        simp only [Prod.mk.injEq] at h
        obtain ⟨rfl, rfl⟩ := h
        exact ⟨hf2, (fun vs hvs => by cases hvs), (fun e he => by cases he)⟩
      | timeout =>
        simp only [Prod.mk.injEq] at h
        obtain ⟨rfl, rfl⟩ := h
        exact ⟨hf2, (fun vs hvs => by cases hvs), (fun e he => by cases he)⟩

theorem Cached.reverse {heap : List Task_} {args : List AbstractArgument_} {vs : List Val}
    (h : Cached heap args.reverse vs) : Cached heap args vs.reverse := by
  unfold Cached at h ⊢
  rw [← List.forall₂_reverse_iff, List.reverse_reverse]
  exact h

/-- What the argument reads of `eval` do, in either order. -/
theorem readArgs_post (evalRec : World → Nat → World × Outcome Unit)
    (hrec : ∀ (w : World) (b : Nat) (t : Task_) (w1 : World) (o : Outcome Unit),
      Acyclic w.heap → w.heap[b]? = some t → t.isEvaulated_ = false →
      evalRec w b = (w1, o) → EvalPost b t w w1 o)
    (rtl : Bool) (a : Nat) (ta : Task_) (w w1 : World) (o : Outcome (List Val))
    (hac : Acyclic w.heap) (hta : w.heap[a]? = some ta)
    (h : readArgs evalRec rtl ta.args_ w = (w1, o)) :
    Fires a w w1 ∧ (∀ vs, o = .ok vs → Cached w1.heap ta.args_ vs) ∧
      (∀ e, o = .throw e → Raises w.heap e) := by
  unfold readArgs at h
  cases rtl with
  | false =>
    simp only [Bool.false_eq_true, if_false] at h
    exact getAll_post evalRec hrec a ta ta.args_ w w1 o hac hta (fun _ hx => hx) h
  | true =>
    simp only [if_true] at h
    cases hr : getAll evalRec ta.args_.reverse w with
    | mk w2 o2 =>
      obtain ⟨hf, hok, hthrow⟩ := getAll_post evalRec hrec a ta ta.args_.reverse w w2 o2 hac hta
        (fun x hx => List.mem_reverse.1 hx) hr
      simp only [hr] at h
      cases o2 with
      | ok vs =>
        simp only [Prod.mk.injEq] at h
        obtain ⟨rfl, rfl⟩ := h
        exact ⟨hf, (fun vs1 h1 => by cases h1; exact (hok vs rfl).reverse),
          (fun e he => by cases he)⟩
      | throw e =>
        simp only [Prod.mk.injEq] at h
        obtain ⟨rfl, rfl⟩ := h
        exact ⟨hf, (fun vs hvs => by cases hvs),
          (fun e1 he1 => by cases he1; exact hthrow e rfl)⟩
      | ub =>
        simp only [Prod.mk.injEq] at h
        obtain ⟨rfl, rfl⟩ := h
        exact ⟨hf, (fun vs hvs => by cases hvs), (fun e he => by cases he)⟩
      | timeout =>
        simp only [Prod.mk.injEq] at h
        obtain ⟨rfl, rfl⟩ := h
        exact ⟨hf, (fun vs hvs => by cases hvs), (fun e he => by cases he)⟩

/-- The specification of `Task_::eval` on an unevaluated node of an acyclic heap. -/
theorem eval_post (rtl : Bool) :
    ∀ (fuel : Nat) (w : World) (a : Nat) (t : Task_) (w1 : World) (o : Outcome Unit),
      Acyclic w.heap → w.heap[a]? = some t → t.isEvaulated_ = false →
      Task_.eval rtl fuel w a = (w1, o) → EvalPost a t w w1 o := by
  intro fuel
  induction fuel with
  | zero =>
    intro w a t w1 o _ _ _ h
    simp only [Task_.eval, Prod.mk.injEq] at h
    obtain ⟨rfl, rfl⟩ := h
    exact Fires.fires_refl _ _
  | succ fuel ih =>
    intro w a t w1 o hac ht hu h
    simp only [Task_.eval, ht] at h
    cases hr : readArgs (Task_.eval rtl fuel) rtl t.args_ w with
    | mk w2 o2 =>
      obtain ⟨hf, hok, hthrow⟩ :=
        readArgs_post (Task_.eval rtl fuel) ih rtl a t w w2 o2 hac ht hr
      simp only [hr] at h
      cases o2 with
      | ok vs =>
        simp only at h
        cases hv : t.fnc_ vs with
        | ok v =>
          simp only [hv, Prod.mk.injEq] at h
          obtain ⟨rfl, rfl⟩ := h
          exact ⟨w2, vs, v, hf, hok vs rfl, hv, rfl⟩
        | error e =>
          simp only [hv, Prod.mk.injEq] at h
          obtain ⟨rfl, rfl⟩ := h
          exact Or.inr ⟨w2, vs, hf, hok vs rfl, hv, rfl⟩
      | throw e =>
        simp only [Prod.mk.injEq] at h
        obtain ⟨rfl, rfl⟩ := h
        exact Or.inl ⟨hf, hthrow e rfl⟩
      | ub =>
        simp only [Prod.mk.injEq] at h
        obtain ⟨rfl, rfl⟩ := h
        exact hf
      | timeout =>
        simp only [Prod.mk.injEq] at h
        obtain ⟨rfl, rfl⟩ := h
        exact hf

theorem Sound.getRes_ends {heap : List Task_} (hs : Sound heap) {b : Nat} {tb : Task_}
    (hb : heap[b]? = some tb) (he : tb.isEvaulated_ = true) (T : Ty) :
    (AnyTask_.getRes tb T).Ends := by
  obtain ⟨vs, v, _, _, hr⟩ := hs b tb hb he
  unfold AnyTask_.getRes
  split
  · simp [hr, Outcome.Ends]
  · simp [Outcome.Ends]

theorem getRes_done_ends (t : Task_) (v : Val) (T : Ty) :
    (AnyTask_.getRes (t.done v) T).Ends := by
  unfold AnyTask_.getRes
  split <;> simp [Task_.done, Outcome.Ends]

/-- One read ends with defined behaviour when the recursive `eval` does. -/
theorem get_ends (evalRec : World → Nat → World × Outcome Unit)
    (hrec : ∀ (w : World) (b : Nat) (t : Task_) (w1 : World) (o : Outcome Unit),
      Acyclic w.heap → w.heap[b]? = some t → t.isEvaulated_ = false →
      evalRec w b = (w1, o) → EvalPost b t w w1 o)
    (n : Nat)
    (hret : ∀ (w : World) (b : Nat) (w1 : World) (o : Outcome Unit),
      Acyclic w.heap → Sound w.heap → b < w.heap.length → b < n →
      evalRec w b = (w1, o) → o.Ends)
    (a : Nat) (ta : Task_) (arg : AbstractArgument_) (w w1 : World) (o : Outcome Val)
    (hac : Acyclic w.heap) (hs : Sound w.heap) (hta : w.heap[a]? = some ta)
    (han : a ≤ n) (hmem : arg ∈ ta.args_)
    (hget : AbstractArgument_.get evalRec arg w = (w1, o)) : o.Ends := by
  cases arg with
  | simple x =>
    simp only [AbstractArgument_.get, Prod.mk.injEq] at hget
    obtain ⟨rfl, rfl⟩ := hget
    trivial
  | future f =>
    have hlt : f.task_ < a := hac a ta hta f hmem
    have hal : a < w.heap.length := (List.getElem?_eq_some.1 hta).1
    have hbl : f.task_ < w.heap.length := lt_trans hlt hal
    obtain ⟨tb, htb⟩ : ∃ tb, w.heap[f.task_]? = some tb := ⟨w.heap[f.task_], by simp [hbl]⟩
    simp only [AbstractArgument_.get, FutureResult_.get, htb, AnyTask_.getStatus] at hget
    cases hst : tb.isEvaulated_ with
    | true =>
      simp only [hst, if_true, Prod.mk.injEq] at hget
      obtain ⟨rfl, rfl⟩ := hget
      exact hs.getRes_ends htb hst f.T
    | false =>
      simp only [hst, Bool.false_eq_true, if_false] at hget
      cases hev : evalRec w f.task_ with
      | mk w2 o2 =>
        have hpost := hrec w f.task_ tb w2 o2 hac htb hst hev
        have hends := hret w f.task_ w2 o2 hac hs hbl (lt_of_lt_of_le hlt han) hev
        simp only [hev] at hget
        cases o2 with
        | ok u =>
          obtain ⟨vs, v, hc, hv, hnode⟩ := hpost.ok_node htb hst
          simp only [hnode, Prod.mk.injEq] at hget
          obtain ⟨rfl, rfl⟩ := hget
          exact getRes_done_ends tb v f.T
        | throw e2 =>
          simp only [Prod.mk.injEq] at hget
          obtain ⟨rfl, rfl⟩ := hget
          trivial
        | ub => exact absurd hends (by simp [Outcome.Ends])
        | timeout => exact absurd hends (by simp [Outcome.Ends])

theorem getAll_ends (evalRec : World → Nat → World × Outcome Unit)
    (hrec : ∀ (w : World) (b : Nat) (t : Task_) (w1 : World) (o : Outcome Unit),
      Acyclic w.heap → w.heap[b]? = some t → t.isEvaulated_ = false →
      evalRec w b = (w1, o) → EvalPost b t w w1 o)
    (n : Nat)
    (hret : ∀ (w : World) (b : Nat) (w1 : World) (o : Outcome Unit),
      Acyclic w.heap → Sound w.heap → b < w.heap.length → b < n →
      evalRec w b = (w1, o) → o.Ends)
    (a : Nat) (ta : Task_) (han : a ≤ n) :
    ∀ (args : List AbstractArgument_) (w w1 : World) (o : Outcome (List Val)),
      Acyclic w.heap → Sound w.heap → w.heap[a]? = some ta → (∀ x ∈ args, x ∈ ta.args_) →
      getAll evalRec args w = (w1, o) → o.Ends := by
  intro args
  induction args with
  | nil =>
    intro w w1 o _ _ _ _ h
    simp only [getAll, Prod.mk.injEq] at h
    obtain ⟨rfl, rfl⟩ := h
    trivial
  | cons x rest ih =>
    intro w w1 o hac hs hta hmem h
    simp only [getAll] at h
    cases hx : AbstractArgument_.get evalRec x w with
    | mk w2 o2 =>
      have hxmem := hmem x (List.mem_cons_self _ _)
      obtain ⟨hf2, _, _⟩ := get_post evalRec hrec a ta x w w2 o2 hac hta hxmem hx
      have hends2 := get_ends evalRec hrec n hret a ta x w w2 o2 hac hs hta han hxmem hx
      simp only [hx] at h
      cases o2 with
      | ok v =>
        have hac2 : Acyclic w2.heap := hf2.fires_ext.acyclic hac
        have hta2 : w2.heap[a]? = some ta := by rw [hf2.above (le_refl a), hta]
        cases hr : getAll evalRec rest w2 with
        | mk w3 o3 =>
          have hends3 := ih w2 w3 o3 hac2 (hf2.fires_sound hs) hta2
            (fun y hy => hmem y (List.mem_cons_of_mem _ hy)) hr
          simp only [hr] at h
          cases o3 with
          | ok vs =>
            simp only [Prod.mk.injEq] at h
            obtain ⟨rfl, rfl⟩ := h
            trivial
          | throw e =>
            simp only [Prod.mk.injEq] at h
            obtain ⟨rfl, rfl⟩ := h
            trivial
          | ub => exact absurd hends3 (by simp [Outcome.Ends])
          | timeout => exact absurd hends3 (by simp [Outcome.Ends])
      | throw e =>
        simp only [Prod.mk.injEq] at h
        obtain ⟨rfl, rfl⟩ := h
        trivial
      | ub => exact absurd hends2 (by simp [Outcome.Ends])
      | timeout => exact absurd hends2 (by simp [Outcome.Ends])

theorem readArgs_ends (evalRec : World → Nat → World × Outcome Unit)
    (hrec : ∀ (w : World) (b : Nat) (t : Task_) (w1 : World) (o : Outcome Unit),
      Acyclic w.heap → w.heap[b]? = some t → t.isEvaulated_ = false →
      evalRec w b = (w1, o) → EvalPost b t w w1 o)
    (n : Nat)
    (hret : ∀ (w : World) (b : Nat) (w1 : World) (o : Outcome Unit),
      Acyclic w.heap → Sound w.heap → b < w.heap.length → b < n →
      evalRec w b = (w1, o) → o.Ends)
    (rtl : Bool) (a : Nat) (ta : Task_) (han : a ≤ n) (w w1 : World)
    (o : Outcome (List Val)) (hac : Acyclic w.heap) (hs : Sound w.heap)
    (hta : w.heap[a]? = some ta) (h : readArgs evalRec rtl ta.args_ w = (w1, o)) :
    o.Ends := by
  unfold readArgs at h
  cases rtl with
  | false =>
    simp only [Bool.false_eq_true, if_false] at h
    exact getAll_ends evalRec hrec n hret a ta han ta.args_ w w1 o hac hs hta
      (fun _ hx => hx) h
  | true =>
    simp only [if_true] at h
    cases hr : getAll evalRec ta.args_.reverse w with
    | mk w2 o2 =>
      have hends := getAll_ends evalRec hrec n hret a ta han ta.args_.reverse w w2 o2 hac hs
        hta (fun x hx => List.mem_reverse.1 hx) hr
      simp only [hr] at h
      cases o2 with
      | ok vs =>
        simp only [Prod.mk.injEq] at h
        obtain ⟨rfl, rfl⟩ := h
        trivial
      | throw e =>
        simp only [Prod.mk.injEq] at h
        obtain ⟨rfl, rfl⟩ := h
        trivial
      | ub => exact absurd hends (by simp [Outcome.Ends])
      | timeout => exact absurd hends (by simp [Outcome.Ends])

/-- With more fuel than the address, `Task_::eval` on a node of an acyclic, sound heap
returns or throws: the recursion is bounded and no slot is read before it is written. -/
theorem eval_ends (rtl : Bool) :
    ∀ (fuel : Nat) (w : World) (a : Nat) (w1 : World) (o : Outcome Unit),
      Acyclic w.heap → Sound w.heap → a < w.heap.length → a < fuel →
      Task_.eval rtl fuel w a = (w1, o) → o.Ends := by
  intro fuel
  induction fuel with
  | zero => intro w a w1 o _ _ _ h; omega
  | succ fuel ih =>
    intro w a w1 o hac hs hal haf h
    obtain ⟨t, ht⟩ : ∃ t, w.heap[a]? = some t := ⟨w.heap[a], by simp [hal]⟩
    simp only [Task_.eval, ht] at h
    cases hr : readArgs (Task_.eval rtl fuel) rtl t.args_ w with
    | mk w2 o2 =>
      have hends := readArgs_ends (Task_.eval rtl fuel) (eval_post rtl fuel) fuel ih rtl a t
        (Nat.lt_succ_iff.1 haf) w w2 o2 hac hs ht hr
      simp only [hr] at h
      cases o2 with
      | ok vs =>
        simp only at h
        cases hv : t.fnc_ vs with
        | ok v =>
          simp only [hv, Prod.mk.injEq] at h
          obtain ⟨rfl, rfl⟩ := h
          trivial
        | error e =>
          simp only [hv, Prod.mk.injEq] at h
          obtain ⟨rfl, rfl⟩ := h
          trivial
      | throw e =>
        simp only [Prod.mk.injEq] at h
        obtain ⟨rfl, rfl⟩ := h
        trivial
      | ub => exact absurd hends (by simp [Outcome.Ends])
      | timeout => exact absurd hends (by simp [Outcome.Ends])

theorem cached_functional {heap : List Task_} {args : List AbstractArgument_}
    {vs vs1 : List Val} (h : Cached heap args vs) (h1 : Cached heap args vs1) : vs = vs1 := by
  unfold Cached at h h1
  induction h generalizing vs1 with
  | nil => cases h1; rfl
  | cons hx _ ih =>
    cases h1 with
    | cons hy hrest =>
      rw [hx] at hy
      cases hy
      rw [ih hrest]

theorem Fire.counted {a : Nat} {w w1 : World} (h : Fire a w w1) (hc : Counted w) :
    Counted w1 := by
  have hext := h.fire_ext
  have hcalls := h.fire_calls
  intro b tb1 hb1
  by_cases hab : a = b
  · subst hab
    cases h with
    | ok t vs v ht hu hcv hf =>
      rw [getElem?_set_done ht] at hb1
      cases hb1
      refine ⟨(fun _ => ?_), (fun hfalse => by simp [Task_.done] at hfalse)⟩
      have h0 : w.calls.count a = 0 := by
        rcases (hc a t ht).2 hu with h0 | ⟨vs1, e, hc1, hf1⟩
        · exact h0
        · rw [cached_functional hc1 hcv, hf] at hf1
          cases hf1
      simp [h0]
    | fail t vs e ht hu hcv hf =>
      rw [ht] at hb1
      cases hb1
      exact ⟨(fun he => by rw [hu] at he; cases he), (fun _ => Or.inr ⟨vs, e, hcv, hf⟩)⟩
  · have hb : w.heap[b]? = some tb1 := by rw [← h.other hab, hb1]
    have hcount : w1.calls.count b = w.calls.count b := by
      rw [hcalls]
      simp [List.count_singleton, hab]
    rw [hcount]
    refine ⟨(hc b tb1 hb).1, fun hu => ?_⟩
    rcases (hc b tb1 hb).2 hu with h0 | ⟨vs1, e, hc1, hf1⟩
    · exact Or.inl h0
    · exact Or.inr ⟨vs1, e, hext.cachedAll hc1, hf1⟩

theorem Fire.tallied {a : Nat} {w w1 : World} (h : Fire a w w1) (hc : Tallied w) :
    Tallied w1 := by
  intro b
  have hb := hc b
  cases h with
  | ok t vs v ht hu hcv hf =>
    by_cases hab : a = b
    · subst hab
      simp only [ht, hu, Bool.false_eq_true, if_false] at hb
      simp only [getElem?_set_done ht, Task_.done, if_true, List.count_append,
        List.count_singleton_self, hb]
      omega
    · simp only [List.getElem?_set_ne hab, List.count_append, List.count_singleton, hb]
      simp [hab]
  | fail t vs e ht hu hcv hf =>
    by_cases hab : a = b
    · subst hab
      simp only [List.count_append, List.count_singleton_self, hb]
      omega
    · simp only [List.count_append, List.count_singleton, hb]
      simp [hab]

theorem Fire.fire_good {a : Nat} {w w1 : World} (h : Fire a w w1) (hg : Good w) : Good w1 := by
  refine ⟨h.fire_ext.acyclic hg.acyclic, h.fire_sound hg.sound, h.counted hg.counted,
    h.tallied hg.tallied, ?_, ?_⟩
  · intro x hx
    rw [h.fire_calls] at hx
    rw [h.fire_ext.length]
    rcases List.mem_append.1 hx with hx | hx
    · exact hg.logged x hx
    · simp only [List.mem_singleton] at hx
      subst hx
      cases h with
      | ok t vs v ht _ _ _ => exact (List.getElem?_eq_some.1 ht).1
      | fail t vs e ht _ _ _ => exact (List.getElem?_eq_some.1 ht).1
  · intro b tb hb hu
    by_cases hab : a = b
    · subst hab
      cases h with
      | ok t vs v ht _ _ _ =>
        rw [getElem?_set_done ht] at hb
        cases hb
        cases hu
      | fail t vs e ht _ _ _ => exact hg.fresh a tb hb hu
    · rw [h.other hab] at hb
      exact hg.fresh b tb hb hu

theorem Fires.fires_good {n : Nat} {w w1 : World} (h : Fires n w w1) (hg : Good w) : Good w1 := by
  induction h with
  | refl => exact hg
  | tail _ hstep ih =>
    obtain ⟨a, _, hf⟩ := hstep
    exact hf.fire_good ih

/-- The loop of `executeAll` is a sequence of invocations. -/
theorem loop_fires (fuel : Nat) (rtl : Bool) :
    ∀ (l : List Nat) (w w1 : World) (o : Outcome Unit), Acyclic w.heap →
      executeAll.loop fuel rtl l w = (w1, o) → Fires w.heap.length w w1 := by
  intro l
  induction l with
  | nil =>
    intro w w1 o _ h
    simp only [executeAll.loop, Prod.mk.injEq] at h
    obtain ⟨rfl, rfl⟩ := h
    exact Fires.fires_refl _ _
  | cons a rest ih =>
    intro w w1 o hac h
    simp only [executeAll.loop] at h
    cases ht : w.heap[a]? with
    | none =>
      simp only [ht, Prod.mk.injEq] at h
      obtain ⟨rfl, rfl⟩ := h
      exact Fires.fires_refl _ _
    | some t =>
      simp only [ht, AnyTask_.getStatus] at h
      cases hst : t.isEvaulated_ with
      | true =>
        simp only [hst, if_true] at h
        exact ih w w1 o hac h
      | false =>
        simp only [hst, Bool.false_eq_true, if_false] at h
        cases hev : Task_.eval rtl fuel w a with
        | mk w2 o2 =>
          have hpost := eval_post rtl fuel w a t w2 o2 hac ht hst hev
          have hal : a + 1 ≤ w.heap.length := (List.getElem?_eq_some.1 ht).1
          have hf : Fires w.heap.length w w2 := (hpost.fires ht hst).mono hal
          simp only [hev] at h
          cases o2 with
          | ok u =>
            have := ih w2 w1 o (hf.fires_ext.acyclic hac) h
            rw [hf.fires_ext.length] at this
            exact hf.trans this
          | throw e =>
            simp only [Prod.mk.injEq] at h
            obtain ⟨rfl, rfl⟩ := h
            exact hf
          | ub =>
            simp only [Prod.mk.injEq] at h
            obtain ⟨rfl, rfl⟩ := h
            exact hf
          | timeout =>
            simp only [Prod.mk.injEq] at h
            obtain ⟨rfl, rfl⟩ := h
            exact hf

/-- A call of `getResult` is a sequence of invocations. -/
theorem getResult_fires (fuel : Nat) (rtl : Bool) (s : TTaskScheduler) (w : World) (T : Ty)
    (tid : TaskId_) (w1 : World) (o : Outcome Val) (hac : Acyclic w.heap)
    (h : s.getResult fuel rtl w T tid = (w1, o)) : Fires w.heap.length w w1 := by
  unfold TTaskScheduler.getResult at h
  cases hs : s.tasks_[tid.getId]? with
  | none =>
    simp only [hs, Prod.mk.injEq] at h
    obtain ⟨rfl, rfl⟩ := h
    exact Fires.fires_refl _ _
  | some a =>
    simp only [hs] at h
    cases ht : w.heap[a]? with
    | none =>
      simp only [ht, Prod.mk.injEq] at h
      obtain ⟨rfl, rfl⟩ := h
      exact Fires.fires_refl _ _
    | some t =>
      simp only [ht, AnyTask_.getStatus] at h
      cases hst : t.isEvaulated_ with
      | true =>
        simp only [hst, if_true, Prod.mk.injEq] at h
        obtain ⟨rfl, rfl⟩ := h
        exact Fires.fires_refl _ _
      | false =>
        simp only [hst, Bool.false_eq_true, if_false] at h
        cases hev : Task_.eval rtl fuel w a with
        | mk w2 o2 =>
          have hpost := eval_post rtl fuel w a t w2 o2 hac ht hst hev
          have hal : a + 1 ≤ w.heap.length := (List.getElem?_eq_some.1 ht).1
          have hf : Fires w.heap.length w w2 := (hpost.fires ht hst).mono hal
          simp only [hev] at h
          cases o2 with
          | ok u =>
            obtain ⟨vs, v, _, _, hnode⟩ := hpost.ok_node ht hst
            simp only [hnode, Prod.mk.injEq] at h
            obtain ⟨rfl, rfl⟩ := h
            exact hf
          | throw e =>
            simp only [Prod.mk.injEq] at h
            obtain ⟨rfl, rfl⟩ := h
            exact hf
          | ub =>
            simp only [Prod.mk.injEq] at h
            obtain ⟨rfl, rfl⟩ := h
            exact hf
          | timeout =>
            simp only [Prod.mk.injEq] at h
            obtain ⟨rfl, rfl⟩ := h
            exact hf

theorem cached_append {heap : List Task_} (l : List Task_) {x : AbstractArgument_} {v : Val}
    (h : AbstractArgument_.cached heap x = some v) :
    AbstractArgument_.cached (heap ++ l) x = some v := by
  cases x with
  | simple y => exact h
  | future f =>
    rw [cached_future_iff] at h ⊢
    obtain ⟨t, ht, he, hty, hr⟩ := h
    refine ⟨t, ?_, he, hty, hr⟩
    rw [List.getElem?_append_left (List.getElem?_eq_some.1 ht).1, ht]

theorem Cached.append {heap : List Task_} (l : List Task_) {args : List AbstractArgument_}
    {vs : List Val} (h : Cached heap args vs) : Cached (heap ++ l) args vs := by
  unfold Cached at h ⊢
  exact h.imp (fun _ _ hx => cached_append l hx)

/-- A node of the memory after an allocation is an old node, or the new one at the end. -/
theorem getElem?_append_one {heap : List Task_} {x tb : Task_} {b : Nat}
    (h : (heap ++ [x])[b]? = some tb) :
    heap[b]? = some tb ∨ (b = heap.length ∧ tb = x) := by
  by_cases hb : b < heap.length
  · rw [List.getElem?_append_left hb] at h
    exact Or.inl h
  · rw [List.getElem?_append_right (not_lt.1 hb)] at h
    have hb0 : b - heap.length = 0 := by
      by_contra hne
      obtain ⟨k, hk⟩ := Nat.exists_eq_succ_of_ne_zero hne
      rw [hk] at h
      simp at h
    rw [hb0] at h
    simp only [List.getElem?_cons_zero, Option.some.injEq] at h
    exact Or.inr ⟨by omega, h.symm⟩

theorem mem_map_wrap {args : List TTaskScheduler.Argument} {f : FutureResult_}
    (h : AbstractArgument_.future f ∈ args.map WrapArgument_) :
    TTaskScheduler.Argument.future f ∈ args := by
  obtain ⟨x, hx, hw⟩ := List.mem_map.1 h
  cases x with
  | value v => cases hw
  | future g =>
    simp only [WrapArgument_, AbstractArgument_.future.injEq] at hw
    rw [← hw]
    exact hx

/-- The member `add` keeps the memory good when its handles name allocated nodes. -/
theorem add_good (s : TTaskScheduler) (w : World) (func : List Val → Except Exn Val)
    (ret : Ty) (args : List TTaskScheduler.Argument) (hg : Good w)
    (hh : ∀ f, TTaskScheduler.Argument.future f ∈ args → f.task_ < w.heap.length) :
    Good (s.add w func ret args).1 := by
  simp only [TTaskScheduler.add]
  refine ⟨?_, ?_, ?_, ?_, ?_, ?_⟩
  · intro b tb hb f hf
    rcases getElem?_append_one hb with hb | ⟨rfl, rfl⟩
    · exact hg.acyclic b tb hb f hf
    · exact hh f (mem_map_wrap hf)
  · intro b tb hb he
    rcases getElem?_append_one hb with hb | ⟨rfl, rfl⟩
    · obtain ⟨vs, v, h1, h2, h3⟩ := hg.sound b tb hb he
      exact ⟨vs, v, h1.append _, h2, h3⟩
    · cases he
  · intro b tb hb
    rcases getElem?_append_one hb with hb | ⟨rfl, rfl⟩
    · refine ⟨(hg.counted b tb hb).1, fun hu => ?_⟩
      rcases (hg.counted b tb hb).2 hu with h0 | ⟨vs, e, h1, h2⟩
      · exact Or.inl h0
      · exact Or.inr ⟨vs, e, h1.append _, h2⟩
    · refine ⟨(fun he => by cases he), (fun _ => Or.inl ?_)⟩
      rw [List.count_eq_zero]
      intro hmem
      exact lt_irrefl _ (hg.logged _ hmem)
  · intro b
    have hb := hg.tallied b
    by_cases hlt : b < w.heap.length
    · rw [List.getElem?_append_left hlt]
      exact hb
    · have hnone : w.heap[b]? = none := List.getElem?_eq_none (not_lt.1 hlt)
      rw [hnone] at hb
      rw [hb]
      cases hx : (w.heap ++ [_])[b]? with
      | none => rfl
      | some tb =>
        rcases getElem?_append_one hx with hx | ⟨_, rfl⟩
        · rw [hnone] at hx
          cases hx
        · rfl
  · intro x hx
    simp only [List.length_append, List.length_singleton]
    exact Nat.lt_succ_of_lt (hg.logged x hx)
  · intro b tb hb hu
    rcases getElem?_append_one hb with hb | ⟨_, rfl⟩
    · exact hg.fresh b tb hb hu
    · rfl

theorem Step.step_inv {c c1 : Config} (h : Step c c1) (hi : Inv c) : Inv c1 := by
  cases h with
  | getFutureResult T tid f h =>
    refine ⟨hi.tasks, hi.good, ?_⟩
    intro g hg
    rcases List.mem_cons.1 hg with rfl | hg
    · unfold TTaskScheduler.getFutureResult at h
      cases ha : c.sched.tasks_[tid.getId]? with
      | none => simp [ha] at h
      | some a =>
        simp only [ha, Outcome.ok.injEq] at h
        subst h
        rw [hi.tasks] at ha
        have := List.getElem?_mem ha
        simpa using this
    · exact hi.handles g hg
  | add func ret args h =>
    refine ⟨?_, add_good c.sched c.world func ret args hi.good
      (fun f hf => hi.handles f (h f hf)), ?_⟩
    · simp only [TTaskScheduler.add, hi.tasks, List.length_append, List.length_singleton,
        List.range_succ]
    · intro g hg
      simp only [TTaskScheduler.add, List.length_append, List.length_singleton]
      exact Nat.lt_succ_of_lt (hi.handles g hg)
  | getResult fuel rtl T tid w1 o h hends =>
    have hf := getResult_fires fuel rtl _ _ T tid w1 o hi.good.acyclic h
    refine ⟨?_, hf.fires_good hi.good, ?_⟩
    · show c.sched.tasks_ = List.range w1.heap.length
      rw [hf.fires_ext.length, hi.tasks]
    · intro g hg
      show g.task_ < w1.heap.length
      rw [hf.fires_ext.length]
      exact hi.handles g hg
  | executeAll fuel rtl w1 o h hends =>
    have hf := loop_fires fuel rtl _ _ w1 o hi.good.acyclic h
    refine ⟨?_, hf.fires_good hi.good, ?_⟩
    · show c.sched.tasks_ = List.range w1.heap.length
      rw [hf.fires_ext.length, hi.tasks]
    · intro g hg
      show g.task_ < w1.heap.length
      rw [hf.fires_ext.length]
      exact hi.handles g hg

theorem Inv.inv_init : Inv Config.init := by
  refine ⟨rfl, ⟨?_, ?_, ?_, ?_, ?_, ?_⟩, ?_⟩
  · intro a t h; simp [Config.init] at h
  · intro a t h; simp [Config.init] at h
  · intro a t h; simp [Config.init] at h
  · intro a; simp [Config.init]
  · intro x h; simp [Config.init] at h
  · intro a t h; simp [Config.init] at h
  · intro f h; simp [Config.init] at h

/-- Every reachable state satisfies the invariant. -/
theorem Reachable.reach_inv {c : Config} (h : Reachable c) : Inv c := by
  induction h with
  | refl => exact Inv.inv_init
  | tail _ hstep ih => exact hstep.step_inv ih

theorem Reachable.reach_init : Reachable Config.init := Relation.ReflTransGen.refl

theorem Reachable.step {c c1 : Config} (h : Reachable c) (hs : Step c c1) : Reachable c1 :=
  Relation.ReflTransGen.tail h hs

theorem Reachable.add {c : Config} (h : Reachable c) (func : List Val → Except Exn Val)
    (ret : Ty) (args : List TTaskScheduler.Argument)
    (hh : ∀ f, TTaskScheduler.Argument.future f ∈ args → f ∈ c.handles) :
    Reachable ⟨(c.sched.add c.world func ret args).1, (c.sched.add c.world func ret args).2.1,
      c.handles⟩ :=
  h.step (Step.add c func ret args hh)

theorem Reachable.getFutureResult {c : Config} (h : Reachable c) (T : Ty) (tid : TaskId_)
    (f : FutureResult_) (hf : c.sched.getFutureResult T tid = .ok f) :
    Reachable ⟨c.world, c.sched, f :: c.handles⟩ :=
  h.step (Step.getFutureResult c T tid f hf)

theorem squareConfig_reachable : Reachable squareConfig :=
  Reachable.add
    (Reachable.getFutureResult
      (Reachable.add Reachable.reach_init plus .int fourOnes (by simp [fourOnes]))
      .int ⟨0⟩ ⟨.int, 0⟩ rfl)
    square .int [.future ⟨.int, 0⟩] (by simp)

theorem mismatchConfig_reachable : Reachable mismatchConfig :=
  Reachable.add
    (Reachable.getFutureResult
      (Reachable.add Reachable.reach_init plus .int fourOnes (by simp [fourOnes]))
      .float ⟨0⟩ ⟨.float, 0⟩ rfl)
    square .float [.future ⟨.float, 0⟩] (by simp)

/-- The un-memoised definition reads only the callables and the bindings. -/
theorem unmemoised_ext {w w1 : World} (h : Ext w w1) :
    ∀ (k a : Nat), unmemoised k w1.heap a = unmemoised k w.heap a := by
  intro k
  induction k with
  | zero => intro a; rfl
  | succ k ih =>
    intro a
    have hfun : unmemoised k w1.heap = unmemoised k w.heap := funext ih
    simp only [unmemoised, hfun]
    cases ht : w.heap[a]? with
    | none =>
      have : w1.heap[a]? = none := by
        rw [List.getElem?_eq_none_iff] at ht ⊢
        rw [h.length]
        exact ht
      rw [this]
    | some t =>
      obtain ⟨t1, ht1, e1, _, e3⟩ := h.shape a t ht
      rw [ht1]
      simp only [e1, e3]

theorem bindingValues_of_cached {heap : List Task_} {result : Nat → Option Val}
    {args : List AbstractArgument_} {vs : List Val} (hc : Cached heap args vs)
    (hres : ∀ f v, AbstractArgument_.future f ∈ args →
      AbstractArgument_.cached heap (.future f) = some v → result f.task_ = some v) :
    bindingValues result args = some vs := by
  unfold Cached at hc
  induction hc with
  | nil => rfl
  | @cons x v rest vs hx _ ih =>
    have ih1 := ih (fun f v hf hv => hres f v (List.mem_cons_of_mem _ hf) hv)
    cases x with
    | simple y =>
      simp only [cached_simple, Option.some.injEq] at hx
      simp only [bindingValues, ih1, hx]
    | future f =>
      simp only [bindingValues, ih1, hres f v (List.mem_cons_self _ _) hx]

/-- On an acyclic, sound heap the result slot of an evaluated node holds the value of the
un-memoised definition. -/
theorem sound_unmemoised {heap : List Task_} (hac : Acyclic heap) (hs : Sound heap) :
    ∀ (k a : Nat) (t : Task_) (v : Val), a < k → heap[a]? = some t →
      t.isEvaulated_ = true → t.res_ = some v → unmemoised k heap a = some v := by
  intro k
  induction k with
  | zero => intro a t v h; omega
  | succ k ih =>
    intro a t v hak ht he hr
    obtain ⟨vs, v1, hc, hf, hr1⟩ := hs a t ht he
    rw [hr] at hr1
    cases hr1
    have hb : bindingValues (unmemoised k heap) t.args_ = some vs := by
      apply bindingValues_of_cached hc
      intro f x hmem hx
      rw [cached_future_iff] at hx
      obtain ⟨tb, htb, heb, _, hrb⟩ := hx
      have hlt : f.task_ < a := hac a t ht f hmem
      exact ih f.task_ tb x (by omega) htb heb hrb
    simp only [unmemoised, ht, hb, hf]

theorem getResult_evaluated (fuel : Nat) (rtl : Bool) {s : TTaskScheduler} {w : World}
    (T : Ty) {tid : TaskId_} {a : Nat} {t : Task_} (hid : s.tasks_[tid.getId]? = some a)
    (ht : w.heap[a]? = some t) (he : t.isEvaulated_ = true) :
    s.getResult fuel rtl w T tid = (w, AnyTask_.getRes t T) := by
  simp [TTaskScheduler.getResult, hid, ht, AnyTask_.getStatus, he]

theorem getResult_eval_ok (fuel : Nat) (rtl : Bool) {s : TTaskScheduler} {w w1 : World}
    (T : Ty) {tid : TaskId_} {a : Nat} {t t1 : Task_} {u : Unit}
    (hid : s.tasks_[tid.getId]? = some a) (ht : w.heap[a]? = some t)
    (hu : t.isEvaulated_ = false) (hev : Task_.eval rtl fuel w a = (w1, .ok u))
    (ht1 : w1.heap[a]? = some t1) :
    s.getResult fuel rtl w T tid = (w1, AnyTask_.getRes t1 T) := by
  simp [TTaskScheduler.getResult, hid, ht, AnyTask_.getStatus, hu, hev, ht1]

theorem getResult_eval_throw (fuel : Nat) (rtl : Bool) {s : TTaskScheduler} {w w1 : World}
    (T : Ty) {tid : TaskId_} {a : Nat} {t : Task_} {e : Exn}
    (hid : s.tasks_[tid.getId]? = some a) (ht : w.heap[a]? = some t)
    (hu : t.isEvaulated_ = false) (hev : Task_.eval rtl fuel w a = (w1, .throw e)) :
    s.getResult fuel rtl w T tid = (w1, .throw e) := by
  simp [TTaskScheduler.getResult, hid, ht, AnyTask_.getStatus, hu, hev]

/-- A `getResult` on an unevaluated task that returns a value has evaluated the task. -/
theorem getResult_ok_eval {fuel : Nat} {rtl : Bool} {s : TTaskScheduler} {w w1 : World}
    {T : Ty} {tid : TaskId_} {a : Nat} {t : Task_} {v : Val}
    (hid : s.tasks_[tid.getId]? = some a) (ht : w.heap[a]? = some t)
    (hu : t.isEvaulated_ = false) (h : s.getResult fuel rtl w T tid = (w1, .ok v)) :
    ∃ u, Task_.eval rtl fuel w a = (w1, .ok u) := by
  simp only [TTaskScheduler.getResult, hid, ht, AnyTask_.getStatus, hu, Bool.false_eq_true,
    if_false] at h
  cases hev : Task_.eval rtl fuel w a with
  | mk w2 o2 =>
    simp only [hev] at h
    cases o2 with
    | ok u =>
      refine ⟨u, ?_⟩
      have : w2 = w1 := by
        cases hn : w2.heap[a]? with
        | none =>
          simp only [hn, Prod.mk.injEq] at h
          exact h.1
        | some t1 =>
          simp only [hn, Prod.mk.injEq] at h
          exact h.1
      rw [this]
    | throw e => simp at h
    | ub => simp at h
    | timeout => simp at h

/-- With total callables, well typed references and enough fuel, `Task_::eval` on an
unevaluated node returns and writes the value of the callable on the cached bindings. -/
theorem eval_ok (rtl : Bool) (fuel : Nat) (w : World) (a : Nat) (t : Task_) (hg : Good w)
    (hnf : NoFail w.heap) (hwt : WellTyped w.heap) (ht : w.heap[a]? = some t)
    (hu : t.isEvaulated_ = false) (hfuel : a < fuel) :
    ∃ w1 vs v, Task_.eval rtl fuel w a = (w1, .ok ()) ∧ Fires (a + 1) w w1 ∧
      Cached w1.heap t.args_ vs ∧ t.fnc_ vs = .ok v ∧ w1.heap[a]? = some (t.done v) := by
  cases hev : Task_.eval rtl fuel w a with
  | mk w1 o =>
    have hpost := eval_post rtl fuel w a t w1 o hg.acyclic ht hu hev
    have hends := eval_ends rtl fuel w a w1 o hg.acyclic hg.sound
      (List.getElem?_eq_some.1 ht).1 hfuel hev
    cases o with
    | ok u =>
      obtain ⟨vs, v, hc, hf, hnode⟩ := hpost.ok_node ht hu
      exact ⟨w1, vs, v, rfl, hpost.fires ht hu, hc, hf, hnode⟩
    | throw e =>
      exfalso
      rcases hpost.post_raises ht with ⟨b, tb, vs, htb, hf⟩ | ⟨_, b, tb, tc, f, htb, hmem, htc, hne⟩
      · exact hnf b tb htb vs e hf
      · exact hne (hwt b tb htb f hmem tc htc)
    | ub => exact absurd hends (by simp [Outcome.Ends])
    | timeout => exact absurd hends (by simp [Outcome.Ends])

theorem Cached.mem {heap : List Task_} {args : List AbstractArgument_} {vs : List Val}
    (h : Cached heap args vs) {x : AbstractArgument_} (hx : x ∈ args) :
    ∃ v, AbstractArgument_.cached heap x = some v := by
  unfold Cached at h
  induction h with
  | nil => cases hx
  | @cons y v rest vs hy _ ih =>
    rcases List.mem_cons.1 hx with rfl | hx
    · exact ⟨v, hy⟩
    · exact ih hx

/-- A node that holds a forward reference read at a wrong type is never evaluated: its
`eval` does not return. -/
theorem eval_mismatch {rtl : Bool} {fuel : Nat} {w w1 : World} {a : Nat} {t tb : Task_}
    {f : FutureResult_} {o : Outcome Unit} (hac : Acyclic w.heap)
    (ht : w.heap[a]? = some t) (hu : t.isEvaulated_ = false)
    (hmem : AbstractArgument_.future f ∈ t.args_) (htb : w.heap[f.task_]? = some tb)
    (hne : f.T ≠ tb.ret) (hev : Task_.eval rtl fuel w a = (w1, o)) : ∀ u, o ≠ .ok u := by
  intro u ho
  subst ho
  obtain ⟨w0, vs, v, hf, hc, _, _⟩ := eval_post rtl fuel w a t w1 _ hac ht hu hev
  obtain ⟨x, hx⟩ := hc.mem hmem
  rw [cached_future_iff] at hx
  obtain ⟨tb0, htb0, _, hty, _⟩ := hx
  obtain ⟨tb1, htb1, _, e2, _⟩ := hf.fires_ext.shape f.task_ tb htb
  rw [htb0] at htb1
  cases htb1
  exact hne (hty.trans e2)

theorem noFail_of_forall_mem {heap : List Task_}
    (h : ∀ t ∈ heap, ∀ vs e, t.fnc_ vs ≠ .error e) : NoFail heap :=
  fun _ t ht vs e => h t (List.getElem?_mem ht) vs e

theorem squareConfig_noFail : NoFail squareConfig.world.heap := by
  apply noFail_of_forall_mem
  simp [squareConfig, TTaskScheduler.add, plus, square]

theorem mismatchConfig_noFail : NoFail mismatchConfig.world.heap := by
  apply noFail_of_forall_mem
  simp [mismatchConfig, TTaskScheduler.add, plus, square]

theorem squareConfig_wellTyped : WellTyped squareConfig.world.heap := by
  intro a t ht f hf tb htb
  rcases a with _ | _ | a
  · simp [squareConfig, TTaskScheduler.add] at ht
    subst ht
    simp [fourOnes, WrapArgument_] at hf
  · simp [squareConfig, TTaskScheduler.add] at ht
    subst ht
    simp [WrapArgument_] at hf
    subst hf
    simp [squareConfig, TTaskScheduler.add] at htb
    subst htb
    rfl
  · simp [squareConfig, TTaskScheduler.add] at ht

/-- C1, amended: in every state reached through the public members, if no callable throws
and every forward reference is read at the result type of the task it names, then for a
valid identifier whose task has result type `T`, `getResult<T>` returns, with enough fuel
and in either order of the argument reads, the value of the un-memoised recursive
definition, whatever tasks were evaluated before. -/
theorem getResult_unmemoised (c : Config) (hr : Reachable c) (hnf : NoFail c.world.heap)
    (hwt : WellTyped c.world.heap) (fuel : Nat) (rtl : Bool) (tid : TaskId_) (a : Nat)
    (t : Task_) (hid : c.sched.tasks_[tid.getId]? = some a)
    (ht : c.world.heap[a]? = some t) (hfuel : a < fuel) :
    ∃ w1 v, c.sched.getResult fuel rtl c.world t.ret tid = (w1, .ok v) ∧
      ∀ k, a < k → unmemoised k c.world.heap a = some v := by
  have hg := hr.reach_inv.good
  cases he : t.isEvaulated_ with
  | true =>
    obtain ⟨vs, v, _, _, hres⟩ := hg.sound a t ht he
    refine ⟨c.world, v, ?_, ?_⟩
    · rw [getResult_evaluated fuel rtl t.ret hid ht he]
      simp [AnyTask_.getRes, hres]
    · intro k hk
      exact sound_unmemoised hg.acyclic hg.sound k a t v hk ht he hres
  | false =>
    obtain ⟨w1, vs, v, hev, hf, hc, hv, hnode⟩ :=
      eval_ok rtl fuel c.world a t hg hnf hwt ht he hfuel
    refine ⟨w1, v, ?_, ?_⟩
    · rw [getResult_eval_ok fuel rtl t.ret hid ht he hev hnode]
      simp [AnyTask_.getRes, Task_.done]
    · intro k hk
      have hg1 := hf.fires_good hg
      rw [← unmemoised_ext hf.fires_ext k a]
      exact sound_unmemoised hg1.acyclic hg1.sound k a (t.done v) v hk hnode rfl rfl

/-- C1, amended, on the registry of the test `MultipleArgsTest.test2`. -/
theorem getResult_unmemoised_witness :
    ∃ w1 v, squareConfig.sched.getResult 2 false squareConfig.world Ty.int ⟨1⟩ = (w1, .ok v) ∧
      ∀ k, 1 < k → unmemoised k squareConfig.world.heap 1 = some v :=
  getResult_unmemoised squareConfig squareConfig_reachable squareConfig_noFail
    squareConfig_wellTyped 2 false ⟨1⟩ 1 ⟨square, .int, [.future ⟨.int, 0⟩], none, false⟩ rfl rfl
    (by decide)

/-- C1 fails as stated: the registry `mismatchConfig` is built with `add` and
`getFutureResult`, its callables never throw, its task 1 has result type `float` and the
un-memoised definition gives it the value 16, yet `getResult<float>` on it throws
`std::bad_cast` and returns no value, whatever the fuel and the order of the reads. -/
theorem getResult_unmemoised_mismatch :
    Reachable mismatchConfig ∧ NoFail mismatchConfig.world.heap ∧
    mismatchConfig.sched.tasks_[1]? = some 1 ∧
    (∃ t, mismatchConfig.world.heap[1]? = some t ∧ t.ret = Ty.float) ∧
    unmemoised 2 mismatchConfig.world.heap 1 = some (.num 16) ∧
    (∀ rtl, (mismatchConfig.sched.getResult 2 rtl mismatchConfig.world .float ⟨1⟩).2 =
      .throw .bad_cast) ∧
    ∀ fuel rtl w1 v,
      mismatchConfig.sched.getResult fuel rtl mismatchConfig.world .float ⟨1⟩ ≠ (w1, .ok v) := by
  refine ⟨mismatchConfig_reachable, mismatchConfig_noFail, rfl, ⟨_, rfl, rfl⟩, by decide,
    by decide, ?_⟩
  intro fuel rtl w1 v h
  have hac := mismatchConfig_reachable.reach_inv.good.acyclic
  obtain ⟨u, hev⟩ := getResult_ok_eval
    (show mismatchConfig.sched.tasks_[(⟨1⟩ : TaskId_).getId]? = some 1 from rfl)
    (show mismatchConfig.world.heap[1]? =
      some ⟨square, .float, [.future ⟨.float, 0⟩], none, false⟩ from rfl) rfl h
  have hmem : AbstractArgument_.future ⟨Ty.float, 0⟩ ∈
      (⟨square, .float, [.future ⟨.float, 0⟩], none, false⟩ : Task_).args_ := by simp
  exact eval_mismatch hac
    (show mismatchConfig.world.heap[1]? =
      some ⟨square, .float, [.future ⟨.float, 0⟩], none, false⟩ from rfl) rfl hmem
    (show mismatchConfig.world.heap[0]? =
      some ⟨plus, .int, fourOnes.map WrapArgument_, none, false⟩ from rfl)
    (by decide) hev u rfl

theorem getRes_ok {t : Task_} {T : Ty} {v : Val} (h : AnyTask_.getRes t T = .ok v) :
    T = t.ret ∧ t.res_ = some v := by
  unfold AnyTask_.getRes at h
  split at h
  · rename_i hty
    split at h
    · rename_i v1 hr
      cases h
      exact ⟨hty, hr⟩
    · cases h
  · cases h

/-- A `getResult` that returns a value leaves the task evaluated, with that value in its
result slot. -/
theorem getResult_ok_node {fuel : Nat} {rtl : Bool} {s : TTaskScheduler} {w w1 : World}
    {T : Ty} {tid : TaskId_} {a : Nat} {v : Val} (hac : Acyclic w.heap)
    (hid : s.tasks_[tid.getId]? = some a)
    (h : s.getResult fuel rtl w T tid = (w1, .ok v)) :
    ∃ t1, w1.heap[a]? = some t1 ∧ t1.isEvaulated_ = true ∧ t1.res_ = some v ∧
      T = t1.ret := by
  cases ht : w.heap[a]? with
  | none => simp [TTaskScheduler.getResult, hid, ht] at h
  | some t =>
    cases he : t.isEvaulated_ with
    | true =>
      rw [getResult_evaluated fuel rtl T hid ht he] at h
      simp only [Prod.mk.injEq] at h
      obtain ⟨rfl, hres⟩ := h
      exact ⟨t, ht, he, (getRes_ok hres).2, (getRes_ok hres).1⟩
    | false =>
      obtain ⟨u, hev⟩ := getResult_ok_eval hid ht he h
      obtain ⟨vs, v1, _, _, hnode⟩ :=
        (eval_post rtl fuel w a t w1 _ hac ht he hev).ok_node ht he
      rw [getResult_eval_ok fuel rtl T hid ht he hev hnode] at h
      simp only [Prod.mk.injEq, true_and] at h
      exact ⟨t.done v1, hnode, rfl, (getRes_ok h).2, (getRes_ok h).1⟩

/-- When the loop of `executeAll` returns, every task it went over is evaluated. -/
theorem loop_ok_evaluated (fuel : Nat) (rtl : Bool) :
    ∀ (l : List Nat) (w w1 : World) (u : Unit), Acyclic w.heap →
      executeAll.loop fuel rtl l w = (w1, .ok u) →
      ∀ a ∈ l, ∃ t1, w1.heap[a]? = some t1 ∧ t1.isEvaulated_ = true := by
  intro l
  induction l with
  | nil => intro w w1 u _ _ a ha; cases ha
  | cons b rest ih =>
    intro w w1 u hac h a ha
    simp only [executeAll.loop] at h
    cases ht : w.heap[b]? with
    | none => simp [ht] at h
    | some t =>
      simp only [ht, AnyTask_.getStatus] at h
      cases hst : t.isEvaulated_ with
      | true =>
        simp only [hst, if_true] at h
        rcases List.mem_cons.1 ha with rfl | ha
        · exact ⟨t, (loop_fires fuel rtl rest w w1 _ hac h).fires_ext.frozen a t ht hst, hst⟩
        · exact ih w w1 u hac h a ha
      | false =>
        simp only [hst, Bool.false_eq_true, if_false] at h
        cases hev : Task_.eval rtl fuel w b with
        | mk w2 o2 =>
          have hpost := eval_post rtl fuel w b t w2 o2 hac ht hst hev
          simp only [hev] at h
          cases o2 with
          | ok u2 =>
            have hac2 : Acyclic w2.heap := (hpost.fires ht hst).fires_ext.acyclic hac
            rcases List.mem_cons.1 ha with rfl | ha
            · obtain ⟨vs, v, _, _, hnode⟩ := hpost.ok_node ht hst
              exact ⟨t.done v,
                (loop_fires fuel rtl rest w2 w1 _ hac2 h).fires_ext.frozen a _ hnode rfl, rfl⟩
            · exact ih w2 w1 u hac2 h a ha
          | throw e => simp at h
          | ub => simp at h
          | timeout => simp at h

theorem chain_length (n : Nat) : (chain n).world.heap.length = n + 1 := by
  induction n with
  | zero => rfl
  | succ n ih =>
    simp only [chain, TTaskScheduler.add, List.length_append, List.length_singleton, ih]

theorem chain_reachable (n : Nat) : Reachable (chain n) := by
  induction n with
  | zero =>
    exact Reachable.add Reachable.reach_init plus .float [.value (.num 1), .value (.num 1)]
      (by simp)
  | succ n ih =>
    have hid : (chain n).sched.getFutureResult .float ⟨n⟩ = .ok ⟨.float, n⟩ := by
      have htasks := ih.reach_inv.tasks
      rw [chain_length] at htasks
      simp [TTaskScheduler.getFutureResult, TaskId_.getId, htasks,
        List.getElem?_range (Nat.lt_succ_self n)]
    exact Reachable.add (Reachable.getFutureResult ih .float ⟨n⟩ ⟨.float, n⟩ hid) plus .float
      [.value (.num 1), .future ⟨.float, n⟩] (by simp)

set_option maxRecDepth 100000 in
/-- On the chain of the test, `executeAll` returns. -/
theorem chain_executeAll_returns :
    ((chain 100).sched.executeAll 1 false (chain 100).world).2 = .ok () := by
  decide

set_option maxRecDepth 100000 in
theorem chain_root_mem : 0 ∈ (chain 100).sched.tasks_ := by
  decide

theorem eq_of_snd_eq {α : Type} {p : World × Outcome α} {o : Outcome α} (h : p.2 = o) :
    p = (p.1, o) := by
  rw [← h]

/-- C3: for a valid identifier whose task is already evaluated, `getResult<T>` returns the
outcome of `getRes<T>` on the cached slot and leaves the whole memory (every flag, every
result slot, both logs) as it was; so two consecutive calls give the same outcome, enter
no callable and change nothing. -/
theorem getResult_idempotent (fuel : Nat) (rtl : Bool) (s : TTaskScheduler) (w : World)
    (T : Ty) (tid : TaskId_) (a : Nat) (t : Task_) (hid : s.tasks_[tid.getId]? = some a)
    (ht : w.heap[a]? = some t) (he : t.isEvaulated_ = true) :
    s.getResult fuel rtl w T tid = (w, AnyTask_.getRes t T) ∧
    s.getResult fuel rtl (s.getResult fuel rtl w T tid).1 T tid =
      s.getResult fuel rtl w T tid ∧
    (s.getResult fuel rtl (s.getResult fuel rtl w T tid).1 T tid).1 = w := by
  have h := getResult_evaluated fuel rtl T hid ht he
  rw [h]
  exact ⟨rfl, h, by rw [h]⟩

/-- C3 on the registry of the test `MultipleArgsTest.test2` after `executeAll`: the value
is 16 both times and the memory is the same. -/
theorem getResult_idempotent_witness :
    squareConfig.sched.getResult 2 false squareDone .int ⟨1⟩ = (squareDone, .ok (.num 16)) ∧
    squareConfig.sched.getResult 2 false
        (squareConfig.sched.getResult 2 false squareDone .int ⟨1⟩).1 .int ⟨1⟩ =
      squareConfig.sched.getResult 2 false squareDone .int ⟨1⟩ ∧
    (squareConfig.sched.getResult 2 false
        (squareConfig.sched.getResult 2 false squareDone .int ⟨1⟩).1 .int ⟨1⟩).1 =
      squareDone :=
  getResult_idempotent 2 false squareConfig.sched squareDone .int ⟨1⟩ 1
    ⟨square, .int, [.future ⟨.int, 0⟩], some (.num 16), true⟩ rfl rfl rfl

/-- C4 fails as stated: in the registry `mismatchConfig` the identifier 1 is valid, the
callable of its task never throws and the result type of the task is `float`, yet
`getResult<float>` fails with `std::bad_cast`: the type that does not match is the one of
the forward reference that the task reads. -/
theorem getResult_bad_cast_same_type :
    Reachable mismatchConfig ∧ mismatchConfig.sched.tasks_[1]? = some 1 ∧
    (∃ t, mismatchConfig.world.heap[1]? = some t ∧ t.ret = Ty.float ∧
      ∀ vs e, t.fnc_ vs ≠ .error e) ∧
    ∀ rtl, (mismatchConfig.sched.getResult 2 rtl mismatchConfig.world .float ⟨1⟩).2 =
      .throw .bad_cast := by
  refine ⟨mismatchConfig_reachable, rfl, ⟨_, rfl, rfl, ?_⟩, by decide⟩
  intro vs e h
  cases h

/-- C4, amended: in a reachable state, for a valid identifier whose task is already
evaluated, or is unevaluated and whose `eval` returns, `getResult<T>` fails with
`std::bad_cast` if and only if `T` is not the result type of the task, and when `T` is the
result type it returns the value held in the result slot. -/
theorem getResult_type_check (c : Config) (hr : Reachable c) (fuel : Nat) (rtl : Bool)
    (T : Ty) (tid : TaskId_) (a : Nat) (t : Task_) (w1 : World)
    (hid : c.sched.tasks_[tid.getId]? = some a) (ht : c.world.heap[a]? = some t)
    (hev : (t.isEvaulated_ = true ∧ w1 = c.world) ∨
      (t.isEvaulated_ = false ∧ Task_.eval rtl fuel c.world a = (w1, .ok ()))) :
    ((c.sched.getResult fuel rtl c.world T tid).2 = .throw .bad_cast ↔ T ≠ t.ret) ∧
    (T = t.ret → ∃ t1 v, c.sched.getResult fuel rtl c.world T tid = (w1, .ok v) ∧
      w1.heap[a]? = some t1 ∧ t1.isEvaulated_ = true ∧ t1.res_ = some v) := by
  have hg := hr.reach_inv.good
  have key : ∃ t1 v, w1.heap[a]? = some t1 ∧ t1.isEvaulated_ = true ∧ t1.res_ = some v ∧
      t1.ret = t.ret ∧ c.sched.getResult fuel rtl c.world T tid = (w1, AnyTask_.getRes t1 T) := by
    rcases hev with ⟨he, rfl⟩ | ⟨hu, hev⟩
    · obtain ⟨vs, v, _, _, hres⟩ := hg.sound a t ht he
      exact ⟨t, v, ht, he, hres, rfl, getResult_evaluated fuel rtl T hid ht he⟩
    · obtain ⟨vs, v, _, _, hnode⟩ :=
        (eval_post rtl fuel c.world a t w1 _ hg.acyclic ht hu hev).ok_node ht hu
      exact ⟨t.done v, v, hnode, rfl, rfl, rfl, getResult_eval_ok fuel rtl T hid ht hu hev hnode⟩
  obtain ⟨t1, v, ht1, he1, hres1, hret1, hget⟩ := key
  rw [hget]
  constructor
  · simp only [AnyTask_.getRes, hres1, hret1]
    constructor
    · intro h hty
      simp [hty] at h
    · intro hne
      simp [hne]
  · intro hty
    refine ⟨t1, v, ?_, ht1, he1, hres1⟩
    simp [AnyTask_.getRes, hres1, hret1, hty]

/-- C4, amended, on the registry of the test `MultipleArgsTest.test2`: `getResult<float>`
on the `int` task 1. -/
theorem getResult_type_check_witness :
    ((squareConfig.sched.getResult 2 false squareConfig.world .float ⟨1⟩).2 = .throw .bad_cast ↔
      Ty.float ≠ Ty.int) ∧
    (Ty.float = Ty.int → ∃ t1 v,
      squareConfig.sched.getResult 2 false squareConfig.world .float ⟨1⟩ = (squareDone, .ok v) ∧
      squareDone.heap[1]? = some t1 ∧ t1.isEvaulated_ = true ∧ t1.res_ = some v) :=
  getResult_type_check squareConfig squareConfig_reachable 2 false .float ⟨1⟩ 1
    ⟨square, .int, [.future ⟨.int, 0⟩], none, false⟩ squareDone rfl rfl (Or.inr ⟨rfl, rfl⟩)

/-- No callable is entered below `n` when every node below `n` is evaluated. -/
theorem fires_eq_of_evaluated {n : Nat} {w w1 : World} (hall : EvaluatedBelow n w)
    (h : Fires n w w1) : w1 = w := by
  induction h with
  | refl => rfl
  | tail _ hs ih =>
    subst ih
    obtain ⟨a, ha, hf⟩ := hs
    cases hf with
    | ok t vs v ht hu _ _ => rw [hall a t ha ht] at hu; cases hu
    | fail t vs e ht hu _ _ => rw [hall a t ha ht] at hu; cases hu

/-- What `Task_::eval` does on an unevaluated node below which every node is evaluated:
it enters no other callable. -/
theorem eval_frontier {rtl : Bool} {fuel : Nat} {w w1 : World} {a : Nat} {t : Task_}
    {o : Outcome Unit} (hac : Acyclic w.heap) (hall : EvaluatedBelow a w)
    (ht : w.heap[a]? = some t) (hu : t.isEvaulated_ = false)
    (hev : Task_.eval rtl fuel w a = (w1, o)) :
    (∀ u, o = .ok u → ∃ vs v, Cached w.heap t.args_ vs ∧ t.fnc_ vs = .ok v ∧
      w1 = ⟨w.heap.set a (t.done v), w.calls ++ [a], w.thrown⟩) ∧
    (∀ e, o = .throw e → w1 = w ∨ ∃ vs, Cached w.heap t.args_ vs ∧ t.fnc_ vs = .error e ∧
      w1 = ⟨w.heap, w.calls ++ [a], w.thrown ++ [a]⟩) ∧
    (o = .ub ∨ o = .timeout → w1 = w) := by
  have hpost := eval_post rtl fuel w a t w1 o hac ht hu hev
  refine ⟨?_, ?_, ?_⟩
  · rintro u rfl
    obtain ⟨w0, vs, v, hf, hc, hv, rfl⟩ := hpost
    have := fires_eq_of_evaluated hall hf
    subst this
    exact ⟨vs, v, hc, hv, rfl⟩
  · rintro e rfl
    rcases hpost with ⟨hf, _⟩ | ⟨w0, vs, hf, hc, hv, rfl⟩
    · exact Or.inl (fires_eq_of_evaluated hall hf)
    · have := fires_eq_of_evaluated hall hf
      subst this
      exact Or.inr ⟨vs, hc, hv, rfl⟩
  · rintro (rfl | rfl)
    · exact fires_eq_of_evaluated hall hpost
    · exact fires_eq_of_evaluated hall hpost

theorem pending_set_of_ne {w : World} {k b : Nat} (x : Task_) (c t : List Nat)
    (h : k ≠ b) : World.pending ⟨w.heap.set k x, c, t⟩ b = w.pending b := by
  simp [World.pending, List.getElem?_set_ne h]

/-- The loop of `executeAll` over the tasks `k, ..., k + m - 1` of the registry that owns
every node, when every task below `k` is evaluated. -/
theorem loop_frontier (fuel : Nat) (rtl : Bool) :
    ∀ (m k : Nat) (w w1 : World) (o : Outcome Unit), Acyclic w.heap → EvaluatedBelow k w →
      executeAll.loop fuel rtl (List.range' k m) w = (w1, o) →
      (∀ u, o = .ok u →
        w1.calls = w.calls ++ (List.range' k m).filter w.pending ∧ w1.thrown = w.thrown) ∧
      (∀ e, o = .throw e → ∃ j t, k ≤ j ∧ j < k + m ∧ Fires (j + 1) w w1 ∧
        w.heap[j]? = some t ∧ w1.heap[j]? = some t ∧ t.isEvaulated_ = false ∧
        EvaluatedBelow j w1 ∧
        (w1.thrown = w.thrown ∨
          ∃ vs, Cached w1.heap t.args_ vs ∧ t.fnc_ vs = .error e ∧
            w1.thrown = w.thrown ++ [j])) ∧
      (o = .ub ∨ o = .timeout → w1.thrown = w.thrown) := by
  intro m
  induction m with
  | zero =>
    intro k w w1 o _ _ h
    simp only [List.range'_zero, executeAll.loop, Prod.mk.injEq] at h
    obtain ⟨rfl, rfl⟩ := h
    refine ⟨?_, ?_, ?_⟩
    · intro u _; simp
    · intro e he; cases he
    · rintro (h | h) <;> cases h
  | succ m ih =>
    intro k w w1 o hac hall h
    rw [List.range'_succ] at h ⊢
    simp only [executeAll.loop] at h
    cases ht : w.heap[k]? with
    | none =>
      simp only [ht, Prod.mk.injEq] at h
      obtain ⟨rfl, rfl⟩ := h
      refine ⟨?_, ?_, ?_⟩
      · intro u hu; cases hu
      · intro e he; cases he
      · intro _; rfl
    | some t =>
      simp only [ht, AnyTask_.getStatus] at h
      cases hst : t.isEvaulated_ with
      | true =>
        simp only [hst, if_true] at h
        have hall1 : EvaluatedBelow (k + 1) w := by
          intro b tb hb htb
          rcases Nat.lt_succ_iff_lt_or_eq.1 hb with hb | rfl
          · exact hall b tb hb htb
          · rw [ht] at htb; cases htb; exact hst
        obtain ⟨h1, h2, h3⟩ := ih (k + 1) w w1 o hac hall1 h
        refine ⟨?_, ?_, h3⟩
        · intro u hu
          have hp : w.pending k = false := by simp [World.pending, ht, hst]
          rw [List.filter_cons_of_neg (by simp [hp])]
          exact h1 u hu
        · intro e he
          obtain ⟨j, tj, hkj, hjm, rest⟩ := h2 e he
          exact ⟨j, tj, by omega, by omega, rest⟩
      | false =>
        simp only [hst, Bool.false_eq_true, if_false] at h
        have hp : w.pending k = true := by simp [World.pending, ht, hst]
        cases hev : Task_.eval rtl fuel w k with
        | mk w2 o2 =>
          obtain ⟨f1, f2, f3⟩ := eval_frontier hac hall ht hst hev
          have hfires := (eval_post rtl fuel w k t w2 o2 hac ht hst hev).fires ht hst
          simp only [hev] at h
          cases o2 with
          | ok u2 =>
            obtain ⟨vs, v, hc, hv, hw2⟩ := f1 u2 rfl
            have hall1 : EvaluatedBelow (k + 1) w2 := by
              intro b tb hb htb
              rcases Nat.lt_succ_iff_lt_or_eq.1 hb with hb | rfl
              · rw [hw2] at htb
                simp only [List.getElem?_set_ne (Nat.ne_of_gt hb)] at htb
                exact hall b tb hb htb
              · rw [hw2] at htb
                simp only [getElem?_set_done ht, Option.some.injEq] at htb
                rw [← htb]; rfl
            obtain ⟨h1, h2, h3⟩ := ih (k + 1) w2 w1 o (hfires.fires_ext.acyclic hac) hall1 h
            have hfilter : (List.range' (k + 1) m).filter w2.pending =
                (List.range' (k + 1) m).filter w.pending := by
              apply List.filter_congr
              intro b hb
              rw [List.mem_range'_1] at hb
              rw [hw2]
              exact pending_set_of_ne _ _ _ (by omega)
            refine ⟨?_, ?_, ?_⟩
            · intro u hu
              obtain ⟨hcalls, hthrown⟩ := h1 u hu
              rw [List.filter_cons_of_pos (by simp [hp]), hcalls, hthrown, hfilter, hw2]
              simp
            · intro e he
              obtain ⟨j, tj, hkj, hjm, hf, hj0, rest⟩ := h2 e he
              refine ⟨j, tj, by omega, by omega, (hfires.mono (by omega)).fires_trans hf, ?_, ?_⟩
              · rw [hw2] at hj0
                simpa [List.getElem?_set_ne (show k ≠ j by omega)] using hj0
              · rw [hw2] at rest
                exact rest
            · intro ho
              rw [h3 ho, hw2]
          | throw e2 =>
            simp only [Prod.mk.injEq] at h
            obtain ⟨rfl, rfl⟩ := h
            refine ⟨?_, ?_, ?_⟩
            · intro u hu; cases hu
            · intro e he
              cases he
              rcases f2 e2 rfl with rfl | ⟨vs, hc, hv, rfl⟩
              · exact ⟨k, t, le_refl k, by omega, hfires, ht, ht, hst, hall, Or.inl rfl⟩
              · exact ⟨k, t, le_refl k, by omega, hfires, ht, ht, hst, hall,
                  Or.inr ⟨vs, hc, hv, rfl⟩⟩
            · rintro (h | h) <;> cases h
          | ub =>
            simp only [Prod.mk.injEq] at h
            obtain ⟨rfl, rfl⟩ := h
            refine ⟨?_, ?_, ?_⟩
            · intro u hu; cases hu
            · intro e he; cases he
            · intro _; rw [f3 (Or.inl rfl)]
          | timeout =>
            simp only [Prod.mk.injEq] at h
            obtain ⟨rfl, rfl⟩ := h
            refine ⟨?_, ?_, ?_⟩
            · intro u hu; cases hu
            · intro e he; cases he
            · intro _; rw [f3 (Or.inr rfl)]

/-- With total callables, well typed references and enough fuel the loop of `executeAll`
returns. -/
theorem loop_returns (fuel : Nat) (rtl : Bool) :
    ∀ (l : List Nat) (w : World), Good w → NoFail w.heap → WellTyped w.heap →
      (∀ a ∈ l, a < fuel ∧ a < w.heap.length) →
      ∃ w1, executeAll.loop fuel rtl l w = (w1, .ok ()) := by
  intro l
  induction l with
  | nil => intro w _ _ _ _; exact ⟨w, rfl⟩
  | cons a rest ih =>
    intro w hg hnf hwt hl
    obtain ⟨haf, hal⟩ := hl a (List.mem_cons_self _ _)
    obtain ⟨t, ht⟩ : ∃ t, w.heap[a]? = some t := ⟨w.heap[a], by simp [hal]⟩
    have hrest : ∀ b ∈ rest, b < fuel ∧ b < w.heap.length :=
      fun b hb => hl b (List.mem_cons_of_mem _ hb)
    cases hst : t.isEvaulated_ with
    | true =>
      simp only [executeAll.loop, ht, AnyTask_.getStatus, hst, if_true]
      exact ih w hg hnf hwt hrest
    | false =>
      obtain ⟨w2, vs, v, hev, hf, _, _, _⟩ := eval_ok rtl fuel w a t hg hnf hwt ht hst haf
      simp only [executeAll.loop, ht, AnyTask_.getStatus, hst, Bool.false_eq_true, if_false,
        hev]
      have hext := hf.fires_ext
      exact ih w2 (hf.fires_good hg) (hext.noFail hnf) (hext.wellTyped hwt)
        (fun b hb => by rw [hext.length]; exact hrest b hb)

theorem count_filter_range (n a : Nat) (p : Nat → Bool) :
    ((List.range n).filter p).count a = if a < n ∧ p a = true then 1 else 0 := by
  have hnd : ((List.range n).filter p).Nodup := (List.nodup_range n).filter _
  rw [List.count_eq_of_nodup hnd]
  simp [List.mem_filter]

theorem pending_lt {w : World} {a : Nat} (h : w.pending a = true) : a < w.heap.length := by
  unfold World.pending at h
  cases ht : w.heap[a]? with
  | none => simp [ht] at h
  | some t => exact (List.getElem?_eq_some.1 ht).1

/-- C5: in a reachable state, when `executeAll` returns, every task of the registry is
evaluated; the callables entered during the call are exactly those of the tasks that were
unevaluated before it, each once and in registration order, and none has thrown; every
task that was evaluated before keeps its flag and its cached result and is not entered
again.  When no callable throws, every forward reference is read at the result type of
its task and the fuel is at least the number of tasks, `executeAll` does return. -/
theorem executeAll_post (c : Config) (hr : Reachable c) (fuel : Nat) (rtl : Bool) :
    (∀ w1, c.sched.executeAll fuel rtl c.world = (w1, .ok ()) →
      (∀ a ∈ c.sched.tasks_, ∃ t1, w1.heap[a]? = some t1 ∧ t1.isEvaulated_ = true) ∧
      w1.calls = c.world.calls ++ c.sched.tasks_.filter c.world.pending ∧
      (∀ a, w1.calls.count a =
        c.world.calls.count a + if c.world.pending a = true then 1 else 0) ∧
      w1.thrown = c.world.thrown ∧
      (∀ (a : Nat) (t : Task_), c.world.heap[a]? = some t → t.isEvaulated_ = true →
        w1.heap[a]? = some t)) ∧
    (NoFail c.world.heap → WellTyped c.world.heap → c.world.heap.length ≤ fuel →
      ∃ w1, c.sched.executeAll fuel rtl c.world = (w1, .ok ())) := by
  have hinv := hr.reach_inv
  have hg := hinv.good
  constructor
  · intro w1 h
    have hfr : executeAll.loop fuel rtl (List.range' 0 c.world.heap.length) c.world =
        (w1, .ok ()) := by
      rw [← List.range_eq_range', ← hinv.tasks]
      exact h
    obtain ⟨h1, _, _⟩ := loop_frontier fuel rtl _ 0 c.world w1 _ hg.acyclic
      (fun b tb hb _ => absurd hb (Nat.not_lt_zero b)) hfr
    obtain ⟨hcalls, hthrown⟩ := h1 () rfl
    rw [← List.range_eq_range', ← hinv.tasks] at hcalls
    refine ⟨loop_ok_evaluated fuel rtl _ _ w1 () hg.acyclic h, hcalls, ?_, hthrown,
      (loop_fires fuel rtl _ _ w1 _ hg.acyclic h).fires_ext.frozen⟩
    intro a
    rw [hcalls, List.count_append, hinv.tasks, count_filter_range]
    by_cases hp : c.world.pending a = true
    · simp [hp, pending_lt hp]
    · simp [hp]
  · intro hnf hwt hfuel
    apply loop_returns fuel rtl _ _ hg hnf hwt
    intro a ha
    rw [hinv.tasks, List.mem_range] at ha
    exact ⟨lt_of_lt_of_le ha hfuel, ha⟩

/-- C5 on the registry of the test `MultipleArgsTest.test2`. -/
theorem executeAll_post_witness :
    (∀ a ∈ squareConfig.sched.tasks_,
      ∃ t1, squareDone.heap[a]? = some t1 ∧ t1.isEvaulated_ = true) ∧
    squareDone.calls =
      squareConfig.world.calls ++ squareConfig.sched.tasks_.filter squareConfig.world.pending ∧
    (∀ a, squareDone.calls.count a =
      squareConfig.world.calls.count a + if squareConfig.world.pending a = true then 1 else 0) ∧
    squareDone.thrown = squareConfig.world.thrown ∧
    (∀ (a : Nat) (t : Task_), squareConfig.world.heap[a]? = some t → t.isEvaulated_ = true →
      squareDone.heap[a]? = some t) :=
  (executeAll_post squareConfig squareConfig_reachable 2 false).1 squareDone rfl

theorem throwConfig_reachable : Reachable throwConfig :=
  Reachable.add
    (Reachable.getFutureResult
      (Reachable.add
        (Reachable.add Reachable.reach_init (constant (.num 5)) .int [] (by simp))
        thrower .int [] (by simp))
      .int ⟨0⟩ ⟨.int, 0⟩ rfl)
    plus .int [.future ⟨.int, 0⟩, .value (.num 1)] (by simp)

/-- C6: in a reachable state, if during `executeAll` the callable of the task at index `k`
is the first to throw (the log of throwing callables grows by `k` first), then nothing
else throws (`rest = []`), `executeAll` ends with the exception `e` of that callable, and
the task at `k` is left as it was, unevaluated; every task that was evaluated before the
call keeps its flag and result, every task below `k` is evaluated, and every task at an
index above `k` is untouched and its callable has not been entered. -/
theorem executeAll_failure (c : Config) (hr : Reachable c) (fuel : Nat) (rtl : Bool)
    (w1 : World) (o : Outcome Unit) (k : Nat) (rest : List Nat)
    (h : c.sched.executeAll fuel rtl c.world = (w1, o))
    (hk : w1.thrown = c.world.thrown ++ k :: rest) :
    rest = [] ∧ c.sched.tasks_[k]? = some k ∧
    (∃ t vs e, c.world.heap[k]? = some t ∧ w1.heap[k]? = some t ∧ t.isEvaulated_ = false ∧
      Cached w1.heap t.args_ vs ∧ t.fnc_ vs = .error e ∧ o = .throw e) ∧
    (∀ (b : Nat) (tb : Task_), c.world.heap[b]? = some tb → tb.isEvaulated_ = true →
      w1.heap[b]? = some tb) ∧
    EvaluatedBelow k w1 ∧
    (∀ j a, k < j → c.sched.tasks_[j]? = some a →
      w1.heap[a]? = c.world.heap[a]? ∧ w1.calls.count a = c.world.calls.count a) := by
  have hinv := hr.reach_inv
  have hg := hinv.good
  have hfr : executeAll.loop fuel rtl (List.range' 0 c.world.heap.length) c.world =
      (w1, o) := by
    rw [← List.range_eq_range', ← hinv.tasks]
    exact h
  obtain ⟨h1, h2, h3⟩ := loop_frontier fuel rtl _ 0 c.world w1 o hg.acyclic
    (fun b tb hb _ => absurd hb (Nat.not_lt_zero b)) hfr
  have hcontra : w1.thrown = c.world.thrown → False := by
    intro heq
    rw [heq] at hk
    have := List.self_eq_append_right.1 hk
    cases this
  cases o with
  | ok u => exact absurd (h1 u rfl).2 hcontra
  | ub => exact absurd (h3 (Or.inl rfl)) hcontra
  | timeout => exact absurd (h3 (Or.inr rfl)) hcontra
  | throw e =>
    obtain ⟨j, t, _, hjn, hf, hj0, hj1, hu, hbelow, hth⟩ := h2 e rfl
    rcases hth with hth | ⟨vs, hc, hv, hth⟩
    · exact absurd hth hcontra
    · rw [hth] at hk
      have hkj := List.append_cancel_left hk
      simp only [List.cons.injEq] at hkj
      obtain ⟨rfl, hrest⟩ := hkj
      refine ⟨hrest.symm, ?_, ⟨t, vs, e, hj0, hj1, hu, hc, hv, rfl⟩,
        (loop_fires fuel rtl _ _ w1 _ hg.acyclic h).fires_ext.frozen, hbelow, ?_⟩
      · rw [hinv.tasks]
        exact List.getElem?_range (by omega)
      · intro i a hji hia
        rw [hinv.tasks] at hia
        have hai : a = i := by
          have := List.getElem?_eq_some.1 hia
          obtain ⟨hlt, hget⟩ := this
          simpa using hget.symm
        subst hai
        refine ⟨hf.above (by omega), ?_⟩
        obtain ⟨l, hl, hlt⟩ := hf.fires_calls
        rw [hl, List.count_append]
        have : l.count a = 0 := by
          rw [List.count_eq_zero]
          intro hmem
          have := hlt a hmem
          omega
        omega

/-- C6 on `throwConfig`: the callable of task 1 throws, task 0 is evaluated, task 2 is
untouched. -/
theorem executeAll_failure_witness :
    ([] : List Nat) = [] ∧ throwConfig.sched.tasks_[1]? = some 1 ∧
    (∃ t vs e, throwConfig.world.heap[1]? = some t ∧ throwDone.heap[1]? = some t ∧
      t.isEvaulated_ = false ∧ Cached throwDone.heap t.args_ vs ∧ t.fnc_ vs = .error e ∧
      (Outcome.throw (.runtime_error "Error!") : Outcome Unit) = .throw e) ∧
    (∀ (b : Nat) (tb : Task_), throwConfig.world.heap[b]? = some tb →
      tb.isEvaulated_ = true → throwDone.heap[b]? = some tb) ∧
    EvaluatedBelow 1 throwDone ∧
    (∀ j a, 1 < j → throwConfig.sched.tasks_[j]? = some a →
      throwDone.heap[a]? = throwConfig.world.heap[a]? ∧
      throwDone.calls.count a = throwConfig.world.calls.count a) :=
  executeAll_failure throwConfig throwConfig_reachable 3 false throwDone
    (.throw (.runtime_error "Error!")) 1 [] rfl rfl

theorem Reachable.executeAll {c : Config} (h : Reachable c) (fuel : Nat) (rtl : Bool)
    (w1 : World) (o : Outcome Unit) (he : c.sched.executeAll fuel rtl c.world = (w1, o))
    (hends : o.Ends) : Reachable ⟨w1, c.sched, c.handles⟩ :=
  h.step (Step.executeAll c fuel rtl w1 o he hends)

theorem Reachable.getResult {c : Config} (h : Reachable c) (fuel : Nat) (rtl : Bool) (T : Ty)
    (tid : TaskId_) (w1 : World) (o : Outcome Val)
    (he : c.sched.getResult fuel rtl c.world T tid = (w1, o)) (hends : o.Ends) :
    Reachable ⟨w1, c.sched, c.handles⟩ :=
  h.step (Step.getResult c fuel rtl T tid w1 o he hends)

theorem throwConfigDone_reachable : Reachable throwConfigDone :=
  Reachable.executeAll throwConfig_reachable 3 false throwDone
    (.throw (.runtime_error "Error!")) rfl trivial

theorem get_cached (evalRec : World → Nat → World × Outcome Unit) {w : World}
    {x : AbstractArgument_} {v : Val} (h : AbstractArgument_.cached w.heap x = some v) :
    AbstractArgument_.get evalRec x w = (w, .ok v) := by
  cases x with
  | simple y =>
    simp only [cached_simple, Option.some.injEq] at h
    simp [AbstractArgument_.get, h]
  | future f =>
    rw [cached_future_iff] at h
    obtain ⟨t, ht, he, hty, hr⟩ := h
    simp [AbstractArgument_.get, FutureResult_.get, ht, AnyTask_.getStatus, he,
      AnyTask_.getRes, hty, hr]

theorem getAll_cached (evalRec : World → Nat → World × Outcome Unit) {w : World}
    {args : List AbstractArgument_} {vs : List Val} (h : Cached w.heap args vs) :
    getAll evalRec args w = (w, .ok vs) := by
  unfold Cached at h
  induction h with
  | nil => rfl
  | cons hx _ ih => simp only [getAll, get_cached evalRec hx, ih]

theorem readArgs_cached (evalRec : World → Nat → World × Outcome Unit) (rtl : Bool)
    {w : World} {args : List AbstractArgument_} {vs : List Val}
    (h : Cached w.heap args vs) : readArgs evalRec rtl args w = (w, .ok vs) := by
  cases rtl with
  | false => simp only [readArgs, Bool.false_eq_true, if_false, getAll_cached evalRec h]
  | true =>
    have hrev : Cached w.heap args.reverse vs.reverse := by
      unfold Cached at h ⊢
      exact List.forall₂_reverse_iff.2 h
    simp only [readArgs, if_true, getAll_cached evalRec hrev, List.reverse_reverse]

/-- `Task_::eval` on a node whose bindings are all cached enters only its own callable. -/
theorem eval_cached (rtl : Bool) (fuel : Nat) {w : World} {a : Nat} {t : Task_}
    {vs : List Val} (ht : w.heap[a]? = some t) (hc : Cached w.heap t.args_ vs) :
    Task_.eval rtl (fuel + 1) w a =
      match t.fnc_ vs with
      | .ok v => (⟨w.heap.set a (t.done v), w.calls ++ [a], w.thrown⟩, .ok ())
      | .error e => (⟨w.heap, w.calls ++ [a], w.thrown ++ [a]⟩, .throw e) := by
  simp only [Task_.eval, ht, readArgs_cached (Task_.eval rtl fuel) rtl hc]
  cases t.fnc_ vs <;> rfl

/-- A task whose callable has thrown is unevaluated, and its callable throws on the cached
values of its bindings. -/
theorem Good.thrown_pending {w : World} (hg : Good w) {a : Nat} {t : Task_}
    (ht : w.heap[a]? = some t) (hmem : a ∈ w.thrown) :
    t.isEvaulated_ = false ∧ ∃ vs e, Cached w.heap t.args_ vs ∧ t.fnc_ vs = .error e := by
  have htal := hg.tallied a
  rw [ht] at htal
  have hpos : 0 < w.thrown.count a := List.count_pos_iff.2 hmem
  cases he : t.isEvaulated_ with
  | true =>
    have := (hg.counted a t ht).1 he
    simp only [he, if_true] at htal
    omega
  | false =>
    refine ⟨rfl, ?_⟩
    rcases (hg.counted a t ht).2 he with h0 | h1
    · simp only [he, Bool.false_eq_true, if_false] at htal
      omega
    · exact h1

/-- C7: a failure is never cached.  A `Task_::eval` that throws, whether called by
`getResult`, by `executeAll` or by the read of a forward reference in the middle of
another evaluation, leaves its node as it was: flag false, result slot empty; this holds
for the task whose callable threw and for every task whose evaluation was in progress.
`getResult` passes the exception and that memory on.  In every reachable state a task
whose callable has thrown is unevaluated with an empty slot, and `getResult` on it enters
its callable again and throws again. -/
theorem failure_not_cached (c : Config) (hr : Reachable c) :
    (∀ (w : World) (rtl : Bool) (fuel b : Nat) (tb : Task_) (w1 : World) (e : Exn),
      Good w → w.heap[b]? = some tb → tb.isEvaulated_ = false →
      Task_.eval rtl fuel w b = (w1, .throw e) →
      w1.heap[b]? = some tb ∧ tb.res_ = none ∧ Good w1) ∧
    (∀ (fuel : Nat) (rtl : Bool) (T : Ty) (tid : TaskId_) (a : Nat) (t : Task_) (w1 : World)
      (e : Exn), c.sched.tasks_[tid.getId]? = some a → c.world.heap[a]? = some t →
      t.isEvaulated_ = false → Task_.eval rtl fuel c.world a = (w1, .throw e) →
      c.sched.getResult fuel rtl c.world T tid = (w1, .throw e) ∧ w1.heap[a]? = some t) ∧
    (∀ (a : Nat) (t : Task_), c.world.heap[a]? = some t → a ∈ c.world.thrown →
      t.isEvaulated_ = false ∧ t.res_ = none ∧
      ∀ (fuel : Nat) (rtl : Bool) (T : Ty) (tid : TaskId_),
        c.sched.tasks_[tid.getId]? = some a →
        ∃ vs e, Cached c.world.heap t.args_ vs ∧ t.fnc_ vs = .error e ∧
          c.sched.getResult (fuel + 1) rtl c.world T tid =
            (⟨c.world.heap, c.world.calls ++ [a], c.world.thrown ++ [a]⟩, .throw e)) := by
  have hg := hr.reach_inv.good
  refine ⟨?_, ?_, ?_⟩
  · intro w rtl fuel b tb w1 e hgw htb hu hev
    have hpost := eval_post rtl fuel w b tb w1 _ hgw.acyclic htb hu hev
    exact ⟨hpost.not_ok_node htb (fun u h => by cases h), hgw.fresh b tb htb hu,
      (hpost.fires htb hu).fires_good hgw⟩
  · intro fuel rtl T tid a t w1 e hid ht hu hev
    have hpost := eval_post rtl fuel c.world a t w1 _ hg.acyclic ht hu hev
    exact ⟨getResult_eval_throw fuel rtl T hid ht hu hev,
      hpost.not_ok_node ht (fun u h => by cases h)⟩
  · intro a t ht hmem
    obtain ⟨hu, vs, e, hc, hv⟩ := hg.thrown_pending ht hmem
    refine ⟨hu, hg.fresh a t ht hu, ?_⟩
    intro fuel rtl T tid hid
    have hev := eval_cached rtl fuel ht hc
    rw [hv] at hev
    exact ⟨vs, e, hc, hv, getResult_eval_throw (fuel + 1) rtl T hid ht hu hev⟩

/-- C7 on `throwConfig` after the `executeAll` that throws: `getResult` on task 1 enters
its callable again. -/
theorem failure_not_cached_witness :
    ∃ vs e, Cached throwConfigDone.world.heap [] vs ∧ thrower vs = .error e ∧
      throwConfigDone.sched.getResult (0 + 1) false throwConfigDone.world .int ⟨1⟩ =
        (⟨throwConfigDone.world.heap, throwConfigDone.world.calls ++ [1],
          throwConfigDone.world.thrown ++ [1]⟩, .throw e) :=
  ((failure_not_cached throwConfigDone throwConfigDone_reachable).2.2 1
    ⟨thrower, .int, [], none, false⟩ rfl (by decide)).2.2 0 false .int ⟨1⟩ rfl

/-- C8: `add` on a registry of length `n` whose pointers name allocated nodes (a shared
pointer always does) returns the identifier `n` and leaves a registry of length `n + 1`; the first `n` entries are the
previous entries and their nodes are unchanged; the new last entry is a new node,
unevaluated, with an empty result slot; no callable is entered. -/
theorem add_post (s : TTaskScheduler) (w : World) (func : List Val → Except Exn Val)
    (ret : Ty) (args : List TTaskScheduler.Argument)
    (hwf : ∀ a ∈ s.tasks_, a < w.heap.length) :
    (s.add w func ret args).2.2 = ⟨s.tasks_.length⟩ ∧
    (s.add w func ret args).2.1.tasks_.length = s.tasks_.length + 1 ∧
    (∀ i, i < s.tasks_.length → (s.add w func ret args).2.1.tasks_[i]? = s.tasks_[i]?) ∧
    (∀ a ∈ s.tasks_, (s.add w func ret args).1.heap[a]? = w.heap[a]?) ∧
    (∃ a t, (s.add w func ret args).2.1.tasks_[s.tasks_.length]? = some a ∧ a ∉ s.tasks_ ∧
      (s.add w func ret args).1.heap[a]? = some t ∧ w.heap[a]? = none ∧
      t.isEvaulated_ = false ∧ t.res_ = none ∧ t.fnc_ = func ∧ t.ret = ret ∧
      t.args_ = args.map WrapArgument_) ∧
    (s.add w func ret args).1.calls = w.calls ∧
    (s.add w func ret args).1.thrown = w.thrown := by
  refine ⟨?_, ?_, ?_, ?_, ?_, rfl, rfl⟩
  · simp [TTaskScheduler.add]
  · simp [TTaskScheduler.add]
  · intro i hi
    exact List.getElem?_append_left hi
  · intro a ha
    exact List.getElem?_append_left (hwf a ha)
  · exact ⟨w.heap.length, _, List.getElem?_concat_length _ _,
      fun hmem => lt_irrefl _ (hwf _ hmem), List.getElem?_concat_length _ _,
      List.getElem?_eq_none (le_refl _), rfl, rfl, rfl, rfl, rfl⟩

/-- C8 on the registry of the test `MultipleArgsTest.test2`: a third `add` returns the
identifier 2 and enters no callable. -/
theorem add_post_witness :
    (squareConfig.sched.add squareConfig.world plus .int fourOnes).2.2 = ⟨2⟩ ∧
    (squareConfig.sched.add squareConfig.world plus .int fourOnes).1.calls = [] :=
  ⟨(add_post squareConfig.sched squareConfig.world plus .int fourOnes (by decide)).1,
    (add_post squareConfig.sched squareConfig.world plus .int fourOnes
      (by decide)).2.2.2.2.2.1⟩

theorem throwMismatchConfig_reachable : Reachable throwMismatchConfig :=
  Reachable.add
    (Reachable.getFutureResult
      (Reachable.add Reachable.reach_init thrower .int [] (by simp))
      .float ⟨0⟩ ⟨.float, 0⟩ rfl)
    plus .float [.future ⟨.float, 0⟩] (by simp)

/-- No invocation changes a node that holds a mismatched forward reference. -/
theorem Fire.fire_mismatched {a : Nat} {w w1 : World} (h : Fire a w w1) {n : Nat} {t : Task_}
    (hm : Mismatched w n t) : Mismatched w1 n t := by
  obtain ⟨hn, hu, f, tb, hmem, htb, hne⟩ := hm
  obtain ⟨tb1, htb1, _, e2, _⟩ := h.fire_ext.shape f.task_ tb htb
  have hnode : w1.heap[n]? = some t := by
    by_cases han : a = n
    · subst han
      cases h with
      | ok t0 vs v ht _ hc _ =>
        exfalso
        rw [hn] at ht
        cases ht
        obtain ⟨x, hx⟩ := hc.mem hmem
        rw [cached_future_iff] at hx
        obtain ⟨tb0, htb0, _, hty, _⟩ := hx
        rw [htb] at htb0
        cases htb0
        exact hne hty
      | fail t0 vs e ht _ _ _ => exact hn
    · rw [h.other han, hn]
  exact ⟨hnode, hu, f, tb1, hmem, htb1, by rw [e2]; exact hne⟩

theorem Fires.fires_mismatched {m : Nat} {w w1 : World} (h : Fires m w w1) {n : Nat} {t : Task_}
    (hm : Mismatched w n t) : Mismatched w1 n t := by
  induction h with
  | refl => exact hm
  | tail _ hs ih =>
    obtain ⟨a, _, hf⟩ := hs
    exact hf.fire_mismatched ih

theorem Step.step_mismatched {c c1 : Config} (h : Step c c1) (hi : Inv c) {n : Nat} {t : Task_}
    (hm : Mismatched c.world n t) : Mismatched c1.world n t := by
  cases h with
  | getFutureResult T tid f h => exact hm
  | add func ret args h =>
    obtain ⟨hn, hu, f, tb, hmem, htb, hne⟩ := hm
    refine ⟨?_, hu, f, tb, hmem, ?_, hne⟩
    · simp only [TTaskScheduler.add]
      rw [List.getElem?_append_left (List.getElem?_eq_some.1 hn).1, hn]
    · simp only [TTaskScheduler.add]
      rw [List.getElem?_append_left (List.getElem?_eq_some.1 htb).1, htb]
  | getResult fuel rtl T tid w1 o h hends =>
    exact (getResult_fires fuel rtl _ _ T tid w1 o hi.good.acyclic h).fires_mismatched hm
  | executeAll fuel rtl w1 o h hends =>
    exact (loop_fires fuel rtl _ _ w1 o hi.good.acyclic h).fires_mismatched hm

theorem steps_mismatched {c c1 : Config} (h : Relation.ReflTransGen Step c c1) (hi : Inv c)
    {n : Nat} {t : Task_} (hm : Mismatched c.world n t) :
    Inv c1 ∧ Mismatched c1.world n t := by
  induction h with
  | refl => exact ⟨hi, hm⟩
  | tail _ hs ih => exact ⟨hs.step_inv ih.1, hs.step_mismatched ih.1 ih.2⟩

/-- With total callables and enough fuel, the `eval` of a node that holds a mismatched
forward reference throws `std::bad_cast`. -/
theorem eval_mismatch_bad_cast {rtl : Bool} {fuel : Nat} {w : World} {n : Nat} {t : Task_}
    (hg : Good w) (hm : Mismatched w n t) (hnf : NoFail w.heap) (hfuel : n < fuel) :
    ∃ w1, Task_.eval rtl fuel w n = (w1, .throw .bad_cast) := by
  obtain ⟨hn, hu, f, tb, hmem, htb, hne⟩ := hm
  cases hev : Task_.eval rtl fuel w n with
  | mk w1 o =>
    have hends := eval_ends rtl fuel w n w1 o hg.acyclic hg.sound
      (List.getElem?_eq_some.1 hn).1 hfuel hev
    have hnot := eval_mismatch hg.acyclic hn hu hmem htb hne hev
    cases o with
    | ok u => exact absurd rfl (hnot u)
    | throw e =>
      have hpost := eval_post rtl fuel w n t w1 _ hg.acyclic hn hu hev
      rcases hpost.post_raises hn with ⟨b, tb0, vs, htb0, hf⟩ | ⟨rfl, _⟩
      · exact absurd hf (hnf b tb0 htb0 vs e)
      · exact ⟨w1, rfl⟩
    | ub => exact absurd hends (by simp [Outcome.Ends])
    | timeout => exact absurd hends (by simp [Outcome.Ends])

theorem plusConfig_reachable : Reachable plusConfig :=
  Reachable.add Reachable.reach_init plus .int fourOnes (by simp [fourOnes])

/-- C9 fails as stated: in `throwMismatchConfig` the handle `getFutureResult<float>` on the
`int` task 0 and the `add` that consumes it succeed, but the evaluation of the consuming
task 1 does not raise the type-mismatch error: the callable of task 0 throws first, and
`getResult` and `Task_::eval` end with its `std::runtime_error`. -/
theorem deferred_mismatch_other_exception :
    Reachable throwMismatchConfig ∧ throwMismatchConfig.sched.tasks_[0]? = some 0 ∧
    (∃ tb, throwMismatchConfig.world.heap[0]? = some tb ∧ tb.ret = Ty.int) ∧
    (∃ t, throwMismatchConfig.world.heap[1]? = some t ∧
      AbstractArgument_.future ⟨Ty.float, 0⟩ ∈ t.args_) ∧
    (∀ rtl, (Task_.eval rtl 2 throwMismatchConfig.world 1).2 =
      .throw (.runtime_error "Error!")) ∧
    (∀ rtl, (throwMismatchConfig.sched.getResult 2 rtl throwMismatchConfig.world .float ⟨1⟩).2 =
      .throw (.runtime_error "Error!")) := by
  refine ⟨throwMismatchConfig_reachable, rfl, ⟨_, rfl, rfl⟩,
    ⟨⟨plus, .float, [.future ⟨.float, 0⟩], none, false⟩, rfl, by simp⟩, ?_, ?_⟩
  · intro rtl; cases rtl <;> rfl
  · intro rtl; cases rtl <;> rfl

/-- C9, amended: in a reachable state, for a valid identifier and any type `T`,
`getFutureResult<T>` returns a handle and an `add` that consumes it returns, and neither
enters a callable nor changes a node.  When `T` is not the result type of the referenced
task, then in every later state the consuming task is still the unevaluated node that
`add` created: every `Task_::eval` of it, every `getResult` on it and every `executeAll`
fails to return and leaves it so; and the failure is `std::bad_cast` whenever no callable
of the registry throws. -/
theorem deferred_type_mismatch (c : Config) (hr : Reachable c) (T : Ty) (tid : TaskId_)
    (b : Nat) (tb : Task_) (hid : c.sched.tasks_[tid.getId]? = some b)
    (htb : c.world.heap[b]? = some tb) (func : List Val → Except Exn Val) (ret : Ty)
    (args : List TTaskScheduler.Argument)
    (hmem : TTaskScheduler.Argument.future ⟨T, b⟩ ∈ args)
    (hargs : ∀ f, TTaskScheduler.Argument.future f ∈ args → f ∈ ⟨T, b⟩ :: c.handles) :
    c.sched.getFutureResult T tid = .ok ⟨T, b⟩ ∧
    (c.sched.add c.world func ret args).1.calls = c.world.calls ∧
    (c.sched.add c.world func ret args).1.thrown = c.world.thrown ∧
    (∀ (a : Nat) (t : Task_), c.world.heap[a]? = some t →
      (c.sched.add c.world func ret args).1.heap[a]? = some t) ∧
    (c.sched.add c.world func ret args).1.heap[c.world.heap.length]? =
      some ⟨func, ret, args.map WrapArgument_, none, false⟩ ∧
    (T ≠ tb.ret → ∀ c2, Relation.ReflTransGen Step
        ⟨(c.sched.add c.world func ret args).1, (c.sched.add c.world func ret args).2.1,
          ⟨T, b⟩ :: c.handles⟩ c2 →
      c2.world.heap[c.world.heap.length]? =
        some ⟨func, ret, args.map WrapArgument_, none, false⟩ ∧
      (∀ (rtl : Bool) (fuel : Nat) (w3 : World) (o : Outcome Unit),
        Task_.eval rtl fuel c2.world c.world.heap.length = (w3, o) →
        (∀ u, o ≠ .ok u) ∧
        w3.heap[c.world.heap.length]? =
          some ⟨func, ret, args.map WrapArgument_, none, false⟩) ∧
      (∀ (fuel : Nat) (rtl : Bool) (T2 : Ty) (tid2 : TaskId_) (w3 : World) (o : Outcome Val),
        c2.sched.tasks_[tid2.getId]? = some c.world.heap.length →
        c2.sched.getResult fuel rtl c2.world T2 tid2 = (w3, o) →
        (∀ v, o ≠ .ok v) ∧
        w3.heap[c.world.heap.length]? =
          some ⟨func, ret, args.map WrapArgument_, none, false⟩) ∧
      (∀ (fuel : Nat) (rtl : Bool) (w3 : World) (o : Outcome Unit),
        c2.sched.executeAll fuel rtl c2.world = (w3, o) →
        (∀ u, o ≠ .ok u) ∧
        w3.heap[c.world.heap.length]? =
          some ⟨func, ret, args.map WrapArgument_, none, false⟩) ∧
      (∀ (rtl : Bool) (fuel : Nat), NoFail c2.world.heap → c.world.heap.length < fuel →
        ∃ w3, Task_.eval rtl fuel c2.world c.world.heap.length =
          (w3, .throw .bad_cast))) := by
  have hfut : c.sched.getFutureResult T tid = .ok ⟨T, b⟩ := by
    simp [TTaskScheduler.getFutureResult, hid]
  have hnode : (c.sched.add c.world func ret args).1.heap[c.world.heap.length]? =
      some ⟨func, ret, args.map WrapArgument_, none, false⟩ := by
    simp only [TTaskScheduler.add]
    exact List.getElem?_concat_length _ _
  refine ⟨hfut, rfl, rfl, ?_, hnode, ?_⟩
  · intro a t ht
    simp only [TTaskScheduler.add]
    rw [List.getElem?_append_left (List.getElem?_eq_some.1 ht).1, ht]
  · intro hne c2 hsteps
    have hr1 : Reachable ⟨(c.sched.add c.world func ret args).1,
        (c.sched.add c.world func ret args).2.1, ⟨T, b⟩ :: c.handles⟩ :=
      Reachable.add (Reachable.getFutureResult hr T tid ⟨T, b⟩ hfut) func ret args hargs
    have hm1 : Mismatched (c.sched.add c.world func ret args).1 c.world.heap.length
        ⟨func, ret, args.map WrapArgument_, none, false⟩ := by
      refine ⟨hnode, rfl, ⟨T, b⟩, tb, ?_, ?_, hne⟩
      · exact List.mem_map.2 ⟨_, hmem, rfl⟩
      · simp only [TTaskScheduler.add]
        rw [List.getElem?_append_left (List.getElem?_eq_some.1 htb).1, htb]
    obtain ⟨hinv2, hm2⟩ := steps_mismatched hsteps hr1.reach_inv hm1
    have hg2 := hinv2.good
    obtain ⟨hn2, hu2, f, tbf, hmemf, htbf, hnef⟩ := hm2
    have hm2 : Mismatched c2.world c.world.heap.length
        ⟨func, ret, args.map WrapArgument_, none, false⟩ :=
      ⟨hn2, hu2, f, tbf, hmemf, htbf, hnef⟩
    refine ⟨hn2, ?_, ?_, ?_, ?_⟩
    · intro rtl fuel w3 o hev
      have hnot := eval_mismatch hg2.acyclic hn2 hu2 hmemf htbf hnef hev
      exact ⟨hnot,
        (eval_post rtl fuel c2.world _ _ w3 o hg2.acyclic hn2 hu2 hev).not_ok_node hn2 hnot⟩
    · intro fuel rtl T2 tid2 w3 o hid2 hget
      refine ⟨?_, ((getResult_fires fuel rtl _ _ T2 tid2 w3 o hg2.acyclic hget).fires_mismatched
        hm2).1⟩
      intro v hv
      subst hv
      obtain ⟨u, hev⟩ := getResult_ok_eval hid2 hn2 hu2 hget
      exact eval_mismatch hg2.acyclic hn2 hu2 hmemf htbf hnef hev u rfl
    · intro fuel rtl w3 o hex
      have hm3 := (loop_fires fuel rtl _ _ w3 o hg2.acyclic hex).fires_mismatched hm2
      refine ⟨?_, hm3.1⟩
      intro u hu
      subst hu
      have hmemn : c.world.heap.length ∈ c2.sched.tasks_ := by
        rw [hinv2.tasks, List.mem_range]
        exact (List.getElem?_eq_some.1 hn2).1
      obtain ⟨t3, ht3, he3⟩ := loop_ok_evaluated fuel rtl _ _ w3 u hg2.acyclic hex _ hmemn
      rw [hm3.1] at ht3
      cases ht3
      cases he3
    · intro rtl fuel hnf hfuel
      exact eval_mismatch_bad_cast hg2 hm2 hnf hfuel

/-- C9, amended, on `mismatchConfig`: the handle is taken without error and the evaluation
of the consuming task throws `std::bad_cast`. -/
theorem deferred_type_mismatch_witness :
    plusConfig.sched.getFutureResult .float ⟨0⟩ = .ok ⟨.float, 0⟩ ∧
    ∃ w3, Task_.eval false 2 mismatchConfig.world 1 = (w3, .throw .bad_cast) :=
  ⟨(deferred_type_mismatch plusConfig plusConfig_reachable .float ⟨0⟩ 0
      ⟨plus, .int, fourOnes.map WrapArgument_, none, false⟩ rfl rfl square .float
      [.future ⟨.float, 0⟩] (by simp) (by simp)).1,
    ((deferred_type_mismatch plusConfig plusConfig_reachable .float ⟨0⟩ 0
      ⟨plus, .int, fourOnes.map WrapArgument_, none, false⟩ rfl rfl square .float
      [.future ⟨.float, 0⟩] (by simp) (by simp)).2.2.2.2.2 (by decide) mismatchConfig
      Relation.ReflTransGen.refl).2.2.2.2 false 2 mismatchConfig_noFail (by decide)⟩

theorem Cached.mem_value {heap : List Task_} {args : List AbstractArgument_} {vs : List Val}
    (h : Cached heap args vs) {x : AbstractArgument_} (hx : x ∈ args) :
    ∃ v, v ∈ vs ∧ AbstractArgument_.cached heap x = some v := by
  unfold Cached at h
  induction h with
  | nil => cases hx
  | @cons y v rest vs hy _ ih =>
    rcases List.mem_cons.1 hx with rfl | hx
    · exact ⟨v, List.mem_cons_self _ _, hy⟩
    · obtain ⟨v1, hv1, hc1⟩ := ih hx
      exact ⟨v1, List.mem_cons_of_mem _ hv1, hc1⟩

/-- With total callables, well typed references and enough fuel, `getResult` at the result
type of the task returns a value. -/
theorem getResult_returns {w : World} (hg : Good w) (hnf : NoFail w.heap)
    (hwt : WellTyped w.heap) (s : TTaskScheduler) (fuel : Nat) (rtl : Bool) (tid : TaskId_)
    (a : Nat) (t : Task_) (hid : s.tasks_[tid.getId]? = some a) (ht : w.heap[a]? = some t)
    (hfuel : a < fuel) : ∃ w1 v, s.getResult fuel rtl w t.ret tid = (w1, .ok v) := by
  cases he : t.isEvaulated_ with
  | true =>
    obtain ⟨vs, v, _, _, hres⟩ := hg.sound a t ht he
    refine ⟨w, v, ?_⟩
    rw [getResult_evaluated fuel rtl t.ret hid ht he]
    simp [AnyTask_.getRes, hres]
  | false =>
    obtain ⟨w1, vs, v, hev, _, _, _, hnode⟩ := eval_ok rtl fuel w a t hg hnf hwt ht he hfuel
    refine ⟨w1, v, ?_⟩
    rw [getResult_eval_ok fuel rtl t.ret hid ht he hev hnode]
    simp [AnyTask_.getRes, Task_.done]

/-- C10 fails as stated: no sequence of calls of the public members of one registry leads
to a state in which the task at an index `i` holds a forward reference to the task at an
index `j > i`. -/
theorem no_reference_to_later_task :
    ¬ ∃ (c : Config) (i j a b : Nat) (t : Task_) (f : FutureResult_), Reachable c ∧
      c.sched.tasks_[i]? = some a ∧ c.sched.tasks_[j]? = some b ∧ i < j ∧
      c.world.heap[a]? = some t ∧ AbstractArgument_.future f ∈ t.args_ ∧ f.task_ = b := by
  rintro ⟨c, i, j, a, b, t, f, hr, hi, hj, hij, ht, hmem, hf⟩
  have hinv := hr.reach_inv
  rw [hinv.tasks] at hi hj
  have hai : a = i := by
    obtain ⟨_, hget⟩ := List.getElem?_eq_some.1 hi
    simpa using hget.symm
  have hbj : b = j := by
    obtain ⟨_, hget⟩ := List.getElem?_eq_some.1 hj
    simpa using hget.symm
  have := hinv.good.acyclic a t ht f hmem
  omega

/-- C10, amended: in every reachable state a forward reference held by the task at index
`i` names a task at an index `j < i`, registered before it; and when `getResult` on task
`i` returns a value, that value is the callable of task `i` applied to the values of its
bindings, the value of the forward reference being the result held by task `j`, which is
evaluated.  With total callables, well typed references and enough fuel `getResult` does
return. -/
theorem reference_to_earlier_task (c : Config) (hr : Reachable c) (i j a b : Nat)
    (t : Task_) (f : FutureResult_) (hi : c.sched.tasks_[i]? = some a)
    (hj : c.sched.tasks_[j]? = some b) (ht : c.world.heap[a]? = some t)
    (hmem : AbstractArgument_.future f ∈ t.args_) (hf : f.task_ = b) :
    j < i ∧
    (∀ (fuel : Nat) (rtl : Bool) (T : Ty) (w1 : World) (v : Val),
      c.sched.getResult fuel rtl c.world T ⟨i⟩ = (w1, .ok v) →
      ∃ vs tb x, Cached w1.heap t.args_ vs ∧ t.fnc_ vs = .ok v ∧
        w1.heap[b]? = some tb ∧ tb.isEvaulated_ = true ∧ tb.res_ = some x ∧
        f.T = tb.ret ∧ x ∈ vs) ∧
    (NoFail c.world.heap → WellTyped c.world.heap → ∀ (fuel : Nat) (rtl : Bool), a < fuel →
      ∃ w1 v, c.sched.getResult fuel rtl c.world t.ret ⟨i⟩ = (w1, .ok v)) := by
  have hinv := hr.reach_inv
  have hg := hinv.good
  have hi0 := hi
  have hj0 := hj
  rw [hinv.tasks] at hi0 hj0
  have hai : a = i := by
    obtain ⟨_, hget⟩ := List.getElem?_eq_some.1 hi0
    simpa using hget.symm
  have hbj : b = j := by
    obtain ⟨_, hget⟩ := List.getElem?_eq_some.1 hj0
    simpa using hget.symm
  have hlt := hg.acyclic a t ht f hmem
  refine ⟨by omega, ?_, ?_⟩
  · intro fuel rtl T w1 v hget
    have hfires := getResult_fires fuel rtl _ _ T ⟨i⟩ w1 _ hg.acyclic hget
    obtain ⟨t1, ht1, he1, hres1, _⟩ := getResult_ok_node hg.acyclic hi hget
    obtain ⟨vs, v1, hc, hv, hr1⟩ := (hfires.fires_good hg).sound a t1 ht1 he1
    rw [hres1] at hr1
    cases hr1
    obtain ⟨t2, ht2, e1, _, e3⟩ := hfires.fires_ext.shape a t ht
    rw [ht1] at ht2
    cases ht2
    rw [e3] at hc
    rw [e1] at hv
    obtain ⟨x, hx, hcx⟩ := hc.mem_value hmem
    rw [cached_future_iff] at hcx
    obtain ⟨tb, htb, heb, hty, hrb⟩ := hcx
    rw [hf] at htb
    exact ⟨vs, tb, x, hc, hv, htb, heb, hrb, hty, hx⟩
  · intro hnf hwt fuel rtl hfuel
    exact getResult_returns hg hnf hwt c.sched fuel rtl ⟨i⟩ a t hi ht hfuel

/-- C10, amended, on the registry of the test `MultipleArgsTest.test2`: task 1 refers to
task 0. -/
theorem reference_to_earlier_task_witness :
    0 < 1 ∧ ∃ w1 v, squareConfig.sched.getResult 2 false squareConfig.world .int ⟨1⟩ =
      (w1, .ok v) :=
  ⟨(reference_to_earlier_task squareConfig squareConfig_reachable 1 0 1 0
      ⟨square, .int, [.future ⟨.int, 0⟩], none, false⟩ ⟨.int, 0⟩ rfl rfl rfl (by simp) rfl).1,
    (reference_to_earlier_task squareConfig squareConfig_reachable 1 0 1 0
      ⟨square, .int, [.future ⟨.int, 0⟩], none, false⟩ ⟨.int, 0⟩ rfl rfl rfl (by simp) rfl).2.2
      squareConfig_noFail squareConfig_wellTyped 2 false (by decide)⟩

theorem FiresIn.in_refl (S : Nat → Prop) (w : World) : FiresIn S w w :=
  Relation.ReflTransGen.refl

theorem FiresIn.in_trans {S : Nat → Prop} {w w1 w2 : World} (h1 : FiresIn S w w1)
    (h2 : FiresIn S w1 w2) : FiresIn S w w2 := Relation.ReflTransGen.trans h1 h2

theorem FiresIn.in_tail {S : Nat → Prop} {a : Nat} {w w1 w2 : World} (h1 : FiresIn S w w1)
    (ha : S a) (h2 : Fire a w1 w2) : FiresIn S w w2 :=
  Relation.ReflTransGen.tail h1 ⟨a, ha, h2⟩

theorem FiresIn.in_ext {S : Nat → Prop} {w w1 : World} (h : FiresIn S w w1) : Ext w w1 := by
  induction h with
  | refl => exact Ext.ext_refl _
  | tail _ hs ih =>
    obtain ⟨a, _, hf⟩ := hs
    exact ih.ext_trans hf.fire_ext

theorem FiresIn.in_good {S : Nat → Prop} {w w1 : World} (h : FiresIn S w w1) (hg : Good w) :
    Good w1 := by
  induction h with
  | refl => exact hg
  | tail _ hs ih =>
    obtain ⟨a, _, hf⟩ := hs
    exact hf.fire_good ih

theorem FiresIn.in_sound {S : Nat → Prop} {w w1 : World} (h : FiresIn S w w1)
    (hs : Sound w.heap) : Sound w1.heap := by
  induction h with
  | refl => exact hs
  | tail _ hstep ih =>
    obtain ⟨a, _, hf⟩ := hstep
    exact hf.fire_sound ih

/-- Invocations in `S` leave every node outside `S` untouched and do not enter its
callable. -/
theorem FiresIn.outside {S : Nat → Prop} {w w1 : World} (h : FiresIn S w w1) {b : Nat}
    (hb : ¬ S b) :
    w1.heap[b]? = w.heap[b]? ∧ w1.calls.count b = w.calls.count b ∧
      w1.thrown.count b = w.thrown.count b := by
  induction h with
  | refl => exact ⟨rfl, rfl, rfl⟩
  | tail _ hs ih =>
    obtain ⟨a, ha, hf⟩ := hs
    have hab : a ≠ b := fun h => hb (h ▸ ha)
    refine ⟨by rw [hf.other hab, ih.1], ?_, ?_⟩
    · rw [hf.fire_calls, List.count_append, ih.2.1]
      simp [List.count_singleton, hab]
    · cases hf with
      | ok t vs v _ _ _ _ => exact ih.2.2
      | fail t vs e _ _ _ _ =>
        rw [List.count_append, ih.2.2]
        simp [List.count_singleton, hab]

theorem Ext.closed {w w1 : World} (h : Ext w w1) {S : Nat → Prop} (hc : Closed S w.heap) :
    Closed S w1.heap := by
  intro a t1 f ha ht1 hf
  obtain ⟨t, ht, _, _, e3⟩ := h.back ht1
  exact hc a t f ha ht (e3 ▸ hf)

theorem getRes_ne_ub {t : Task_} {v : Val} (hr : t.res_ = some v) (T : Ty) :
    AnyTask_.getRes t T ≠ .ub := by
  unfold AnyTask_.getRes
  split
  · simp [hr]
  · simp

/-- One read `arg->get()`, for a binding held by a node of the closed set `S`: it enters
callables of `S` only, and on a sound heap it reads no slot before it is written. -/
theorem get_trace (evalRec : World → Nat → World × Outcome Unit) (S : Nat → Prop)
    (hrec : ∀ (w : World) (b : Nat) (t : Task_) (w1 : World) (o : Outcome Unit),
      Acyclic w.heap → w.heap[b]? = some t → t.isEvaulated_ = false →
      evalRec w b = (w1, o) → EvalPost b t w w1 o)
    (hin : ∀ (w : World) (b : Nat) (t : Task_) (w1 : World) (o : Outcome Unit),
      Acyclic w.heap → Closed S w.heap → S b → w.heap[b]? = some t →
      t.isEvaulated_ = false → evalRec w b = (w1, o) →
      FiresIn S w w1 ∧ (Sound w.heap → o ≠ .ub))
    (a : Nat) (ta : Task_) (arg : AbstractArgument_) (w w1 : World) (o : Outcome Val)
    (hac : Acyclic w.heap) (hcl : Closed S w.heap) (hSa : S a) (hta : w.heap[a]? = some ta)
    (hmem : arg ∈ ta.args_) (hget : AbstractArgument_.get evalRec arg w = (w1, o)) :
    FiresIn S w w1 ∧ (Sound w.heap → o ≠ .ub) := by
  cases arg with
  | simple x =>
    simp only [AbstractArgument_.get, Prod.mk.injEq] at hget
    obtain ⟨rfl, rfl⟩ := hget
    exact ⟨FiresIn.in_refl _ _, fun _ h => by cases h⟩
  | future f =>
    have hlt : f.task_ < a := hac a ta hta f hmem
    have hal : a < w.heap.length := (List.getElem?_eq_some.1 hta).1
    have hbl : f.task_ < w.heap.length := lt_trans hlt hal
    have hSb : S f.task_ := hcl a ta f hSa hta hmem
    obtain ⟨tb, htb⟩ : ∃ tb, w.heap[f.task_]? = some tb := ⟨w.heap[f.task_], by simp [hbl]⟩
    simp only [AbstractArgument_.get, FutureResult_.get, htb, AnyTask_.getStatus] at hget
    cases hst : tb.isEvaulated_ with
    | true =>
      simp only [hst, if_true, Prod.mk.injEq] at hget
      obtain ⟨rfl, rfl⟩ := hget
      refine ⟨FiresIn.in_refl _ _, fun hs => ?_⟩
      obtain ⟨vs, v, _, _, hr⟩ := hs f.task_ tb htb hst
      exact getRes_ne_ub hr f.T
    | false =>
      simp only [hst, Bool.false_eq_true, if_false] at hget
      cases hev : evalRec w f.task_ with
      | mk w2 o2 =>
        have hpost := hrec w f.task_ tb w2 o2 hac htb hst hev
        obtain ⟨hfin, hub⟩ := hin w f.task_ tb w2 o2 hac hcl hSb htb hst hev
        simp only [hev] at hget
        cases o2 with
        | ok u =>
          obtain ⟨vs, v, hc, hv, hnode⟩ := hpost.ok_node htb hst
          simp only [hnode, Prod.mk.injEq] at hget
          obtain ⟨rfl, rfl⟩ := hget
          exact ⟨hfin, fun _ => getRes_ne_ub (show (tb.done v).res_ = some v from rfl) f.T⟩
        | throw e2 =>
          simp only [Prod.mk.injEq] at hget
          obtain ⟨rfl, rfl⟩ := hget
          exact ⟨hfin, fun _ h => by cases h⟩
        | ub =>
          simp only [Prod.mk.injEq] at hget
          obtain ⟨rfl, rfl⟩ := hget
          exact ⟨hfin, fun hs _ => hub hs rfl⟩
        | timeout =>
          simp only [Prod.mk.injEq] at hget
          obtain ⟨rfl, rfl⟩ := hget
          exact ⟨hfin, fun _ h => by cases h⟩

theorem getAll_trace (evalRec : World → Nat → World × Outcome Unit) (S : Nat → Prop)
    (hrec : ∀ (w : World) (b : Nat) (t : Task_) (w1 : World) (o : Outcome Unit),
      Acyclic w.heap → w.heap[b]? = some t → t.isEvaulated_ = false →
      evalRec w b = (w1, o) → EvalPost b t w w1 o)
    (hin : ∀ (w : World) (b : Nat) (t : Task_) (w1 : World) (o : Outcome Unit),
      Acyclic w.heap → Closed S w.heap → S b → w.heap[b]? = some t →
      t.isEvaulated_ = false → evalRec w b = (w1, o) →
      FiresIn S w w1 ∧ (Sound w.heap → o ≠ .ub))
    (a : Nat) (ta : Task_) (hSa : S a) :
    ∀ (args : List AbstractArgument_) (w w1 : World) (o : Outcome (List Val)),
      Acyclic w.heap → Closed S w.heap → w.heap[a]? = some ta →
      (∀ x ∈ args, x ∈ ta.args_) → getAll evalRec args w = (w1, o) →
      FiresIn S w w1 ∧ (Sound w.heap → o ≠ .ub) := by
  intro args
  induction args with
  | nil =>
    intro w w1 o _ _ _ _ h
    simp only [getAll, Prod.mk.injEq] at h
    obtain ⟨rfl, rfl⟩ := h
    exact ⟨FiresIn.in_refl _ _, fun _ h => by cases h⟩
  | cons x rest ih =>
    intro w w1 o hac hcl hta hmem h
    simp only [getAll] at h
    cases hx : AbstractArgument_.get evalRec x w with
    | mk w2 o2 =>
      have hxmem := hmem x (List.mem_cons_self _ _)
      obtain ⟨hf2, _, _⟩ := get_post evalRec hrec a ta x w w2 o2 hac hta hxmem hx
      obtain ⟨hin2, hub2⟩ := get_trace evalRec S hrec hin a ta x w w2 o2 hac hcl hSa hta
        hxmem hx
      simp only [hx] at h
      cases o2 with
      | ok v =>
        have hac2 : Acyclic w2.heap := hf2.fires_ext.acyclic hac
        have hta2 : w2.heap[a]? = some ta := by rw [hf2.above (le_refl a), hta]
        cases hr : getAll evalRec rest w2 with
        | mk w3 o3 =>
          obtain ⟨hin3, hub3⟩ := ih w2 w3 o3 hac2 (hf2.fires_ext.closed hcl) hta2
            (fun y hy => hmem y (List.mem_cons_of_mem _ hy)) hr
          simp only [hr] at h
          cases o3 with
          | ok vs =>
            simp only [Prod.mk.injEq] at h
            obtain ⟨rfl, rfl⟩ := h
            exact ⟨hin2.in_trans hin3, fun _ h => by cases h⟩
          | throw e =>
            simp only [Prod.mk.injEq] at h
            obtain ⟨rfl, rfl⟩ := h
            exact ⟨hin2.in_trans hin3, fun _ h => by cases h⟩
          | ub =>
            simp only [Prod.mk.injEq] at h
            obtain ⟨rfl, rfl⟩ := h
            exact ⟨hin2.in_trans hin3, fun hs _ => hub3 (hf2.fires_sound hs) rfl⟩
          | timeout =>
            simp only [Prod.mk.injEq] at h
            obtain ⟨rfl, rfl⟩ := h
            exact ⟨hin2.in_trans hin3, fun _ h => by cases h⟩
      | throw e =>
        simp only [Prod.mk.injEq] at h
        obtain ⟨rfl, rfl⟩ := h
        exact ⟨hin2, fun _ h => by cases h⟩
      | ub =>
        simp only [Prod.mk.injEq] at h
        obtain ⟨rfl, rfl⟩ := h
        exact ⟨hin2, fun hs _ => hub2 hs rfl⟩
      | timeout =>
        simp only [Prod.mk.injEq] at h
        obtain ⟨rfl, rfl⟩ := h
        exact ⟨hin2, fun _ h => by cases h⟩

theorem readArgs_trace (evalRec : World → Nat → World × Outcome Unit) (S : Nat → Prop)
    (hrec : ∀ (w : World) (b : Nat) (t : Task_) (w1 : World) (o : Outcome Unit),
      Acyclic w.heap → w.heap[b]? = some t → t.isEvaulated_ = false →
      evalRec w b = (w1, o) → EvalPost b t w w1 o)
    (hin : ∀ (w : World) (b : Nat) (t : Task_) (w1 : World) (o : Outcome Unit),
      Acyclic w.heap → Closed S w.heap → S b → w.heap[b]? = some t →
      t.isEvaulated_ = false → evalRec w b = (w1, o) →
      FiresIn S w w1 ∧ (Sound w.heap → o ≠ .ub))
    (rtl : Bool) (a : Nat) (ta : Task_) (hSa : S a) (w w1 : World)
    (o : Outcome (List Val)) (hac : Acyclic w.heap) (hcl : Closed S w.heap)
    (hta : w.heap[a]? = some ta) (h : readArgs evalRec rtl ta.args_ w = (w1, o)) :
    FiresIn S w w1 ∧ (Sound w.heap → o ≠ .ub) := by
  unfold readArgs at h
  cases rtl with
  | false =>
    simp only [Bool.false_eq_true, if_false] at h
    exact getAll_trace evalRec S hrec hin a ta hSa ta.args_ w w1 o hac hcl hta
      (fun _ hx => hx) h
  | true =>
    simp only [if_true] at h
    cases hr : getAll evalRec ta.args_.reverse w with
    | mk w2 o2 =>
      obtain ⟨hin2, hub2⟩ := getAll_trace evalRec S hrec hin a ta hSa ta.args_.reverse w w2 o2
        hac hcl hta (fun x hx => List.mem_reverse.1 hx) hr
      simp only [hr] at h
      cases o2 with
      | ok vs =>
        simp only [Prod.mk.injEq] at h
        obtain ⟨rfl, rfl⟩ := h
        exact ⟨hin2, fun _ h => by cases h⟩
      | throw e =>
        simp only [Prod.mk.injEq] at h
        obtain ⟨rfl, rfl⟩ := h
        exact ⟨hin2, fun _ h => by cases h⟩
      | ub =>
        simp only [Prod.mk.injEq] at h
        obtain ⟨rfl, rfl⟩ := h
        exact ⟨hin2, fun hs _ => hub2 hs rfl⟩
      | timeout =>
        simp only [Prod.mk.injEq] at h
        obtain ⟨rfl, rfl⟩ := h
        exact ⟨hin2, fun _ h => by cases h⟩

/-- `Task_::eval` on an unevaluated node of a closed set `S`, with any fuel: the callables
it enters are those of nodes of `S`, and on a sound heap no result slot is read before it
is written and no pointer dangles (the outcome is not undefined behaviour). -/
theorem eval_trace (rtl : Bool) (S : Nat → Prop) :
    ∀ (fuel : Nat) (w : World) (a : Nat) (t : Task_) (w1 : World) (o : Outcome Unit),
      Acyclic w.heap → Closed S w.heap → S a → w.heap[a]? = some t →
      t.isEvaulated_ = false → Task_.eval rtl fuel w a = (w1, o) →
      FiresIn S w w1 ∧ (Sound w.heap → o ≠ .ub) := by
  intro fuel
  induction fuel with
  | zero =>
    intro w a t w1 o _ _ _ _ _ h
    simp only [Task_.eval, Prod.mk.injEq] at h
    obtain ⟨rfl, rfl⟩ := h
    exact ⟨FiresIn.in_refl _ _, fun _ h => by cases h⟩
  | succ fuel ih =>
    intro w a t w1 o hac hcl hSa ht hu h
    simp only [Task_.eval, ht] at h
    cases hr : readArgs (Task_.eval rtl fuel) rtl t.args_ w with
    | mk w2 o2 =>
      obtain ⟨hf, hok, _⟩ :=
        readArgs_post (Task_.eval rtl fuel) (eval_post rtl fuel) rtl a t w w2 o2 hac ht hr
      obtain ⟨hin2, hub2⟩ := readArgs_trace (Task_.eval rtl fuel) S (eval_post rtl fuel) ih
        rtl a t hSa w w2 o2 hac hcl ht hr
      have ht2 : w2.heap[a]? = some t := by rw [hf.above (le_refl a), ht]
      simp only [hr] at h
      cases o2 with
      | ok vs =>
        simp only at h
        cases hv : t.fnc_ vs with
        | ok v =>
          simp only [hv, Prod.mk.injEq] at h
          obtain ⟨rfl, rfl⟩ := h
          exact ⟨hin2.in_tail hSa (Fire.ok t vs v ht2 hu (hok vs rfl) hv),
            fun _ h => by cases h⟩
        | error e =>
          simp only [hv, Prod.mk.injEq] at h
          obtain ⟨rfl, rfl⟩ := h
          exact ⟨hin2.in_tail hSa (Fire.fail t vs e ht2 hu (hok vs rfl) hv),
            fun _ h => by cases h⟩
      | throw e =>
        simp only [Prod.mk.injEq] at h
        obtain ⟨rfl, rfl⟩ := h
        exact ⟨hin2, fun _ h => by cases h⟩
      | ub =>
        simp only [Prod.mk.injEq] at h
        obtain ⟨rfl, rfl⟩ := h
        exact ⟨hin2, fun hs _ => hub2 hs rfl⟩
      | timeout =>
        simp only [Prod.mk.injEq] at h
        obtain ⟨rfl, rfl⟩ := h
        exact ⟨hin2, fun _ h => by cases h⟩

theorem Grows.grows_refl (w : World) : Grows w w :=
  ⟨le_refl _, fun _ tb h => ⟨tb, h, rfl, rfl, rfl⟩, fun _ _ h _ => h⟩

theorem Grows.grows_trans {w w1 w2 : World} (h1 : Grows w w1) (h2 : Grows w1 w2) :
    Grows w w2 := by
  refine ⟨le_trans h1.length h2.length, ?_, ?_⟩
  · intro b tb hb
    obtain ⟨tb1, hb1, e1, e2, e3⟩ := h1.shape b tb hb
    obtain ⟨tb2, hb2, f1, f2, f3⟩ := h2.shape b tb1 hb1
    exact ⟨tb2, hb2, f1.trans e1, f2.trans e2, f3.trans e3⟩
  · intro b tb hb he
    exact h2.frozen b tb (h1.frozen b tb hb he) he

theorem Ext.grows {w w1 : World} (h : Ext w w1) : Grows w w1 :=
  ⟨le_of_eq h.length.symm, h.shape, h.frozen⟩

theorem add_grows (s : TTaskScheduler) (w : World) (func : List Val → Except Exn Val)
    (ret : Ty) (args : List TTaskScheduler.Argument) : Grows w (s.add w func ret args).1 := by
  have key : ∀ (b : Nat) (tb : Task_), w.heap[b]? = some tb →
      (s.add w func ret args).1.heap[b]? = some tb := by
    intro b tb hb
    simp only [TTaskScheduler.add]
    rw [List.getElem?_append_left (List.getElem?_eq_some.1 hb).1, hb]
  refine ⟨by simp [TTaskScheduler.add], ?_, fun b tb hb _ => key b tb hb⟩
  intro b tb hb
  exact ⟨tb, key b tb hb, rfl, rfl, rfl⟩

/-- One call of a public member only appends to `tasks_` and lets the memory grow. -/
theorem Step.step_grows {c c1 : Config} (h : Step c c1) (hi : Inv c) :
    Grows c.world c1.world ∧ ∃ l, c1.sched.tasks_ = c.sched.tasks_ ++ l := by
  cases h with
  | getFutureResult T tid f h => exact ⟨Grows.grows_refl _, [], by simp⟩
  | add func ret args h =>
    exact ⟨add_grows c.sched c.world func ret args, [c.world.heap.length],
      by simp [TTaskScheduler.add]⟩
  | getResult fuel rtl T tid w1 o h hends =>
    exact ⟨(getResult_fires fuel rtl _ _ T tid w1 o hi.good.acyclic h).fires_ext.grows, [],
      by simp⟩
  | executeAll fuel rtl w1 o h hends =>
    exact ⟨(loop_fires fuel rtl _ _ w1 o hi.good.acyclic h).fires_ext.grows, [], by simp⟩

theorem steps_grows {c c1 : Config} (h : Relation.ReflTransGen Step c c1) (hi : Inv c) :
    Inv c1 ∧ Grows c.world c1.world ∧ ∃ l, c1.sched.tasks_ = c.sched.tasks_ ++ l := by
  induction h with
  | refl => exact ⟨hi, Grows.grows_refl _, [], by simp⟩
  | tail _ hs ih =>
    obtain ⟨hi1, hg1, l1, hl1⟩ := ih
    obtain ⟨hg2, l2, hl2⟩ := hs.step_grows hi1
    exact ⟨hs.step_inv hi1, hg1.grows_trans hg2, l1 ++ l2, by rw [hl2, hl1, List.append_assoc]⟩

theorem squareConfigDone_reachable : Reachable squareConfigDone :=
  Reachable.executeAll squareConfig_reachable 2 false squareDone (.ok ()) rfl trivial

/-- C11: the state of a node is monotone.  If a node is evaluated in a reachable state,
then after any further sequence of calls of `add`, `getFutureResult`, `getResult` and
`executeAll`, returning or throwing, it is the very same node: flag still set, cached
result unchanged; its callable is not entered again (it was entered exactly once); and it
is untouched in every memory that arises from there by invocations of callables, that is
in the middle of any later evaluation.  So the flag is never reset and goes from false to
true at most once. -/
theorem node_monotone (c : Config) (hr : Reachable c) (c1 : Config)
    (hs : Relation.ReflTransGen Step c c1) (a : Nat) (t : Task_)
    (ht : c.world.heap[a]? = some t) (he : t.isEvaulated_ = true) :
    c1.world.heap[a]? = some t ∧ c.world.calls.count a = 1 ∧ c1.world.calls.count a = 1 ∧
    (∀ n w, Fires n c1.world w → w.heap[a]? = some t ∧ w.calls.count a = 1) := by
  obtain ⟨hi1, hg, _⟩ := steps_grows hs hr.reach_inv
  have ht1 := hg.frozen a t ht he
  refine ⟨ht1, (hr.reach_inv.good.counted a t ht).1 he, (hi1.good.counted a t ht1).1 he, ?_⟩
  intro n w hf
  have htw := hf.fires_ext.frozen a t ht1 he
  exact ⟨htw, ((hf.fires_good hi1.good).counted a t htw).1 he⟩

/-- C11 on the registry of the test `MultipleArgsTest.test2` after `executeAll`, followed
by a third `add`: task 1 still holds 16. -/
theorem node_monotone_witness :
    (squareConfigDone.sched.add squareConfigDone.world plus .int fourOnes).1.heap[1]? =
      some ⟨square, .int, [.future ⟨.int, 0⟩], some (.num 16), true⟩ :=
  (node_monotone squareConfigDone squareConfigDone_reachable
    ⟨(squareConfigDone.sched.add squareConfigDone.world plus .int fourOnes).1,
      (squareConfigDone.sched.add squareConfigDone.world plus .int fourOnes).2.1,
      squareConfigDone.handles⟩
    (Relation.ReflTransGen.single
      (Step.add squareConfigDone plus .int fourOnes (by simp [fourOnes])))
    1 ⟨square, .int, [.future ⟨.int, 0⟩], some (.num 16), true⟩ rfl rfl).1

theorem closed_univ (heap : List Task_) : Closed (fun _ => True) heap :=
  fun _ _ _ _ _ _ => trivial

/-- A call of `getResult` on a task of the closed set `S` enters callables of `S` only,
and on a sound heap its outcome is not undefined behaviour, whatever the fuel. -/
theorem getResult_trace (S : Nat → Prop) (fuel : Nat) (rtl : Bool) (s : TTaskScheduler)
    (w : World) (T : Ty) (tid : TaskId_) (a : Nat) (t : Task_) (w1 : World) (o : Outcome Val)
    (hac : Acyclic w.heap) (hcl : Closed S w.heap) (hSa : S a)
    (hid : s.tasks_[tid.getId]? = some a) (ht : w.heap[a]? = some t)
    (h : s.getResult fuel rtl w T tid = (w1, o)) :
    FiresIn S w w1 ∧ (Sound w.heap → o ≠ .ub) := by
  cases he : t.isEvaulated_ with
  | true =>
    rw [getResult_evaluated fuel rtl T hid ht he] at h
    simp only [Prod.mk.injEq] at h
    obtain ⟨rfl, rfl⟩ := h
    refine ⟨FiresIn.in_refl _ _, fun hs => ?_⟩
    obtain ⟨vs, v, _, _, hr⟩ := hs a t ht he
    exact getRes_ne_ub hr T
  | false =>
    cases hev : Task_.eval rtl fuel w a with
    | mk w2 o2 =>
      obtain ⟨hin, hub⟩ := eval_trace rtl S fuel w a t w2 o2 hac hcl hSa ht he hev
      have hpost := eval_post rtl fuel w a t w2 o2 hac ht he hev
      cases o2 with
      | ok u =>
        obtain ⟨vs, v, _, _, hnode⟩ := hpost.ok_node ht he
        rw [getResult_eval_ok fuel rtl T hid ht he hev hnode] at h
        simp only [Prod.mk.injEq] at h
        obtain ⟨rfl, rfl⟩ := h
        exact ⟨hin, fun _ => getRes_ne_ub (show (t.done v).res_ = some v from rfl) T⟩
      | throw e =>
        rw [getResult_eval_throw fuel rtl T hid ht he hev] at h
        simp only [Prod.mk.injEq] at h
        obtain ⟨rfl, rfl⟩ := h
        exact ⟨hin, fun _ h => by cases h⟩
      | ub =>
        simp only [TTaskScheduler.getResult, hid, ht, AnyTask_.getStatus, he,
          Bool.false_eq_true, if_false, hev, Prod.mk.injEq] at h
        obtain ⟨rfl, rfl⟩ := h
        exact ⟨hin, fun hs _ => hub hs rfl⟩
      | timeout =>
        simp only [TTaskScheduler.getResult, hid, ht, AnyTask_.getStatus, he,
          Bool.false_eq_true, if_false, hev, Prod.mk.injEq] at h
        obtain ⟨rfl, rfl⟩ := h
        exact ⟨hin, fun _ h => by cases h⟩

/-- With more fuel than the address of the task, `getResult` returns or throws. -/
theorem getResult_ends {fuel : Nat} {rtl : Bool} {s : TTaskScheduler} {w w1 : World}
    {T : Ty} {tid : TaskId_} {a : Nat} {t : Task_} {o : Outcome Val} (hac : Acyclic w.heap)
    (hs : Sound w.heap) (hid : s.tasks_[tid.getId]? = some a) (ht : w.heap[a]? = some t)
    (hfuel : a < fuel) (h : s.getResult fuel rtl w T tid = (w1, o)) : o.Ends := by
  cases he : t.isEvaulated_ with
  | true =>
    rw [getResult_evaluated fuel rtl T hid ht he] at h
    simp only [Prod.mk.injEq] at h
    obtain ⟨rfl, rfl⟩ := h
    exact hs.getRes_ends ht he T
  | false =>
    cases hev : Task_.eval rtl fuel w a with
    | mk w2 o2 =>
      have hends := eval_ends rtl fuel w a w2 o2 hac hs (List.getElem?_eq_some.1 ht).1 hfuel hev
      have hpost := eval_post rtl fuel w a t w2 o2 hac ht he hev
      cases o2 with
      | ok u =>
        obtain ⟨vs, v, _, _, hnode⟩ := hpost.ok_node ht he
        rw [getResult_eval_ok fuel rtl T hid ht he hev hnode] at h
        simp only [Prod.mk.injEq] at h
        obtain ⟨rfl, rfl⟩ := h
        exact getRes_done_ends t v T
      | throw e =>
        rw [getResult_eval_throw fuel rtl T hid ht he hev] at h
        simp only [Prod.mk.injEq] at h
        obtain ⟨rfl, rfl⟩ := h
        trivial
      | ub => exact absurd hends (by simp [Outcome.Ends])
      | timeout => exact absurd hends (by simp [Outcome.Ends])

/-- The loop of `executeAll` over tasks of the closed set `S` enters callables of `S`
only, and on a sound heap its outcome is not undefined behaviour; with more fuel than the
addresses it returns or throws. -/
theorem loop_trace (S : Nat → Prop) (fuel : Nat) (rtl : Bool) :
    ∀ (l : List Nat) (w w1 : World) (o : Outcome Unit), Acyclic w.heap → Closed S w.heap →
      (∀ a ∈ l, S a ∧ a < w.heap.length) → executeAll.loop fuel rtl l w = (w1, o) →
      FiresIn S w w1 ∧ (Sound w.heap → o ≠ .ub) ∧
        (Sound w.heap → (∀ a ∈ l, a < fuel) → o.Ends) := by
  intro l
  induction l with
  | nil =>
    intro w w1 o _ _ _ h
    simp only [executeAll.loop, Prod.mk.injEq] at h
    obtain ⟨rfl, rfl⟩ := h
    exact ⟨FiresIn.in_refl _ _, (fun _ h => by cases h), (fun _ _ => trivial)⟩
  | cons a rest ih =>
    intro w w1 o hac hcl hl h
    obtain ⟨hSa, hal⟩ := hl a (List.mem_cons_self _ _)
    obtain ⟨t, ht⟩ : ∃ t, w.heap[a]? = some t := ⟨w.heap[a], by simp [hal]⟩
    have hrest : ∀ b ∈ rest, S b ∧ b < w.heap.length :=
      fun b hb => hl b (List.mem_cons_of_mem _ hb)
    cases hst : t.isEvaulated_ with
    | true =>
      simp only [executeAll.loop, ht, AnyTask_.getStatus, hst, if_true] at h
      obtain ⟨h1, h2, h3⟩ := ih w w1 o hac hcl hrest h
      exact ⟨h1, h2, fun hs hf => h3 hs (fun b hb => hf b (List.mem_cons_of_mem _ hb))⟩
    | false =>
      simp only [executeAll.loop, ht, AnyTask_.getStatus, hst, Bool.false_eq_true,
        if_false] at h
      cases hev : Task_.eval rtl fuel w a with
      | mk w2 o2 =>
        obtain ⟨hin, hub⟩ := eval_trace rtl S fuel w a t w2 o2 hac hcl hSa ht hst hev
        have hext := hin.in_ext
        simp only [hev] at h
        cases o2 with
        | ok u =>
          obtain ⟨h1, h2, h3⟩ := ih w2 w1 o (hext.acyclic hac) (hext.closed hcl)
            (fun b hb => by rw [hext.length]; exact hrest b hb) h
          exact ⟨hin.in_trans h1, (fun hs => h2 (hin.in_sound hs)),
            (fun hs hf => h3 (hin.in_sound hs) (fun b hb => hf b (List.mem_cons_of_mem _ hb)))⟩
        | throw e =>
          simp only [Prod.mk.injEq] at h
          obtain ⟨rfl, rfl⟩ := h
          exact ⟨hin, (fun _ h => by cases h), (fun _ _ => trivial)⟩
        | ub =>
          simp only [Prod.mk.injEq] at h
          obtain ⟨rfl, rfl⟩ := h
          exact ⟨hin, (fun hs _ => hub hs rfl), (fun hs _ => absurd rfl (hub hs))⟩
        | timeout =>
          simp only [Prod.mk.injEq] at h
          obtain ⟨rfl, rfl⟩ := h
          refine ⟨hin, (fun _ h => by cases h), ?_⟩
          intro hs hf
          exact eval_ends rtl fuel w a w2 _ hac hs hal (hf a (List.mem_cons_self _ _)) hev

theorem getElem?_range_eq {n i a : Nat} (h : (List.range n)[i]? = some a) : a = i ∧ i < n := by
  obtain ⟨hlt, hget⟩ := List.getElem?_eq_some.1 h
  simp only [List.length_range] at hlt
  exact ⟨by simpa using hget.symm, hlt⟩

/-- C12: the registry is append-only and identifiers stay valid.  After any sequence of
calls of the public members from a reachable state, `tasks_` is the old `tasks_` with
entries appended; an identifier that was valid names the same node, with the same
callable, result type and bindings; the lookups `tasks_[id]` of `getFutureResult` and
`getResult` succeed: `getFutureResult` returns a handle on that node and the outcome of
`getResult` is never undefined behaviour (with more fuel than the index it returns or
throws).  The identifier returned by `add` is valid in the registry `add` leaves. -/
theorem registry_append_only (c : Config) (hr : Reachable c) (c1 : Config)
    (hs : Relation.ReflTransGen Step c c1) :
    (∃ l, c1.sched.tasks_ = c.sched.tasks_ ++ l) ∧
    (∀ (i a : Nat), c.sched.tasks_[i]? = some a →
      c1.sched.tasks_[i]? = some a ∧
      (∃ t t1, c.world.heap[a]? = some t ∧ c1.world.heap[a]? = some t1 ∧
        t1.fnc_ = t.fnc_ ∧ t1.ret = t.ret ∧ t1.args_ = t.args_) ∧
      (∀ T, c1.sched.getFutureResult T ⟨i⟩ = .ok ⟨T, a⟩) ∧
      (∀ fuel rtl T, (c1.sched.getResult fuel rtl c1.world T ⟨i⟩).2 ≠ .ub) ∧
      (∀ fuel rtl T, i < fuel → (c1.sched.getResult fuel rtl c1.world T ⟨i⟩).2.Ends)) ∧
    (∀ func ret args,
      (c1.sched.add c1.world func ret args).2.1.tasks_[
        (c1.sched.add c1.world func ret args).2.2.getId]? = some c1.world.heap.length) := by
  have hi := hr.reach_inv
  obtain ⟨hi1, hg, l, hl⟩ := steps_grows hs hi
  refine ⟨⟨l, hl⟩, ?_, ?_⟩
  · intro i a hia
    have hia1 : c1.sched.tasks_[i]? = some a := by
      rw [hl, List.getElem?_append_left (List.getElem?_eq_some.1 hia).1, hia]
    have hai : a = i ∧ i < c.world.heap.length := by
      rw [hi.tasks] at hia
      exact getElem?_range_eq hia
    have hlt : a < c.world.heap.length := by omega
    obtain ⟨t, ht⟩ : ∃ t, c.world.heap[a]? = some t := ⟨c.world.heap[a], by simp [hlt]⟩
    obtain ⟨t1, ht1, e1, e2, e3⟩ := hg.shape a t ht
    refine ⟨hia1, ⟨t, t1, ht, ht1, e1, e2, e3⟩, ?_, ?_, ?_⟩
    · intro T
      simp [TTaskScheduler.getFutureResult, TaskId_.getId, hia1]
    · intro fuel rtl T
      cases hget : c1.sched.getResult fuel rtl c1.world T ⟨i⟩ with
      | mk w2 o =>
        exact (getResult_trace (fun _ => True) fuel rtl c1.sched c1.world T ⟨i⟩ a t1 w2 o
          hi1.good.acyclic (closed_univ _) trivial hia1 ht1 hget).2 hi1.good.sound
    · intro fuel rtl T hfuel
      cases hget : c1.sched.getResult fuel rtl c1.world T ⟨i⟩ with
      | mk w2 o =>
        exact getResult_ends hi1.good.acyclic hi1.good.sound hia1 ht1 (by omega) hget
  · intro func ret args
    simp only [TTaskScheduler.add, TaskId_.getId, List.length_append, List.length_singleton,
      Nat.add_sub_cancel]
    rw [hi1.tasks, List.length_range]
    have := List.getElem?_concat_length (List.range c1.world.heap.length) c1.world.heap.length
    rw [List.length_range] at this
    exact this

/-- C12 on the registry of the test `MultipleArgsTest.test2`: after `executeAll` and a
third `add` the identifier 1 still names node 1. -/
theorem registry_append_only_witness :
    ∃ l, (squareConfigDone.sched.add squareConfigDone.world plus .int fourOnes).2.1.tasks_ =
      squareConfig.sched.tasks_ ++ l :=
  (registry_append_only squareConfig squareConfig_reachable
    ⟨(squareConfigDone.sched.add squareConfigDone.world plus .int fourOnes).1,
      (squareConfigDone.sched.add squareConfigDone.world plus .int fourOnes).2.1,
      squareConfigDone.handles⟩
    (Relation.ReflTransGen.tail
      (Relation.ReflTransGen.single
        (Step.executeAll squareConfig 2 false squareDone (.ok ()) rfl trivial))
      (Step.add squareConfigDone plus .int fourOnes (by simp [fourOnes])))).1

theorem cached_nil {heap : List Task_} {vs : List Val} (h : Cached heap [] vs) : vs = [] := by
  unfold Cached at h
  cases h
  rfl

/-- C15: a task registered with a callable that takes no arguments and returns `v` yields
`v` from `getResult`, in the state that `add` leaves and in every state reached from it by
further calls of the public members, `executeAll` among them; and after that `getResult`
its callable has been entered exactly once. -/
theorem zero_argument_task (c : Config) (hr : Reachable c)
    (func : List Val → Except Exn Val) (v : Val) (hfunc : func [] = .ok v) (ret : Ty)
    (c2 : Config)
    (hs : Relation.ReflTransGen Step
      ⟨(c.sched.add c.world func ret []).1, (c.sched.add c.world func ret []).2.1, c.handles⟩
      c2)
    (fuel : Nat) (rtl : Bool) :
    ∃ w3, c2.sched.getResult (fuel + 1) rtl c2.world ret (c.sched.add c.world func ret []).2.2 =
        (w3, .ok v) ∧
      w3.calls.count c.world.heap.length = 1 := by
  have hi := hr.reach_inv
  have hr1 : Reachable ⟨(c.sched.add c.world func ret []).1,
      (c.sched.add c.world func ret []).2.1, c.handles⟩ :=
    Reachable.add hr func ret [] (by simp)
  obtain ⟨hi2, hg, l, hl⟩ := steps_grows hs hr1.reach_inv
  have hg2 := hi2.good
  have hnode1 : (c.sched.add c.world func ret []).1.heap[c.world.heap.length]? =
      some ⟨func, ret, [], none, false⟩ := by
    simp only [TTaskScheduler.add, List.map_nil]
    exact List.getElem?_concat_length _ _
  have hid : c2.sched.tasks_[(c.sched.add c.world func ret []).2.2.getId]? =
      some c.world.heap.length := by
    rw [hl]
    simp only [TTaskScheduler.add, TaskId_.getId, List.length_append, List.length_singleton,
      Nat.add_sub_cancel, hi.tasks, List.length_range]
    have h0 := List.getElem?_concat_length (List.range c.world.heap.length)
      c.world.heap.length
    rw [List.length_range] at h0
    rw [List.getElem?_append_left (by simp), h0]
  obtain ⟨t2, ht2, e1, e2, e3⟩ := hg.shape _ _ hnode1
  simp only at e1 e2 e3
  cases he : t2.isEvaulated_ with
  | true =>
    obtain ⟨vs, v1, hc, hf, hres⟩ := hg2.sound _ t2 ht2 he
    rw [e3] at hc
    rw [cached_nil hc, e1, hfunc] at hf
    cases hf
    refine ⟨c2.world, ?_, (hg2.counted _ t2 ht2).1 he⟩
    rw [getResult_evaluated (fuel + 1) rtl ret hid ht2 he]
    simp [AnyTask_.getRes, e2, hres]
  | false =>
    have hc : Cached c2.world.heap t2.args_ [] := by
      rw [e3]
      exact List.Forall₂.nil
    have hev := eval_cached rtl fuel ht2 hc
    rw [e1, hfunc] at hev
    refine ⟨⟨c2.world.heap.set c.world.heap.length (t2.done v),
      c2.world.calls ++ [c.world.heap.length], c2.world.thrown⟩, ?_, ?_⟩
    · rw [getResult_eval_ok (fuel + 1) rtl ret hid ht2 he hev (getElem?_set_done ht2)]
      simp [AnyTask_.getRes, Task_.done, e2]
    · have h0 : c2.world.calls.count c.world.heap.length = 0 := by
        rcases (hg2.counted _ t2 ht2).2 he with h0 | ⟨vs, e, hcv, hf⟩
        · exact h0
        · rw [e3] at hcv
          rw [cached_nil hcv, e1, hfunc] at hf
          cases hf
      simp [h0]

theorem zeroConfigDone_steps : Relation.ReflTransGen Step
    ⟨(Config.init.sched.add Config.init.world (constant (.num 42)) .int []).1,
      (Config.init.sched.add Config.init.world (constant (.num 42)) .int []).2.1,
      Config.init.handles⟩ zeroConfigDone :=
  Relation.ReflTransGen.single
    (Step.executeAll zeroConfig 1 false (zeroConfig.sched.executeAll 1 false zeroConfig.world).1
      (.ok ()) rfl trivial)

/-- C15 on the test `ZeroArguments`: after `executeAll`, `getResult<int>` yields 42 and the
callable has run once. -/
theorem zero_argument_task_witness :
    ∃ w3, zeroConfigDone.sched.getResult (0 + 1) false zeroConfigDone.world .int ⟨0⟩ =
        (w3, .ok (.num 42)) ∧ w3.calls.count 0 = 1 :=
  zero_argument_task Config.init Reachable.reach_init (constant (.num 42)) (.num 42) rfl .int
    zeroConfigDone zeroConfigDone_steps 0 false

/-- C17: evaluation terminates on registries built through the public members.  In every
reachable state each forward reference held by the task at index `i` names a task at an
index `j < i`; hence `Task_::eval` and `getResult` on the task at index `i` return or
throw with fuel `i + 1` (recursion depth at most `i + 1`) or more, and `executeAll` does
with fuel equal to the number of tasks or more. -/
theorem evaluation_terminates (c : Config) (hr : Reachable c) :
    (∀ (i a : Nat) (t : Task_) (f : FutureResult_), c.sched.tasks_[i]? = some a →
      c.world.heap[a]? = some t → AbstractArgument_.future f ∈ t.args_ →
      ∃ j, j < i ∧ c.sched.tasks_[j]? = some f.task_) ∧
    (∀ (fuel : Nat) (rtl : Bool) (i a : Nat), c.sched.tasks_[i]? = some a → i + 1 ≤ fuel →
      (Task_.eval rtl fuel c.world a).2.Ends) ∧
    (∀ (fuel : Nat) (rtl : Bool) (T : Ty) (i : Nat), i < c.sched.tasks_.length →
      i + 1 ≤ fuel → (c.sched.getResult fuel rtl c.world T ⟨i⟩).2.Ends) ∧
    (∀ (fuel : Nat) (rtl : Bool), c.sched.tasks_.length ≤ fuel →
      (c.sched.executeAll fuel rtl c.world).2.Ends) := by
  have hi := hr.reach_inv
  have hg := hi.good
  have hidx : ∀ (i a : Nat), c.sched.tasks_[i]? = some a → a = i ∧ i < c.world.heap.length := by
    intro i a h
    rw [hi.tasks] at h
    exact getElem?_range_eq h
  refine ⟨?_, ?_, ?_, ?_⟩
  · intro i a t f hia ht hmem
    obtain ⟨rfl, _⟩ := hidx i a hia
    have hlt := hg.acyclic a t ht f hmem
    refine ⟨f.task_, hlt, ?_⟩
    rw [hi.tasks]
    exact List.getElem?_range (by omega)
  · intro fuel rtl i a hia hfuel
    obtain ⟨rfl, hlt⟩ := hidx i a hia
    cases hev : Task_.eval rtl fuel c.world a with
    | mk w1 o => exact eval_ends rtl fuel c.world a w1 o hg.acyclic hg.sound hlt (by omega) hev
  · intro fuel rtl T i hlt hfuel
    have hia : c.sched.tasks_[(⟨i⟩ : TaskId_).getId]? = some i := by
      simp only [TaskId_.getId, hi.tasks]
      rw [hi.tasks, List.length_range] at hlt
      exact List.getElem?_range hlt
    obtain ⟨_, hil⟩ := hidx i i hia
    obtain ⟨t, ht⟩ : ∃ t, c.world.heap[i]? = some t := ⟨c.world.heap[i], by simp [hil]⟩
    cases hget : c.sched.getResult fuel rtl c.world T ⟨i⟩ with
    | mk w1 o => exact getResult_ends hg.acyclic hg.sound hia ht (by omega) hget
  · intro fuel rtl hfuel
    cases hex : c.sched.executeAll fuel rtl c.world with
    | mk w1 o =>
      have hmem : ∀ a ∈ c.sched.tasks_, a < c.world.heap.length := by
        intro a ha
        rw [hi.tasks, List.mem_range] at ha
        exact ha
      refine (loop_trace (fun _ => True) fuel rtl _ c.world w1 o hg.acyclic (closed_univ _)
        (fun a ha => ⟨trivial, hmem a ha⟩) hex).2.2 hg.sound ?_
      intro a ha
      have := hmem a ha
      rw [hi.tasks, List.length_range] at hfuel
      omega

/-- C17 on the test `MultipleArgsTest.test2`: `getResult` on the second of the two tasks
ends with fuel 2. -/
theorem evaluation_terminates_witness :
    (squareConfig.sched.getResult 2 false squareConfig.world .int ⟨1⟩).2.Ends :=
  (evaluation_terminates squareConfig squareConfig_reachable).2.2.1 2 false .int 1
    (by decide) (le_refl _)

/-- C18: the cached result slot is only read after it was written.  In every reachable
state a node is flagged evaluated exactly when its result slot holds the value that its
callable returned on the cached values of its bindings, and the slot of an unevaluated node
is empty; and no call of `getResult` on a valid identifier, of `FutureResult_::get` on a
forward reference held by a node, or of `executeAll`, whatever the recursion bound and the
argument order, reaches the undefined read of an absent node or an empty slot; a value that
`getResult` returns is the content of the slot of a node flagged evaluated. -/
theorem slot_read_after_write (c : Config) (hr : Reachable c) :
    (∀ (a : Nat) (t : Task_), c.world.heap[a]? = some t →
      (t.isEvaulated_ = true ↔
        ∃ vs v, Cached c.world.heap t.args_ vs ∧ t.fnc_ vs = .ok v ∧ t.res_ = some v) ∧
      (t.isEvaulated_ = false → t.res_ = none)) ∧
    (∀ (fuel : Nat) (rtl : Bool) (T : Ty) (i : Nat), i < c.sched.tasks_.length →
      (c.sched.getResult fuel rtl c.world T ⟨i⟩).2 ≠ .ub ∧
      ∀ v, (c.sched.getResult fuel rtl c.world T ⟨i⟩).2 = .ok v →
        ∃ t1, (c.sched.getResult fuel rtl c.world T ⟨i⟩).1.heap[i]? = some t1 ∧
          t1.isEvaulated_ = true ∧ t1.res_ = some v) ∧
    (∀ (fuel : Nat) (rtl : Bool) (a : Nat) (t : Task_) (f : FutureResult_),
      c.world.heap[a]? = some t → AbstractArgument_.future f ∈ t.args_ →
      (FutureResult_.get (Task_.eval rtl fuel) f c.world).2 ≠ .ub) ∧
    (∀ (fuel : Nat) (rtl : Bool), (c.sched.executeAll fuel rtl c.world).2 ≠ .ub) := by
  have hi := hr.reach_inv
  have hg := hi.good
  refine ⟨?_, ?_, ?_, ?_⟩
  · intro a t ht
    refine ⟨⟨hg.sound a t ht, ?_⟩, hg.fresh a t ht⟩
    rintro ⟨vs, v, _, _, hres⟩
    cases he : t.isEvaulated_ with
    | true => rfl
    | false =>
      rw [hg.fresh a t ht he] at hres
      cases hres
  · intro fuel rtl T i hlt
    have hia : c.sched.tasks_[(⟨i⟩ : TaskId_).getId]? = some i := by
      simp only [TaskId_.getId, hi.tasks]
      rw [hi.tasks, List.length_range] at hlt
      exact List.getElem?_range hlt
    have hil : i < c.world.heap.length := by
      rw [hi.tasks, List.length_range] at hlt
      exact hlt
    obtain ⟨t, ht⟩ : ∃ t, c.world.heap[i]? = some t := ⟨c.world.heap[i], by simp [hil]⟩
    cases hget : c.sched.getResult fuel rtl c.world T ⟨i⟩ with
    | mk w1 o =>
      refine ⟨(getResult_trace (fun _ => True) fuel rtl c.sched c.world T ⟨i⟩ i t w1 o
        hg.acyclic (closed_univ _) trivial hia ht hget).2 hg.sound, ?_⟩
      intro v hv
      simp only at hv
      subst hv
      obtain ⟨t1, h1, h2, h3, _⟩ := getResult_ok_node hg.acyclic hia hget
      exact ⟨t1, h1, h2, h3⟩
  · intro fuel rtl a t f ht hmem
    cases hget : FutureResult_.get (Task_.eval rtl fuel) f c.world with
    | mk w1 o =>
      exact (get_trace (Task_.eval rtl fuel) (fun _ => True) (eval_post rtl fuel)
        (eval_trace rtl (fun _ => True) fuel) a t (.future f) c.world w1 o hg.acyclic
        (closed_univ _) trivial ht hmem hget).2 hg.sound
  · intro fuel rtl
    cases hex : c.sched.executeAll fuel rtl c.world with
    | mk w1 o =>
      have hmem : ∀ a ∈ c.sched.tasks_, True ∧ a < c.world.heap.length := by
        intro a ha
        rw [hi.tasks, List.mem_range] at ha
        exact ⟨trivial, ha⟩
      exact (loop_trace (fun _ => True) fuel rtl _ c.world w1 o hg.acyclic (closed_univ _)
        hmem hex).2.1 hg.sound

/-- C18 on the test `MultipleArgsTest.test2` after `executeAll`: the second node is flagged
evaluated and its slot holds 16, the square of the cached 4. -/
theorem slot_read_after_write_witness :
    ((⟨square, .int, [.future ⟨.int, 0⟩], some (.num 16), true⟩ : Task_).isEvaulated_ = true ↔
        ∃ vs v, Cached squareConfigDone.world.heap [.future ⟨.int, 0⟩] vs ∧ square vs = .ok v ∧
          some (Val.num 16) = some v) ∧
      ((⟨square, .int, [.future ⟨.int, 0⟩], some (.num 16), true⟩ : Task_).isEvaulated_ = false →
        some (Val.num 16) = none) :=
  (slot_read_after_write squareConfigDone squareConfigDone_reachable).1 1
    ⟨square, .int, [.future ⟨.int, 0⟩], some (.num 16), true⟩ rfl

theorem DependsOn.snoc {heap : List Task_} {a b : Nat} (h : DependsOn heap a b) {t : Task_}
    {f : FutureResult_} (ht : heap[b]? = some t) (hf : AbstractArgument_.future f ∈ t.args_) :
    DependsOn heap a f.task_ := by
  induction h with
  | self a => exact DependsOn.step a _ t f ht hf (DependsOn.self _)
  | step a b t0 f0 ht0 hf0 _ ih => exact DependsOn.step a _ t0 f0 ht0 hf0 (ih ht)

theorem DependsOn.dep_closed (heap : List Task_) (a : Nat) : Closed (DependsOn heap a) heap :=
  fun _ _ _ hS ht hf => hS.snoc ht hf

theorem DependsOn.dep_le {heap : List Task_} (hac : Acyclic heap) {a b : Nat}
    (h : DependsOn heap a b) : b ≤ a := by
  induction h with
  | self a => exact le_refl _
  | step a b t f ht hf _ ih =>
    have := hac a t ht f hf
    omega

theorem DependsOn.dep_ext {w w1 : World} (h : Ext w w1) {a b : Nat} :
    DependsOn w.heap a b ↔ DependsOn w1.heap a b := by
  constructor
  · intro hd
    induction hd with
    | self a => exact DependsOn.self _
    | step a b t f ht hf _ ih =>
      obtain ⟨t1, ht1, _, _, e3⟩ := h.shape a t ht
      exact DependsOn.step a b t1 f ht1 (e3 ▸ hf) ih
  · intro hd
    induction hd with
    | self a => exact DependsOn.self _
    | step a b t1 f ht1 hf _ ih =>
      obtain ⟨t, ht, _, _, e3⟩ := h.back ht1
      exact DependsOn.step a b t f ht (e3 ▸ hf) ih

theorem DependsOn.dep_evaluated {heap : List Task_} (hs : Sound heap) {a b : Nat}
    (h : DependsOn heap a b) {t : Task_} (ht : heap[a]? = some t)
    (he : t.isEvaulated_ = true) : ∃ tb, heap[b]? = some tb ∧ tb.isEvaulated_ = true := by
  induction h generalizing t with
  | self a => exact ⟨t, ht, he⟩
  | step a b t0 f ht0 hf _ ih =>
    rw [ht0] at ht
    cases ht
    obtain ⟨vs, v, hc, _, _⟩ := hs a t0 ht0 he
    obtain ⟨v1, hv1⟩ := hc.mem hf
    obtain ⟨tb, htb, hev, _, _⟩ := (cached_future_iff _ _ _).mp hv1
    exact ih htb hev

theorem FiresIn.in_thrown {S : Nat → Prop} {w w1 : World} (h : FiresIn S w w1)
    (hnf : NoFail w.heap) : w1.thrown = w.thrown := by
  induction h with
  | refl => rfl
  | tail h1 h2 ih =>
    obtain ⟨a, _, hf⟩ := h2
    have hnf1 := (FiresIn.in_ext h1).noFail hnf
    cases hf with
    | ok t vs v ht hu hc hf => exact ih
    | fail t vs e ht hu hc hf => exact absurd hf (hnf1 a t ht vs e)

theorem task_eq_done {tb tb1 : Task_} {v : Val} (e1 : tb1.fnc_ = tb.fnc_)
    (e2 : tb1.ret = tb.ret) (e3 : tb1.args_ = tb.args_) (e4 : tb1.res_ = some v)
    (e5 : tb1.isEvaulated_ = true) : tb1 = tb.done v := by
  cases tb
  cases tb1
  simp only [Task_.done] at *
  simp [e1, e2, e3, e4, e5]

/-- What a completed `Task_::eval` of the unevaluated node at `a` has done, for non-failing
callables and well-typed forward references: exactly the unevaluated nodes that `a`
depends on are evaluated, each by one invocation of its callable. -/
theorem eval_demand (rtl : Bool) (fuel : Nat) (w : World) (a : Nat) (t : Task_) (hg : Good w)
    (hnf : NoFail w.heap) (hwt : WellTyped w.heap) (ht : w.heap[a]? = some t)
    (hu : t.isEvaulated_ = false) (hfuel : a < fuel) :
    ∃ w1, Task_.eval rtl fuel w a = (w1, .ok ()) ∧ Good w1 ∧ Ext w w1 ∧
      w1.thrown = w.thrown ∧
      ∀ (b : Nat) (tb : Task_), w.heap[b]? = some tb →
        (DependsOn w.heap a b → tb.isEvaulated_ = false →
          ∃ v, unmemoised (b + 1) w.heap b = some v ∧ w1.heap[b]? = some (tb.done v) ∧
            w.calls.count b = 0 ∧ w1.calls.count b = 1) ∧
        (¬ (DependsOn w.heap a b ∧ tb.isEvaulated_ = false) →
          w1.heap[b]? = some tb ∧ w1.calls.count b = w.calls.count b) := by
  obtain ⟨w1, vs, v, hev, hfires, hc, hf, hnode⟩ := eval_ok rtl fuel w a t hg hnf hwt ht hu hfuel
  have htr := (eval_trace rtl (DependsOn w.heap a) fuel w a t w1 (.ok ()) hg.acyclic
    (DependsOn.dep_closed _ _) (DependsOn.self _) ht hu hev).1
  have hext := htr.in_ext
  have hg1 := htr.in_good hg
  refine ⟨w1, hev, hg1, hext, htr.in_thrown hnf, ?_⟩
  intro b tb htb
  constructor
  · intro hd hub
    obtain ⟨tb1, htb1, he1⟩ := DependsOn.dep_evaluated hg1.sound ((DependsOn.dep_ext hext).mp hd)
      hnode rfl
    obtain ⟨tb2, htb2, e1, e2, e3⟩ := hext.shape b tb htb
    rw [htb1] at htb2
    cases htb2
    obtain ⟨vs1, v1, _, _, hres⟩ := hg1.sound b tb1 htb1 he1
    refine ⟨v1, ?_, ?_, ?_, (hg1.counted b tb1 htb1).1 he1⟩
    · rw [← unmemoised_ext hext]
      exact sound_unmemoised hg1.acyclic hg1.sound (b + 1) b tb1 v1 (Nat.lt_succ_self _) htb1
        he1 hres
    · rw [htb1, task_eq_done e1 e2 e3 hres he1]
    · rcases (hg.counted b tb htb).2 hub with h0 | ⟨vs2, e, _, hf2⟩
      · exact h0
      · exact absurd hf2 (hnf b tb htb vs2 e)
  · intro hnot
    by_cases hd : DependsOn w.heap a b
    · have he : tb.isEvaulated_ = true := by
        cases h : tb.isEvaulated_ with
        | true => rfl
        | false => exact absurd ⟨hd, h⟩ hnot
      have h1 := hext.frozen b tb htb he
      exact ⟨h1, by rw [(hg1.counted b tb h1).1 he, (hg.counted b tb htb).1 he]⟩
    · have := htr.outside hd
      exact ⟨by rw [this.1, htb], this.2.1⟩

theorem orderConfig_reachable : Reachable orderConfig :=
  Reachable.add
    (Reachable.getFutureResult
      (Reachable.getFutureResult
        (Reachable.add
          (Reachable.add Reachable.reach_init (constant (.num 1)) .int [] (by simp))
          (constant (.num 2)) .int [] (by simp))
        .float ⟨0⟩ ⟨.float, 0⟩ rfl)
      .int ⟨1⟩ ⟨.int, 1⟩ rfl)
    plus .int [.future ⟨.float, 0⟩, .future ⟨.int, 1⟩] (by simp)

theorem orderConfig_noFail : NoFail orderConfig.world.heap := by
  apply noFail_of_forall_mem
  simp [orderConfig, TTaskScheduler.add, plus, constant]

theorem calls_count_le_one {w : World} (hg : Good w) (hnf : NoFail w.heap) (b : Nat) :
    w.calls.count b ≤ 1 := by
  cases hb : w.heap[b]? with
  | none =>
    have hnot : b ∉ w.calls := by
      intro hmem
      have := hg.logged b hmem
      rw [List.getElem?_eq_none_iff] at hb
      omega
    rw [List.count_eq_zero_of_not_mem hnot]
    exact Nat.zero_le _
  | some tb =>
    cases he : tb.isEvaulated_ with
    | true => exact le_of_eq ((hg.counted b tb hb).1 he)
    | false =>
      rcases (hg.counted b tb hb).2 he with h0 | ⟨vs, e, _, hf⟩
      · rw [h0]
        exact Nat.zero_le _
      · exact absurd hf (hnf b tb hb vs e)

/-- C14 fails as stated: in the registry `mismatchConfig` no callable fails and the
identifier 1 is valid and names an unevaluated task, yet `getResult<float>` on it, which
ends with `std::bad_cast`, leaves that task unevaluated, whichever the argument order. -/
theorem getResult_leaves_target_unevaluated :
    Reachable mismatchConfig ∧ NoFail mismatchConfig.world.heap ∧
    mismatchConfig.sched.tasks_[1]? = some 1 ∧ DependsOn mismatchConfig.world.heap 1 1 ∧
    mismatchConfig.world.pending 1 = true ∧
    ∀ rtl, (mismatchConfig.sched.getResult 2 rtl mismatchConfig.world .float ⟨1⟩).2 =
        .throw .bad_cast ∧
      (mismatchConfig.sched.getResult 2 rtl mismatchConfig.world .float ⟨1⟩).1.pending 1 =
        true :=
  ⟨mismatchConfig_reachable, mismatchConfig_noFail, rfl, DependsOn.self _, rfl, by decide⟩

/-- C14, amended: in a reachable state whose callables do not fail and whose forward
references are read at the result type of the task they name, `getResult<T>` on a valid
identifier ends, and it changes exactly the tasks that are the identified task or one of
its transitive forward-reference dependencies and were unevaluated before the call: each of
these becomes evaluated by one invocation of its callable; every other task keeps its node
(flag and cached result) and its callable is not invoked. -/
theorem demand_driven (c : Config) (hr : Reachable c) (hnf : NoFail c.world.heap)
    (hwt : WellTyped c.world.heap) (fuel : Nat) (rtl : Bool) (T : Ty) (tid : TaskId_)
    (a : Nat) (hid : c.sched.tasks_[tid.getId]? = some a) (hfuel : a < fuel) :
    (c.sched.getResult fuel rtl c.world T tid).2.Ends ∧
    ∀ (b : Nat) (tb : Task_), c.world.heap[b]? = some tb →
      (DependsOn c.world.heap a b → tb.isEvaulated_ = false →
        ∃ v, (c.sched.getResult fuel rtl c.world T tid).1.heap[b]? = some (tb.done v) ∧
          c.world.calls.count b = 0 ∧
          (c.sched.getResult fuel rtl c.world T tid).1.calls.count b = 1) ∧
      (¬ (DependsOn c.world.heap a b ∧ tb.isEvaulated_ = false) →
        (c.sched.getResult fuel rtl c.world T tid).1.heap[b]? = some tb ∧
          (c.sched.getResult fuel rtl c.world T tid).1.calls.count b =
            c.world.calls.count b) := by
  have hi := hr.reach_inv
  have hg := hi.good
  have hal : a < c.world.heap.length := by
    have h := hid
    rw [hi.tasks] at h
    have := getElem?_range_eq h
    omega
  obtain ⟨t, ht⟩ : ∃ t, c.world.heap[a]? = some t := ⟨c.world.heap[a], by simp [hal]⟩
  refine ⟨?_, ?_⟩
  · cases hget : c.sched.getResult fuel rtl c.world T tid with
    | mk w1 o => exact getResult_ends hg.acyclic hg.sound hid ht hfuel hget
  cases he : t.isEvaulated_ with
  | true =>
    rw [getResult_evaluated fuel rtl T hid ht he]
    intro b tb htb
    refine ⟨?_, fun _ => ⟨htb, rfl⟩⟩
    intro hd hub
    obtain ⟨tb1, htb1, he1⟩ := DependsOn.dep_evaluated hg.sound hd ht he
    rw [htb] at htb1
    cases htb1
    rw [hub] at he1
    cases he1
  | false =>
    obtain ⟨w1, hev, _, _, _, hall⟩ := eval_demand rtl fuel c.world a t hg hnf hwt ht he hfuel
    obtain ⟨v, _, hnode, _⟩ := (hall a t ht).1 (DependsOn.self _) he
    rw [getResult_eval_ok fuel rtl T hid ht he hev hnode]
    intro b tb htb
    refine ⟨?_, (hall b tb htb).2⟩
    intro hd hub
    obtain ⟨v1, _, h1, h2, h3⟩ := (hall b tb htb).1 hd hub
    exact ⟨v1, h1, h2, h3⟩

/-- C14 on the test `MultipleArgsTest.test2`: `getResult<int>(id2)` on the fresh registry
evaluates both tasks, each by one invocation. -/
theorem demand_driven_witness :
    (squareConfig.sched.getResult 2 false squareConfig.world .int ⟨1⟩).2.Ends ∧
    ∀ (b : Nat) (tb : Task_), squareConfig.world.heap[b]? = some tb →
      (DependsOn squareConfig.world.heap 1 b → tb.isEvaulated_ = false →
        ∃ v, (squareConfig.sched.getResult 2 false squareConfig.world .int ⟨1⟩).1.heap[b]? =
            some (tb.done v) ∧
          squareConfig.world.calls.count b = 0 ∧
          (squareConfig.sched.getResult 2 false squareConfig.world .int ⟨1⟩).1.calls.count b =
            1) ∧
      (¬ (DependsOn squareConfig.world.heap 1 b ∧ tb.isEvaulated_ = false) →
        (squareConfig.sched.getResult 2 false squareConfig.world .int ⟨1⟩).1.heap[b]? =
            some tb ∧
          (squareConfig.sched.getResult 2 false squareConfig.world .int ⟨1⟩).1.calls.count b =
            squareConfig.world.calls.count b) :=
  demand_driven squareConfig squareConfig_reachable squareConfig_noFail squareConfig_wellTyped
    2 false .int ⟨1⟩ 1 rfl (by decide)

theorem throwDepConfig_reachable : Reachable throwDepConfig :=
  Reachable.add
    (Reachable.getFutureResult
      (Reachable.add Reachable.reach_init thrower .int [] (by simp))
      .int ⟨0⟩ ⟨.int, 0⟩ rfl)
    plus .int [.future ⟨.int, 0⟩] (by simp)

/-- C19 fails as stated, in two ways.  In the registry `mismatchConfig` the identifier 1 is
valid and names an unevaluated task whose result type is `float`, and no callable fails;
`getResult<int>` on it fails with `std::bad_cast`, but the task was not evaluated first: its
callable was not entered and its flag is not set.  In the registry `throwDepConfig` the
identifier 1 is valid and names an unevaluated task whose result type is `int` and whose
callable never fails; `getResult<float>` on it fails with the exception of the callable of
its dependency, not with `std::bad_cast`, and no flag is set. -/
theorem mismatched_retrieval_skips_target :
    (Reachable mismatchConfig ∧ NoFail mismatchConfig.world.heap ∧
      mismatchConfig.sched.tasks_[1]? = some 1 ∧
      (∃ t, mismatchConfig.world.heap[1]? = some t ∧ t.isEvaulated_ = false ∧
        Ty.int ≠ t.ret) ∧
      ∀ rtl, (mismatchConfig.sched.getResult 2 rtl mismatchConfig.world .int ⟨1⟩).2 =
          .throw .bad_cast ∧
        (mismatchConfig.sched.getResult 2 rtl mismatchConfig.world .int ⟨1⟩).1.pending 1 =
          true ∧
        (mismatchConfig.sched.getResult 2 rtl mismatchConfig.world .int ⟨1⟩).1.calls.count 1 =
          0) ∧
    (Reachable throwDepConfig ∧ throwDepConfig.sched.tasks_[1]? = some 1 ∧
      (∃ t, throwDepConfig.world.heap[1]? = some t ∧ t.isEvaulated_ = false ∧
        Ty.float ≠ t.ret ∧ ∀ vs e, t.fnc_ vs ≠ .error e) ∧
      ∀ rtl, (throwDepConfig.sched.getResult 2 rtl throwDepConfig.world .float ⟨1⟩).2 =
          .throw (.runtime_error "Error!") ∧
        (throwDepConfig.sched.getResult 2 rtl throwDepConfig.world .float ⟨1⟩).1.heap =
          throwDepConfig.world.heap) := by
  refine ⟨⟨mismatchConfig_reachable, mismatchConfig_noFail, rfl, ⟨_, rfl, rfl, by decide⟩,
    by decide⟩, throwDepConfig_reachable, rfl, ⟨_, rfl, rfl, by decide, ?_⟩, ?_⟩
  · intro vs e h
    cases h
  · intro rtl
    cases rtl <;> exact ⟨rfl, rfl⟩

/-- C19, amended: in a reachable state whose callables do not fail and whose forward
references are read at the result type of the task they name, for a valid identifier of an
unevaluated task and a type `T` that is not the result type of the task, `getResult<T>`
first runs `Task_::eval` to completion (the callable of the task and those of its
unevaluated dependencies are invoked once each and their flags set) and then fails with
`std::bad_cast`; the memory after the failed call differs from the memory before it. -/
theorem mismatched_retrieval_not_atomic (c : Config) (hr : Reachable c)
    (hnf : NoFail c.world.heap) (hwt : WellTyped c.world.heap) (fuel : Nat) (rtl : Bool)
    (T : Ty) (tid : TaskId_) (a : Nat) (t : Task_)
    (hid : c.sched.tasks_[tid.getId]? = some a) (ht : c.world.heap[a]? = some t)
    (hu : t.isEvaulated_ = false) (hT : T ≠ t.ret) (hfuel : a < fuel) :
    ∃ w1, c.sched.getResult fuel rtl c.world T tid = (w1, .throw .bad_cast) ∧
      Task_.eval rtl fuel c.world a = (w1, .ok ()) ∧
      (∀ (b : Nat) (tb : Task_), c.world.heap[b]? = some tb →
        DependsOn c.world.heap a b → tb.isEvaulated_ = false →
        ∃ v, w1.heap[b]? = some (tb.done v) ∧ c.world.calls.count b = 0 ∧
          w1.calls.count b = 1) ∧
      w1.heap ≠ c.world.heap := by
  have hg := hr.reach_inv.good
  obtain ⟨w1, hev, _, _, _, hall⟩ := eval_demand rtl fuel c.world a t hg hnf hwt ht hu hfuel
  obtain ⟨v, _, hnode, _⟩ := (hall a t ht).1 (DependsOn.self _) hu
  refine ⟨w1, ?_, hev, ?_, ?_⟩
  · rw [getResult_eval_ok fuel rtl T hid ht hu hev hnode]
    simp [AnyTask_.getRes, Task_.done, hT]
  · intro b tb htb hd hub
    obtain ⟨v1, _, h1, h2, h3⟩ := (hall b tb htb).1 hd hub
    exact ⟨v1, h1, h2, h3⟩
  · intro heq
    rw [heq, ht] at hnode
    have := congrArg Task_.isEvaulated_ (Option.some.inj hnode)
    rw [hu] at this
    cases this

/-- C19 on the test `MultipleArgsTest.test2`: `getResult<float>(id2)` on the fresh registry
evaluates both tasks and then fails with `std::bad_cast`. -/
theorem mismatched_retrieval_not_atomic_witness :
    ∃ w1, squareConfig.sched.getResult 2 false squareConfig.world .float ⟨1⟩ =
        (w1, .throw .bad_cast) ∧
      Task_.eval false 2 squareConfig.world 1 = (w1, .ok ()) ∧
      (∀ (b : Nat) (tb : Task_), squareConfig.world.heap[b]? = some tb →
        DependsOn squareConfig.world.heap 1 b → tb.isEvaulated_ = false →
        ∃ v, w1.heap[b]? = some (tb.done v) ∧ squareConfig.world.calls.count b = 0 ∧
          w1.calls.count b = 1) ∧
      w1.heap ≠ squareConfig.world.heap :=
  mismatched_retrieval_not_atomic squareConfig squareConfig_reachable squareConfig_noFail
    squareConfig_wellTyped 2 false .float ⟨1⟩ 1 ⟨square, .int, [.future ⟨.int, 0⟩], none, false⟩
    rfl rfl rfl (by decide) (by decide)

theorem copyConfig_reachable : Reachable copyConfig :=
  Reachable.add
    (Reachable.getFutureResult
      (Reachable.add Reachable.reach_init plus .int [.value (.num 1), .value (.num 1)]
        (by simp))
      .int ⟨0⟩ ⟨.int, 0⟩ rfl)
    plus .int [.future ⟨.int, 0⟩, .future ⟨.int, 0⟩] (by simp)

theorem copyConfig_noFail : NoFail copyConfig.world.heap := by
  apply noFail_of_forall_mem
  simp [copyConfig, TTaskScheduler.add, plus]

theorem copyConfig_wellTyped : WellTyped copyConfig.world.heap := by
  intro a t ht f hf tb htb
  rcases a with _ | _ | a
  · simp [copyConfig, TTaskScheduler.add] at ht
    subst ht
    simp [WrapArgument_] at hf
  · simp [copyConfig, TTaskScheduler.add] at ht
    subst ht
    simp [WrapArgument_] at hf
    subst hf
    simp [copyConfig, TTaskScheduler.add] at htb
    subst htb
    rfl
  · simp [copyConfig, TTaskScheduler.add] at ht

/-- C20 fails as stated: in the registry `orderConfig` every callable is pure and does not
fail, yet `Task_::eval` on the third task leaves the second task unevaluated when the
bindings are read left to right, and evaluated when they are read right to left. -/
theorem read_order_observable :
    Reachable orderConfig ∧ NoFail orderConfig.world.heap ∧
    (Task_.eval false 3 orderConfig.world 2).2 = .throw .bad_cast ∧
    (Task_.eval true 3 orderConfig.world 2).2 = .throw .bad_cast ∧
    (Task_.eval false 3 orderConfig.world 2).1.pending 1 = true ∧
    (Task_.eval true 3 orderConfig.world 2).1.pending 1 = false :=
  ⟨orderConfig_reachable, orderConfig_noFail, by decide, by decide, by decide, by decide⟩

/-- C20, amended: in a reachable state whose callables do not fail and whose forward
references are read at the result type of the task they name, `Task_::eval` on an
unevaluated task returns whether the bindings are read left to right or right to left, and
the two runs leave the same nodes (the same cached values and the same evaluated flags) and
have invoked the same callables, none more than once. -/
theorem read_order_independent (c : Config) (hr : Reachable c) (hnf : NoFail c.world.heap)
    (hwt : WellTyped c.world.heap) (fuel : Nat) (a : Nat) (t : Task_)
    (ht : c.world.heap[a]? = some t) (hu : t.isEvaulated_ = false) (hfuel : a < fuel) :
    ∃ w1 w2, Task_.eval false fuel c.world a = (w1, .ok ()) ∧
      Task_.eval true fuel c.world a = (w2, .ok ()) ∧
      w1.heap = w2.heap ∧ w1.thrown = w2.thrown ∧
      (∃ v, w1.heap[a]? = some (t.done v)) ∧
      ∀ b, w1.calls.count b = w2.calls.count b ∧ w1.calls.count b ≤ 1 := by
  have hg := hr.reach_inv.good
  obtain ⟨w1, hev1, hg1, hx1, ht1, hall1⟩ :=
    eval_demand false fuel c.world a t hg hnf hwt ht hu hfuel
  obtain ⟨w2, hev2, hg2, hx2, ht2, hall2⟩ :=
    eval_demand true fuel c.world a t hg hnf hwt ht hu hfuel
  have key : ∀ b, w1.heap[b]? = w2.heap[b]? ∧ w1.calls.count b = w2.calls.count b := by
    intro b
    cases hb : c.world.heap[b]? with
    | none =>
      have hlen : c.world.heap.length ≤ b := List.getElem?_eq_none_iff.mp hb
      have h1 : w1.heap[b]? = none := List.getElem?_eq_none_iff.mpr (by rw [hx1.length]; exact hlen)
      have h2 : w2.heap[b]? = none := List.getElem?_eq_none_iff.mpr (by rw [hx2.length]; exact hlen)
      have c1 : b ∉ w1.calls := fun hm => by
        have := hg1.logged b hm
        rw [hx1.length] at this
        omega
      have c2 : b ∉ w2.calls := fun hm => by
        have := hg2.logged b hm
        rw [hx2.length] at this
        omega
      exact ⟨by rw [h1, h2], by
        rw [List.count_eq_zero_of_not_mem c1, List.count_eq_zero_of_not_mem c2]⟩
    | some tb =>
      by_cases hd : DependsOn c.world.heap a b ∧ tb.isEvaulated_ = false
      · obtain ⟨v1, hv1, hn1, _, hc1⟩ := (hall1 b tb hb).1 hd.1 hd.2
        obtain ⟨v2, hv2, hn2, _, hc2⟩ := (hall2 b tb hb).1 hd.1 hd.2
        rw [hv1] at hv2
        cases hv2
        exact ⟨by rw [hn1, hn2], by rw [hc1, hc2]⟩
      · obtain ⟨hn1, hc1⟩ := (hall1 b tb hb).2 hd
        obtain ⟨hn2, hc2⟩ := (hall2 b tb hb).2 hd
        exact ⟨by rw [hn1, hn2], by rw [hc1, hc2]⟩
  obtain ⟨v, _, hnode, _⟩ := (hall1 a t ht).1 (DependsOn.self _) hu
  refine ⟨w1, w2, hev1, hev2, List.ext_getElem? (fun b => (key b).1), by rw [ht1, ht2],
    ⟨v, hnode⟩, fun b => ⟨(key b).2, calls_count_le_one hg1 (hx1.noFail hnf) b⟩⟩

/-- C20 on the test `CopyTest`: the second task reads the result of the first through two
bindings, and the two orders agree on its evaluation. -/
theorem read_order_independent_witness :
    ∃ w1 w2, Task_.eval false 2 copyConfig.world 1 = (w1, .ok ()) ∧
      Task_.eval true 2 copyConfig.world 1 = (w2, .ok ()) ∧
      w1.heap = w2.heap ∧ w1.thrown = w2.thrown ∧
      (∃ v, w1.heap[1]? = some
        ((⟨plus, .int, [.future ⟨.int, 0⟩, .future ⟨.int, 0⟩], none, false⟩ : Task_).done v)) ∧
      ∀ b, w1.calls.count b = w2.calls.count b ∧ w1.calls.count b ≤ 1 :=
  read_order_independent copyConfig copyConfig_reachable copyConfig_noFail
    copyConfig_wellTyped 2 1 ⟨plus, .int, [.future ⟨.int, 0⟩, .future ⟨.int, 0⟩], none, false⟩
    rfl rfl (by decide)

theorem side_cases (sd side : Bool) : sd = side ∨ sd = !side := by
  cases sd <;> cases side <;> simp

theorem Pair.put_world (c : Pair) (side : Bool) (w : World) (s : TTaskScheduler)
    (calls : List AddCall) : (c.put side w s calls).world = w := by
  cases side <;> rfl

theorem Pair.put_reg (c : Pair) (side : Bool) (w : World) (s : TTaskScheduler)
    (calls : List AddCall) : (c.put side w s calls).reg side = s := by
  cases side <;> rfl

theorem Pair.put_reg_other (c : Pair) (side : Bool) (w : World) (s : TTaskScheduler)
    (calls : List AddCall) : (c.put side w s calls).reg (!side) = c.reg (!side) := by
  cases side <;> rfl

theorem Pair.put_script (c : Pair) (side : Bool) (w : World) (s : TTaskScheduler)
    (calls : List AddCall) : (c.put side w s calls).script side = calls := by
  cases side <;> rfl

theorem Pair.put_script_other (c : Pair) (side : Bool) (w : World) (s : TTaskScheduler)
    (calls : List AddCall) : (c.put side w s calls).script (!side) = c.script (!side) := by
  cases side <;> rfl

theorem Pair.put_keep (c : Pair) (side : Bool) (w : World) (sd : Bool) :
    (c.put side w (c.reg side) (c.script side)).reg sd = c.reg sd ∧
    (c.put side w (c.reg side) (c.script side)).script sd = c.script sd := by
  cases side <;> cases sd <;> exact ⟨rfl, rfl⟩

theorem resolve_matches (s : TTaskScheduler) :
    ∀ (es : List ArgExpr) (args : List TTaskScheduler.Argument), resolve s es = some args →
      List.Forall₂ (Matches s) es (args.map WrapArgument_) ∧
      ∀ f, TTaskScheduler.Argument.future f ∈ args → f.task_ ∈ s.tasks_ := by
  intro es
  induction es with
  | nil =>
    intro args h
    simp only [resolve, Option.some.injEq] at h
    subst h
    exact ⟨List.Forall₂.nil, fun f hf => by cases hf⟩
  | cons e rest ih =>
    intro args h
    cases e with
    | value v =>
      simp only [resolve] at h
      cases hr : resolve s rest with
      | none => simp [hr] at h
      | some as =>
        simp only [hr, Option.some.injEq] at h
        subst h
        obtain ⟨h1, h2⟩ := ih as hr
        refine ⟨List.Forall₂.cons rfl h1, ?_⟩
        intro f hf
        rcases List.mem_cons.1 hf with hf | hf
        · cases hf
        · exact h2 f hf
    | future T id =>
      simp only [resolve, TTaskScheduler.getFutureResult] at h
      cases ha : s.tasks_[id.getId]? with
      | none => simp [ha] at h
      | some a =>
        cases hr : resolve s rest with
        | none => simp [ha, hr] at h
        | some as =>
          simp only [ha, hr, Option.some.injEq] at h
          subst h
          obtain ⟨h1, h2⟩ := ih as hr
          refine ⟨List.Forall₂.cons ⟨a, ha, rfl⟩ h1, ?_⟩
          intro f hf
          rcases List.mem_cons.1 hf with hf | hf
          · cases hf
            exact List.getElem?_mem ha
          · exact h2 f hf

theorem Matches.extend {s : TTaskScheduler} {e : ArgExpr} {x : AbstractArgument_}
    (h : Matches s e x) (l : List Nat) : Matches ⟨s.tasks_ ++ l⟩ e x := by
  cases e with
  | value v => exact h
  | future T id =>
    obtain ⟨a, ha, hx⟩ := h
    refine ⟨a, ?_, hx⟩
    show (s.tasks_ ++ l)[id.getId]? = some a
    rw [List.getElem?_append_left (List.getElem?_eq_some.1 ha).1, ha]

theorem getElem?_snoc_cases {α : Type} {l : List α} {x y : α} {i : Nat}
    (h : (l ++ [x])[i]? = some y) : l[i]? = some y ∨ (i = l.length ∧ y = x) := by
  by_cases hb : i < l.length
  · rw [List.getElem?_append_left hb] at h
    exact Or.inl h
  · rw [List.getElem?_append_right (not_lt.1 hb)] at h
    have hb0 : i - l.length = 0 := by
      by_contra hne
      obtain ⟨k, hk⟩ := Nat.exists_eq_succ_of_ne_zero hne
      rw [hk] at h
      simp at h
    rw [hb0] at h
    simp only [List.getElem?_cons_zero, Option.some.injEq] at h
    exact Or.inr ⟨by omega, h.symm⟩

theorem PairInv.of_ext {c : Pair} (hi : PairInv c) (side : Bool) {w1 : World}
    (hx : Ext c.world w1) (hg : Good w1) :
    PairInv (c.put side w1 (c.reg side) (c.script side)) := by
  refine ⟨?_, ?_, ?_, ?_, ?_⟩
  · rw [Pair.put_world]
    exact hg
  · intro sd a ha
    rw [(Pair.put_keep c side w1 sd).1] at ha
    rw [Pair.put_world, hx.length]
    exact hi.owned sd a ha
  · intro sd a ha
    rw [(Pair.put_keep c side w1 sd).1] at ha
    rw [(Pair.put_keep c side w1 (!sd)).1]
    exact hi.apart sd a ha
  · intro sd
    rw [(Pair.put_keep c side w1 sd).1, Pair.put_world]
    exact hx.closed (hi.closed sd)
  · intro sd
    rw [(Pair.put_keep c side w1 sd).1, (Pair.put_keep c side w1 sd).2, Pair.put_world]
    obtain ⟨hlen, hb⟩ := hi.built sd
    refine ⟨hlen, ?_⟩
    intro i call hcall
    obtain ⟨a, t, h1, h2, h3, h4, h5⟩ := hb i call hcall
    obtain ⟨t1, ht1, e1, e2, e3⟩ := hx.shape a t h2
    exact ⟨a, t1, h1, ht1, e1.trans h3, e2.trans h4, e3 ▸ h5⟩

theorem PairInv.of_add {c : Pair} (hi : PairInv c) (side : Bool) (call : AddCall)
    (args : List TTaskScheduler.Argument) (h : resolve (c.reg side) call.args = some args) :
    PairInv (c.put side ((c.reg side).add c.world call.func call.ret args).1
      ((c.reg side).add c.world call.func call.ret args).2.1 (c.script side ++ [call])) := by
  obtain ⟨hm, hf⟩ := resolve_matches _ _ _ h
  have hold : ∀ (a : Nat) (t : Task_), c.world.heap[a]? = some t →
      ((c.reg side).add c.world call.func call.ret args).1.heap[a]? = some t := by
    intro a t ht
    simp only [TTaskScheduler.add]
    rw [List.getElem?_append_left (List.getElem?_eq_some.1 ht).1, ht]
  have hnode : ∀ (a : Nat), a < c.world.heap.length → ∃ t, c.world.heap[a]? = some t :=
    fun a ha => ⟨c.world.heap[a], by simp [ha]⟩
  have htasks : ((c.reg side).add c.world call.func call.ret args).2.1.tasks_ =
      (c.reg side).tasks_ ++ [c.world.heap.length] := rfl
  have hheap : ((c.reg side).add c.world call.func call.ret args).1.heap =
      c.world.heap ++ [⟨call.func, call.ret, args.map WrapArgument_, none, false⟩] := rfl
  refine ⟨?_, ?_, ?_, ?_, ?_⟩
  · rw [Pair.put_world]
    exact add_good _ _ _ _ _ hi.good (fun f hf1 => hi.owned side _ (hf f hf1))
  · intro sd a ha
    rw [Pair.put_world, hheap, List.length_append, List.length_singleton]
    rcases side_cases sd side with rfl | rfl
    · rw [Pair.put_reg, htasks, List.mem_append, List.mem_singleton] at ha
      rcases ha with ha | rfl
      · exact Nat.lt_succ_of_lt (hi.owned sd a ha)
      · exact Nat.lt_succ_self _
    · rw [Pair.put_reg_other] at ha
      exact Nat.lt_succ_of_lt (hi.owned _ a ha)
  · intro sd a ha
    rcases side_cases sd side with rfl | rfl
    · rw [Pair.put_reg, htasks, List.mem_append, List.mem_singleton] at ha
      rw [Pair.put_reg_other]
      rcases ha with ha | rfl
      · exact hi.apart sd a ha
      · intro hmem
        exact lt_irrefl _ (hi.owned _ _ hmem)
    · rw [Pair.put_reg_other] at ha
      rw [Bool.not_not, Pair.put_reg, htasks, List.mem_append, List.mem_singleton]
      have h1 := hi.apart _ a ha
      rw [Bool.not_not] at h1
      rintro (h2 | rfl)
      · exact h1 h2
      · exact lt_irrefl _ (hi.owned _ _ ha)
  · intro sd a t f hS ht hfm
    rw [Pair.put_world, hheap] at ht
    rcases side_cases sd side with rfl | rfl
    · rw [Pair.put_reg, htasks, List.mem_append, List.mem_singleton] at hS ⊢
      rcases getElem?_append_one ht with ht | ⟨rfl, rfl⟩
      · rcases hS with hS | rfl
        · exact Or.inl (hi.closed sd a t f hS ht hfm)
        · have := (List.getElem?_eq_some.1 ht).1
          exact absurd this (lt_irrefl _)
      · exact Or.inl (hf f (mem_map_wrap hfm))
    · rw [Pair.put_reg_other] at hS ⊢
      rcases getElem?_append_one ht with ht | ⟨rfl, rfl⟩
      · exact hi.closed _ a t f hS ht hfm
      · exact absurd (hi.owned _ _ hS) (lt_irrefl _)
  · intro sd
    rw [Pair.put_world]
    rcases side_cases sd side with rfl | rfl
    · rw [Pair.put_reg, Pair.put_script]
      obtain ⟨hlen, hb⟩ := hi.built sd
      refine ⟨by rw [htasks, List.length_append, List.length_append, hlen]; rfl, ?_⟩
      intro i call1 hcall
      rcases getElem?_snoc_cases hcall with hcall | ⟨rfl, rfl⟩
      · obtain ⟨a, t, h1, h2, h3, h4, h5⟩ := hb i call1 hcall
        refine ⟨a, t, ?_, hold a t h2, h3, h4, h5.imp (fun _ _ hx => hx.extend _)⟩
        rw [htasks, List.getElem?_append_left (List.getElem?_eq_some.1 h1).1, h1]
      · refine ⟨c.world.heap.length,
          ⟨call1.func, call1.ret, args.map WrapArgument_, none, false⟩, ?_, ?_, rfl, rfl,
          hm.imp (fun _ _ hx => hx.extend _)⟩
        · rw [htasks, ← hlen]
          exact List.getElem?_concat_length _ _
        · rw [hheap]
          exact List.getElem?_concat_length _ _
    · rw [Pair.put_reg_other, Pair.put_script_other]
      obtain ⟨hlen, hb⟩ := hi.built (!side)
      refine ⟨hlen, ?_⟩
      intro i call1 hcall
      obtain ⟨a, t, h1, h2, h3, h4, h5⟩ := hb i call1 hcall
      exact ⟨a, t, h1, hold a t h2, h3, h4, h5⟩

theorem Pair.pair_inv_init : PairInv Pair.init := by
  refine ⟨?_, ?_, ?_, ?_, ?_⟩
  · exact Inv.inv_init.good
  · intro sd a ha
    cases sd <;> cases ha
  · intro sd a ha
    cases sd <;> cases ha
  · intro sd a t f hS
    cases sd <;> cases hS
  · intro sd
    cases sd <;> exact ⟨rfl, fun i call h => by cases h⟩

theorem PairStep.pair_inv {side : Bool} {c c1 : Pair} (h : PairStep side c c1)
    (hi : PairInv c) : PairInv c1 := by
  cases h with
  | add call args h => exact hi.of_add side call args h
  | getResult fuel rtl T tid w1 o h hends =>
    have hf := getResult_fires fuel rtl _ _ T tid w1 o hi.good.acyclic h
    exact hi.of_ext side hf.fires_ext (hf.fires_good hi.good)
  | executeAll fuel rtl w1 o h hends =>
    have hf := loop_fires fuel rtl _ _ w1 o hi.good.acyclic h
    exact hi.of_ext side hf.fires_ext (hf.fires_good hi.good)

theorem PairReachable.pair_reach_inv {c : Pair} (h : PairReachable c) : PairInv c := by
  induction h with
  | refl => exact Pair.pair_inv_init
  | tail _ hs ih =>
    obtain ⟨side, hs⟩ := hs
    exact hs.pair_inv ih

theorem PairStep.other_untouched {side : Bool} {c c1 : Pair} (h : PairStep side c c1)
    (hi : PairInv c) :
    c1.reg (!side) = c.reg (!side) ∧
    ∀ a ∈ (c.reg (!side)).tasks_, c1.world.heap[a]? = c.world.heap[a]? ∧
      c1.world.calls.count a = c.world.calls.count a := by
  have hout : ∀ a ∈ (c.reg (!side)).tasks_, ¬ (fun b => b ∈ (c.reg side).tasks_) a := by
    intro a ha
    have := hi.apart (!side) a ha
    rwa [Bool.not_not] at this
  cases h with
  | add call args h =>
    refine ⟨Pair.put_reg_other _ _ _ _ _, ?_⟩
    intro a ha
    rw [Pair.put_world]
    refine ⟨?_, rfl⟩
    simp only [TTaskScheduler.add]
    rw [List.getElem?_append_left (hi.owned _ a ha)]
  | getResult fuel rtl T tid w1 o h hends =>
    refine ⟨(Pair.put_keep c side w1 _).1, ?_⟩
    intro a ha
    rw [Pair.put_world]
    cases hid : (c.reg side).tasks_[tid.getId]? with
    | none =>
      simp only [TTaskScheduler.getResult, hid, Prod.mk.injEq] at h
      rw [← h.1]
      exact ⟨rfl, rfl⟩
    | some a0 =>
      have hlt := hi.owned side a0 (List.getElem?_mem hid)
      have ht : c.world.heap[a0]? = some c.world.heap[a0] := by simp [hlt]
      have htr := (getResult_trace (fun b => b ∈ (c.reg side).tasks_) fuel rtl _ _ T tid a0 _
        w1 o hi.good.acyclic (hi.closed side) (List.getElem?_mem hid) hid ht h).1
      have := htr.outside (hout a ha)
      exact ⟨this.1, this.2.1⟩
  | executeAll fuel rtl w1 o h hends =>
    refine ⟨(Pair.put_keep c side w1 _).1, ?_⟩
    intro a ha
    rw [Pair.put_world]
    have htr := (loop_trace (fun b => b ∈ (c.reg side).tasks_) fuel rtl _ c.world w1 o
      hi.good.acyclic (hi.closed side) (fun b hb => ⟨hb, hi.owned side b hb⟩) h).1
    have := htr.outside (hout a ha)
    exact ⟨this.1, this.2.1⟩

theorem matches_bindingValues {s1 s2 : TTaskScheduler} (r : Nat → Option Val)
    (hr : ∀ (i a1 a2 : Nat), s1.tasks_[i]? = some a1 → s2.tasks_[i]? = some a2 →
      r a1 = r a2) :
    ∀ (es : List ArgExpr) (xs ys : List AbstractArgument_), List.Forall₂ (Matches s1) es xs →
      List.Forall₂ (Matches s2) es ys → bindingValues r xs = bindingValues r ys := by
  intro es
  induction es with
  | nil =>
    intro xs ys h1 h2
    cases h1
    cases h2
    rfl
  | cons e rest ih =>
    intro xs ys h1 h2
    cases h1 with
    | cons hx hxs =>
      cases h2 with
      | cons hy hys =>
        have hrest := ih _ _ hxs hys
        cases e with
        | value v =>
          have e1 : _ = AbstractArgument_.simple v := hx
          have e2 : _ = AbstractArgument_.simple v := hy
          subst e1
          subst e2
          simp only [bindingValues, hrest]
        | future T id =>
          obtain ⟨a1, ha1, e1⟩ := hx
          obtain ⟨a2, ha2, e2⟩ := hy
          subst e1
          subst e2
          simp only [bindingValues, hrest, hr _ a1 a2 ha1 ha2]

/-- The un-memoised result of a task is determined by the `add` calls that built its
registry. -/
theorem built_unmemoised {w : World} {s1 s2 : TTaskScheduler} {calls : List AddCall}
    (h1 : Built w s1 calls) (h2 : Built w s2 calls) :
    ∀ (k i a1 a2 : Nat), s1.tasks_[i]? = some a1 → s2.tasks_[i]? = some a2 →
      unmemoised k w.heap a1 = unmemoised k w.heap a2 := by
  intro k
  induction k with
  | zero => intro i a1 a2 _ _; rfl
  | succ k ih =>
    intro i a1 a2 ha1 ha2
    have hi : i < calls.length := by
      rw [← h1.1]
      exact (List.getElem?_eq_some.1 ha1).1
    obtain ⟨b1, t1, hb1, ht1, f1, _, m1⟩ := h1.2 i calls[i] (by simp [hi])
    obtain ⟨b2, t2, hb2, ht2, f2, _, m2⟩ := h2.2 i calls[i] (by simp [hi])
    rw [ha1] at hb1
    rw [ha2] at hb2
    cases hb1
    cases hb2
    simp only [unmemoised, ht1, ht2]
    rw [matches_bindingValues (unmemoised k w.heap) ih _ _ _ m1 m2, f1, f2]

theorem getResult_ok_unmemoised {fuel : Nat} {rtl : Bool} {s : TTaskScheduler} {w w1 : World}
    {T : Ty} {tid : TaskId_} {v : Val} (hg : Good w)
    (h : s.getResult fuel rtl w T tid = (w1, .ok v)) :
    ∃ a, s.tasks_[tid.getId]? = some a ∧ ∀ k, a < k → unmemoised k w.heap a = some v := by
  cases hid : s.tasks_[tid.getId]? with
  | none => simp [TTaskScheduler.getResult, hid] at h
  | some a =>
    refine ⟨a, rfl, ?_⟩
    intro k hk
    have hf := getResult_fires fuel rtl _ _ T tid w1 _ hg.acyclic h
    have hg1 := hf.fires_good hg
    obtain ⟨t1, ht1, he1, hres, _⟩ := getResult_ok_node hg.acyclic hid h
    rw [← unmemoised_ext hf.fires_ext]
    exact sound_unmemoised hg1.acyclic hg1.sound k a t1 v hk ht1 he1 hres

/-- C13: two separately constructed registries are independent.  In every state that a
program reaches with two registries, a call of `add`, `getResult` or `executeAll` on one of
them leaves the other registry as it is (its length too), and leaves every node of the other
registry as it is (evaluated flag and cached result), without entering its callable.  When
both registries have received the same sequence of `add` calls, the values that `getResult`
returns for the same identifier on the two registries are equal; and `getResult` does
return on both, with enough fuel, when no callable fails and every forward reference is
read at the result type of the task it names. -/
theorem registries_independent (c : Pair) (hr : PairReachable c) :
    (∀ (side : Bool) (c1 : Pair), PairStep side c c1 →
      c1.reg (!side) = c.reg (!side) ∧
      ∀ a ∈ (c.reg (!side)).tasks_, c1.world.heap[a]? = c.world.heap[a]? ∧
        c1.world.calls.count a = c.world.calls.count a) ∧
    (c.leftCalls = c.rightCalls →
      (∀ (fuel : Nat) (rtl : Bool) (fuel1 : Nat) (rtl1 : Bool) (T : Ty) (tid : TaskId_)
        (w1 w2 : World) (v v1 : Val),
        c.left.getResult fuel rtl c.world T tid = (w1, .ok v) →
        c.right.getResult fuel1 rtl1 c.world T tid = (w2, .ok v1) → v = v1) ∧
      (NoFail c.world.heap → WellTyped c.world.heap →
        ∀ (fuel : Nat) (rtl : Bool) (fuel1 : Nat) (rtl1 : Bool) (i : Nat) (call : AddCall),
          c.leftCalls[i]? = some call → c.world.heap.length ≤ fuel →
          c.world.heap.length ≤ fuel1 →
          ∃ v w1 w2, c.left.getResult fuel rtl c.world call.ret ⟨i⟩ = (w1, .ok v) ∧
            c.right.getResult fuel1 rtl1 c.world call.ret ⟨i⟩ = (w2, .ok v))) := by
  have hi := hr.pair_reach_inv
  refine ⟨fun side c1 hs => hs.other_untouched hi, ?_⟩
  intro hsame
  have hbl : Built c.world c.left c.leftCalls := hi.built false
  have hbr : Built c.world c.right c.leftCalls := by
    rw [hsame]
    exact hi.built true
  have hagree : ∀ (fuel : Nat) (rtl : Bool) (fuel1 : Nat) (rtl1 : Bool) (T : Ty)
      (tid : TaskId_) (w1 w2 : World) (v v1 : Val),
      c.left.getResult fuel rtl c.world T tid = (w1, .ok v) →
      c.right.getResult fuel1 rtl1 c.world T tid = (w2, .ok v1) → v = v1 := by
    intro fuel rtl fuel1 rtl1 T tid w1 w2 v v1 h1 h2
    obtain ⟨a1, ha1, hu1⟩ := getResult_ok_unmemoised hi.good h1
    obtain ⟨a2, ha2, hu2⟩ := getResult_ok_unmemoised hi.good h2
    have e1 := hu1 (a1 + a2 + 1) (by omega)
    have e2 := hu2 (a1 + a2 + 1) (by omega)
    rw [built_unmemoised hbl hbr (a1 + a2 + 1) tid.getId a1 a2 ha1 ha2, e2] at e1
    exact (Option.some.inj e1).symm
  refine ⟨hagree, ?_⟩
  intro hnf hwt fuel rtl fuel1 rtl1 i call hcall hfuel hfuel1
  obtain ⟨a1, t1, ha1, ht1, _, r1, _⟩ := hbl.2 i call hcall
  obtain ⟨a2, t2, ha2, ht2, _, r2, _⟩ := hbr.2 i call hcall
  have hl1 := (List.getElem?_eq_some.1 ht1).1
  have hl2 := (List.getElem?_eq_some.1 ht2).1
  obtain ⟨w1, v, h1⟩ := getResult_returns hi.good hnf hwt c.left fuel rtl ⟨i⟩ a1 t1 ha1 ht1
    (by omega)
  obtain ⟨w2, v1, h2⟩ := getResult_returns hi.good hnf hwt c.right fuel1 rtl1 ⟨i⟩ a2 t2 ha2 ht2
    (by omega)
  rw [r1] at h1
  rw [r2] at h2
  have := hagree fuel rtl fuel1 rtl1 call.ret ⟨i⟩ w1 w2 v v1 h1 h2
  subst this
  exact ⟨v, w1, w2, h1, h2⟩

theorem sameArgsPair_reachable : PairReachable sameArgsPair :=
  Relation.ReflTransGen.tail
    (Relation.ReflTransGen.tail Relation.ReflTransGen.refl
      ⟨false, PairStep.add Pair.init ⟨plus, .int, [.value (.num 1), .value (.num 2)]⟩
        [.value (.num 1), .value (.num 2)] rfl⟩)
    ⟨true, PairStep.add _ ⟨plus, .int, [.value (.num 1), .value (.num 2)]⟩
      [.value (.num 1), .value (.num 2)] rfl⟩

theorem sameArgsPair_noFail : NoFail sameArgsPair.world.heap := by
  apply noFail_of_forall_mem
  simp [sameArgsPair, Pair.put, Pair.init, TTaskScheduler.add, plus]

theorem sameArgsPair_wellTyped : WellTyped sameArgsPair.world.heap := by
  intro a t ht f hf tb htb
  rcases a with _ | _ | a
  · simp [sameArgsPair, Pair.put, Pair.init, TTaskScheduler.add] at ht
    subst ht
    simp [WrapArgument_] at hf
  · simp [sameArgsPair, Pair.put, Pair.init, TTaskScheduler.add] at ht
    subst ht
    simp [WrapArgument_] at hf
  · simp [sameArgsPair, Pair.put, Pair.init, TTaskScheduler.add] at ht

/-- C13 on the test `MultipleSchedulersSameArgs`: `getResult<int>` returns the same value on
the two registries. -/
theorem registries_independent_witness :
    ∃ v w1 w2, sameArgsPair.left.getResult 2 false sameArgsPair.world .int ⟨0⟩ = (w1, .ok v) ∧
      sameArgsPair.right.getResult 2 true sameArgsPair.world .int ⟨0⟩ = (w2, .ok v) :=
  ((registries_independent sameArgsPair sameArgsPair_reachable).2 rfl).2 sameArgsPair_noFail
    sameArgsPair_wellTyped 2 false 2 true 0 ⟨plus, .int, [.value (.num 1), .value (.num 2)]⟩
    rfl (le_refl _) (le_refl _)

theorem Copies.copy_put_world (c : Copies) (side : Bool) (w : World) (s : TTaskScheduler) :
    (c.put side w s).world = w := by
  cases side <;> rfl

theorem Copies.copy_put_handles (c : Copies) (side : Bool) (w : World) (s : TTaskScheduler) :
    (c.put side w s).handles = c.handles := by
  cases side <;> rfl

theorem Copies.copy_put_reg (c : Copies) (side : Bool) (w : World) (s : TTaskScheduler) :
    (c.put side w s).reg side = s := by
  cases side <;> rfl

theorem Copies.copy_put_reg_other (c : Copies) (side : Bool) (w : World) (s : TTaskScheduler) :
    (c.put side w s).reg (!side) = c.reg (!side) := by
  cases side <;> rfl

theorem Copies.copy_put_keep (c : Copies) (side : Bool) (w : World) (sd : Bool) :
    (c.put side w (c.reg side)).reg sd = c.reg sd := by
  cases side <;> cases sd <;> rfl

theorem CopyInv.of_copy {c : Config} (hr : Reachable c) : CopyInv c (Copies.of c) := by
  have hi := hr.reach_inv
  refine ⟨hi.good, ?_, hi.handles, ?_⟩
  · intro sd a ha
    have ha1 : a ∈ c.sched.tasks_ := by
      cases sd <;> exact ha
    rw [hi.tasks, List.mem_range] at ha1
    exact ha1
  · intro sd
    refine ⟨[], ?_, fun a ha => by cases ha⟩
    cases sd <;> simp [Copies.of, Copies.reg, TTaskScheduler.copy]

theorem CopyInv.copy_ext {c0 : Config} {c : Copies} (hi : CopyInv c0 c) (side : Bool)
    {w1 : World} (hx : Ext c.world w1) (hg : Good w1) :
    CopyInv c0 (c.put side w1 (c.reg side)) := by
  refine ⟨?_, ?_, ?_, ?_⟩
  · rw [Copies.copy_put_world]
    exact hg
  · intro sd a ha
    rw [Copies.copy_put_keep] at ha
    rw [Copies.copy_put_world, hx.length]
    exact hi.owned sd a ha
  · intro f hf
    rw [Copies.copy_put_handles] at hf
    rw [Copies.copy_put_world, hx.length]
    exact hi.handles f hf
  · intro sd
    rw [Copies.copy_put_keep, Copies.copy_put_keep]
    exact hi.base sd

theorem CopyStep.copy_inv {c0 : Config} {side : Bool} {c c1 : Copies} (h : CopyStep side c c1)
    (hi : CopyInv c0 c) : CopyInv c0 c1 := by
  cases h with
  | getFutureResult T tid f h =>
    refine ⟨hi.good, hi.owned, ?_, hi.base⟩
    intro g hg
    rcases List.mem_cons.1 hg with rfl | hg
    · unfold TTaskScheduler.getFutureResult at h
      cases ha : (c.reg side).tasks_[tid.getId]? with
      | none => simp [ha] at h
      | some a =>
        simp only [ha, Outcome.ok.injEq] at h
        subst h
        exact hi.owned side a (List.getElem?_mem ha)
    · exact hi.handles g hg
  | add func ret args h =>
    have htasks : ((c.reg side).add c.world func ret args).2.1.tasks_ =
        (c.reg side).tasks_ ++ [c.world.heap.length] := rfl
    have hlen : ((c.reg side).add c.world func ret args).1.heap.length =
        c.world.heap.length + 1 := by
      simp [TTaskScheduler.add]
    refine ⟨?_, ?_, ?_, ?_⟩
    · rw [Copies.copy_put_world]
      exact add_good _ _ _ _ _ hi.good (fun f hf => hi.handles f (h f hf))
    · intro sd a ha
      rw [Copies.copy_put_world, hlen]
      rcases side_cases sd side with rfl | rfl
      · rw [Copies.copy_put_reg, htasks, List.mem_append, List.mem_singleton] at ha
        rcases ha with ha | rfl
        · exact Nat.lt_succ_of_lt (hi.owned sd a ha)
        · exact Nat.lt_succ_self _
      · rw [Copies.copy_put_reg_other] at ha
        exact Nat.lt_succ_of_lt (hi.owned _ a ha)
    · intro f hf
      rw [Copies.copy_put_handles] at hf
      rw [Copies.copy_put_world, hlen]
      exact Nat.lt_succ_of_lt (hi.handles f hf)
    · intro sd
      rcases side_cases sd side with rfl | rfl
      · obtain ⟨l, hl, hfresh⟩ := hi.base sd
        refine ⟨l ++ [c.world.heap.length], ?_, ?_⟩
        · rw [Copies.copy_put_reg, htasks, hl, List.append_assoc]
        · intro a ha
          rw [Copies.copy_put_reg_other]
          rcases List.mem_append.1 ha with ha | ha
          · exact hfresh a ha
          · rw [List.mem_singleton] at ha
            subst ha
            intro hmem
            exact lt_irrefl _ (hi.owned _ _ hmem)
      · obtain ⟨l, hl, hfresh⟩ := hi.base (!side)
        refine ⟨l, ?_, ?_⟩
        · rw [Copies.copy_put_reg_other, hl]
        · intro a ha
          rw [Bool.not_not, Copies.copy_put_reg, htasks, List.mem_append, List.mem_singleton]
          have h1 := hfresh a ha
          rw [Bool.not_not] at h1
          rintro (h2 | rfl)
          · exact h1 h2
          · have : c.world.heap.length ∈ (c.reg (!side)).tasks_ := by
              rw [hl]
              exact List.mem_append_right _ ha
            exact lt_irrefl _ (hi.owned _ _ this)
  | getResult fuel rtl T tid w1 o h hends =>
    have hf := getResult_fires fuel rtl _ _ T tid w1 o hi.good.acyclic h
    exact hi.copy_ext side hf.fires_ext (hf.fires_good hi.good)
  | executeAll fuel rtl w1 o h hends =>
    have hf := loop_fires fuel rtl _ _ w1 o hi.good.acyclic h
    exact hi.copy_ext side hf.fires_ext (hf.fires_good hi.good)

theorem copies_inv {c0 : Config} (hr : Reachable c0) {c : Copies}
    (h : Relation.ReflTransGen (fun x y => ∃ side, CopyStep side x y) (Copies.of c0) c) :
    CopyInv c0 c := by
  induction h with
  | refl => exact CopyInv.of_copy hr
  | tail _ hs ih =>
    obtain ⟨side, hs⟩ := hs
    exact hs.copy_inv ih

theorem CopyInv.shared {c0 : Config} {c : Copies} (hi : CopyInv c0 c) (side : Bool)
    {i a : Nat} (h : c0.sched.tasks_[i]? = some a) : (c.reg side).tasks_[i]? = some a := by
  obtain ⟨l, hl, _⟩ := hi.base side
  rw [hl, List.getElem?_append_left (List.getElem?_eq_some.1 h).1, h]

/-- C16: after a registry is copied, the two registries refer to the same nodes.  In every
state reached after the copy by calls of the public members on either registry, an
identifier that was valid at copy time names the same node in both, so both see the same
evaluated flag and cached result; when `getResult` on one registry returns a value for such
an identifier, `getResult` on the other returns the same value and leaves the memory as it
is, and `executeAll` on the other leaves the node as it is, its callable entered once in
all; after `executeAll` on one registry returns, `getResult` on the other returns the cached
result of every such task and leaves the memory as it is; and a task at an index beyond the
length at copy time, added to one registry after the copy, is not in the other. -/
theorem copy_aliasing (c : Config) (hr : Reachable c) (c2 : Copies)
    (hs : Relation.ReflTransGen (fun x y => ∃ side, CopyStep side x y) (Copies.of c) c2) :
    (∀ (i a : Nat), c.sched.tasks_[i]? = some a →
      c2.left.tasks_[i]? = some a ∧ c2.right.tasks_[i]? = some a ∧
      ∃ t, c2.world.heap[a]? = some t) ∧
    (∀ (side : Bool) (fuel : Nat) (rtl : Bool) (T : Ty) (i : Nat) (w1 : World) (v : Val),
      i < c.sched.tasks_.length →
      (c2.reg side).getResult fuel rtl c2.world T ⟨i⟩ = (w1, .ok v) →
      ∀ (fuel1 : Nat) (rtl1 : Bool),
        (c2.reg (!side)).getResult fuel1 rtl1 w1 T ⟨i⟩ = (w1, .ok v) ∧
        ∃ a, c.sched.tasks_[i]? = some a ∧ w1.calls.count a = 1 ∧
          ((c2.reg (!side)).executeAll fuel1 rtl1 w1).1.heap[a]? = w1.heap[a]? ∧
          ((c2.reg (!side)).executeAll fuel1 rtl1 w1).1.calls.count a = 1) ∧
    (∀ (side : Bool) (fuel : Nat) (rtl : Bool) (w1 : World),
      (c2.reg side).executeAll fuel rtl c2.world = (w1, .ok ()) →
      ∀ (i a : Nat), c.sched.tasks_[i]? = some a →
        ∃ t v, w1.heap[a]? = some t ∧ t.isEvaulated_ = true ∧ t.res_ = some v ∧
          w1.calls.count a = 1 ∧
          ∀ (fuel1 : Nat) (rtl1 : Bool),
            (c2.reg (!side)).getResult fuel1 rtl1 w1 t.ret ⟨i⟩ = (w1, .ok v)) ∧
    (∀ (side : Bool) (i a : Nat), c.sched.tasks_.length ≤ i →
      (c2.reg side).tasks_[i]? = some a → a ∉ (c2.reg (!side)).tasks_) := by
  have hi := copies_inv hr hs
  have hg := hi.good
  refine ⟨?_, ?_, ?_, ?_⟩
  · intro i a h
    have hl := hi.shared false h
    have hlt := hi.owned false a (List.getElem?_mem hl)
    exact ⟨hl, hi.shared true h, c2.world.heap[a], by simp [hlt]⟩
  · intro side fuel rtl T i w1 v hlt h fuel1 rtl1
    have ha : c.sched.tasks_[i]? = some c.sched.tasks_[i] := by simp [hlt]
    have hid : (c2.reg side).tasks_[(⟨i⟩ : TaskId_).getId]? = some c.sched.tasks_[i] :=
      hi.shared side ha
    have hid1 : (c2.reg (!side)).tasks_[(⟨i⟩ : TaskId_).getId]? = some c.sched.tasks_[i] :=
      hi.shared (!side) ha
    obtain ⟨t1, ht1, he1, hres, hT⟩ := getResult_ok_node hg.acyclic hid h
    have hf := getResult_fires fuel rtl _ _ T ⟨i⟩ w1 _ hg.acyclic h
    have hg1 := hf.fires_good hg
    refine ⟨?_, c.sched.tasks_[i], ha, (hg1.counted _ t1 ht1).1 he1, ?_, ?_⟩
    · rw [getResult_evaluated fuel1 rtl1 T hid1 ht1 he1]
      simp [AnyTask_.getRes, hT, hres]
    · cases hex : (c2.reg (!side)).executeAll fuel1 rtl1 w1 with
      | mk w3 o =>
        have hf3 := loop_fires fuel1 rtl1 _ _ w3 o hg1.acyclic hex
        rw [hf3.fires_ext.frozen _ t1 ht1 he1, ht1]
    · cases hex : (c2.reg (!side)).executeAll fuel1 rtl1 w1 with
      | mk w3 o =>
        have hf3 := loop_fires fuel1 rtl1 _ _ w3 o hg1.acyclic hex
        exact ((hf3.fires_good hg1).counted _ t1
          (hf3.fires_ext.frozen _ t1 ht1 he1)).1 he1
  · intro side fuel rtl w1 h i a ha
    have hid := hi.shared side ha
    have hid1 : (c2.reg (!side)).tasks_[(⟨i⟩ : TaskId_).getId]? = some a :=
      hi.shared (!side) ha
    obtain ⟨t1, ht1, he1⟩ := loop_ok_evaluated fuel rtl _ _ w1 () hg.acyclic h a
      (List.getElem?_mem hid)
    have hf := loop_fires fuel rtl _ _ w1 _ hg.acyclic h
    have hg1 := hf.fires_good hg
    obtain ⟨vs, v, _, _, hres⟩ := hg1.sound a t1 ht1 he1
    refine ⟨t1, v, ht1, he1, hres, (hg1.counted _ t1 ht1).1 he1, ?_⟩
    intro fuel1 rtl1
    rw [getResult_evaluated fuel1 rtl1 t1.ret hid1 ht1 he1]
    simp [AnyTask_.getRes, hres]
  · intro side i a hle h
    obtain ⟨l, hl, hfresh⟩ := hi.base side
    rw [hl, List.getElem?_append_right hle] at h
    exact hfresh a (List.getElem?_mem h)

/-- C16 on the test `CopyTest`: after `getResult<int>(id2)` on the original returned 4,
`getResult<int>(id2)` on the copy returns 4 and leaves the memory as it is. -/
theorem copy_aliasing_witness :
    (Copies.of copyConfig).right.getResult 2 false
        (copyConfig.sched.getResult 2 false copyConfig.world .int ⟨1⟩).1 .int ⟨1⟩ =
      ((copyConfig.sched.getResult 2 false copyConfig.world .int ⟨1⟩).1, .ok (.num 4)) :=
  ((copy_aliasing copyConfig copyConfig_reachable (Copies.of copyConfig)
    Relation.ReflTransGen.refl).2.1 false 2 false .int 1
    (copyConfig.sched.getResult 2 false copyConfig.world .int ⟨1⟩).1 (.num 4) (by decide)
    (eq_of_snd_eq (by decide)) 2 false).1

/-- A completed `Task_::eval` of the unevaluated node at `a0` leaves the callable of every
node that `a0` depends on entered exactly once. -/
theorem eval_dep_count (rtl : Bool) (fuel : Nat) {w : World} {a0 : Nat} {t0 : Task_}
    (hg : Good w) (hnf : NoFail w.heap) (hwt : WellTyped w.heap) (ht0 : w.heap[a0]? = some t0)
    (hu : t0.isEvaulated_ = false) (hfuel : a0 < fuel) {a : Nat}
    (hd : DependsOn w.heap a0 a) :
    ∃ w1 v, Task_.eval rtl fuel w a0 = (w1, .ok ()) ∧ w1.heap[a0]? = some (t0.done v) ∧
      Good w1 ∧ w1.calls.count a = 1 ∧ w1.thrown = w.thrown := by
  obtain ⟨w1, hev, hg1, _, hth, hall⟩ := eval_demand rtl fuel w a0 t0 hg hnf hwt ht0 hu hfuel
  obtain ⟨v, _, hnode, _⟩ := (hall a0 t0 ht0).1 (DependsOn.self _) hu
  have hlt : a < w.heap.length := by
    have h1 := DependsOn.dep_le hg.acyclic hd
    have h2 := (List.getElem?_eq_some.1 ht0).1
    omega
  have hta : w.heap[a]? = some w.heap[a] := by simp [hlt]
  refine ⟨w1, v, hev, hnode, hg1, ?_, hth⟩
  cases he : (w.heap[a]).isEvaulated_ with
  | false =>
    obtain ⟨_, _, _, _, h1⟩ := (hall a _ hta).1 hd he
    exact h1
  | true =>
    have := (hall a _ hta).2 (fun h => by rw [he] at h; cases h.2)
    rw [this.2]
    exact (hg.counted a _ hta).1 he

/-- C2 fails as stated: in the registry `mismatchConfig` no callable fails (the log of
throwing callables stays empty), and `getResult<float>` reads the task of the valid
identifier 1; yet the body of that task has not been entered after the read, because the
read of its forward reference, taken at a wrong type, throws `std::bad_cast` first. -/
theorem read_without_invocation :
    Reachable mismatchConfig ∧ NoFail mismatchConfig.world.heap ∧
    mismatchConfig.sched.tasks_[1]? = some 1 ∧
    ∀ rtl, (mismatchConfig.sched.getResult 2 rtl mismatchConfig.world .float ⟨1⟩).2 =
        .throw .bad_cast ∧
      (mismatchConfig.sched.getResult 2 rtl mismatchConfig.world .float ⟨1⟩).1.thrown = [] ∧
      (mismatchConfig.sched.getResult 2 rtl mismatchConfig.world .float ⟨1⟩).1.calls.count 1 =
        0 :=
  ⟨mismatchConfig_reachable, mismatchConfig_noFail, rfl, by decide⟩

/-- C2, amended: in every state reached from a fresh registry by calls of `add`,
`getFutureResult`, `getResult` and `executeAll` in which no callable has thrown, the
callable body of every task has been entered at most once, and exactly once if and only if
the task is evaluated.  When moreover no callable can fail and every forward reference is
read at the result type of the task it names, the body of an unevaluated task has not been
entered, and every read runs it: after `getResult` on the task or on a task that depends on
it, after `executeAll`, and after the read `FutureResult_::get` of a forward reference to
the task or to a task that depends on it, each with enough fuel and in either argument
order, the call has ended and the body has been entered exactly once.  Without these two
conditions the same holds of every read that returns. -/
theorem callable_at_most_once (c : Config) (hr : Reachable c) (a : Nat) :
    (c.world.thrown = [] → c.world.calls.count a ≤ 1) ∧
    (∀ t, c.world.heap[a]? = some t → t.isEvaulated_ = true → c.world.calls.count a = 1) ∧
    (∀ t, c.world.thrown = [] → c.world.heap[a]? = some t → c.world.calls.count a = 1 →
      t.isEvaulated_ = true) ∧
    (NoFail c.world.heap → WellTyped c.world.heap →
      (∀ t, c.world.heap[a]? = some t → t.isEvaulated_ = false →
        c.world.calls.count a = 0) ∧
      (∀ (fuel : Nat) (rtl : Bool) (T : Ty) (tid : TaskId_) (a0 : Nat),
        c.sched.tasks_[tid.getId]? = some a0 → DependsOn c.world.heap a0 a → a0 < fuel →
        (c.sched.getResult fuel rtl c.world T tid).2.Ends ∧
        (c.sched.getResult fuel rtl c.world T tid).1.calls.count a = 1 ∧
        (c.sched.getResult fuel rtl c.world T tid).1.thrown = c.world.thrown) ∧
      (∀ (fuel : Nat) (rtl : Bool), a < c.world.heap.length → c.sched.tasks_.length ≤ fuel →
        (c.sched.executeAll fuel rtl c.world).2 = .ok () ∧
        (c.sched.executeAll fuel rtl c.world).1.calls.count a = 1) ∧
      (∀ (fuel : Nat) (rtl : Bool) (b : Nat) (tb : Task_) (f : FutureResult_),
        c.world.heap[b]? = some tb → AbstractArgument_.future f ∈ tb.args_ →
        DependsOn c.world.heap f.task_ a → f.task_ < fuel →
        (∃ v, (FutureResult_.get (Task_.eval rtl fuel) f c.world).2 = .ok v) ∧
        (FutureResult_.get (Task_.eval rtl fuel) f c.world).1.calls.count a = 1)) ∧
    (∀ fuel rtl T tid w1 v, c.sched.tasks_[tid.getId]? = some a →
      c.sched.getResult fuel rtl c.world T tid = (w1, .ok v) → w1.calls.count a = 1) ∧
    (∀ fuel rtl w1, a ∈ c.sched.tasks_ →
      c.sched.executeAll fuel rtl c.world = (w1, .ok ()) → w1.calls.count a = 1) ∧
    (∀ (fuel : Nat) (rtl : Bool) (b : Nat) (tb : Task_) (f : FutureResult_) (w1 : World)
      (v : Val), c.world.heap[b]? = some tb →
      AbstractArgument_.future f ∈ tb.args_ → f.task_ = a →
      FutureResult_.get (Task_.eval rtl fuel) f c.world = (w1, .ok v) →
      w1.calls.count a = 1) := by
  have hi := hr.reach_inv
  have hg := hi.good
  have htal := hg.tallied a
  refine ⟨?_, ?_, ?_, ?_, ?_, ?_, ?_⟩
  · intro hnt
    rw [htal, hnt]
    cases c.world.heap[a]? with
    | none => simp
    | some t => simp only [List.count_nil, add_zero]; split <;> omega
  · intro t ht he
    exact (hg.counted a t ht).1 he
  · intro t hnt ht hcount
    rw [htal, hnt, ht] at hcount
    by_contra hne
    simp [hne] at hcount
  · intro hnf hwt
    refine ⟨?_, ?_, ?_, ?_⟩
    · intro t ht hu
      rcases (hg.counted a t ht).2 hu with h0 | ⟨vs, e, _, hf⟩
      · exact h0
      · exact absurd hf (hnf a t ht vs e)
    · intro fuel rtl T tid a0 hid hd hfuel
      have hlt : a0 < c.world.heap.length := by
        have h := hid
        rw [hi.tasks] at h
        exact (getElem?_range_eq h).1 ▸ (getElem?_range_eq h).2
      have ht0 : c.world.heap[a0]? = some c.world.heap[a0] := by simp [hlt]
      cases he : (c.world.heap[a0]).isEvaulated_ with
      | true =>
        rw [getResult_evaluated fuel rtl T hid ht0 he]
        obtain ⟨ta, hta, hea⟩ := DependsOn.dep_evaluated hg.sound hd ht0 he
        exact ⟨hg.sound.getRes_ends ht0 he T, (hg.counted a ta hta).1 hea, rfl⟩
      | false =>
        obtain ⟨w1, v, hev, hnode, _, hcount, hth⟩ :=
          eval_dep_count rtl fuel hg hnf hwt ht0 he hfuel hd
        rw [getResult_eval_ok fuel rtl T hid ht0 he hev hnode]
        exact ⟨getRes_done_ends _ v T, hcount, hth⟩
    · intro fuel rtl hlt hfuel
      have hmem : ∀ b ∈ c.sched.tasks_, b < fuel ∧ b < c.world.heap.length := by
        intro b hb
        rw [hi.tasks, List.length_range] at hfuel
        rw [hi.tasks, List.mem_range] at hb
        omega
      obtain ⟨w1, hex⟩ := loop_returns fuel rtl c.sched.tasks_ c.world hg hnf hwt hmem
      have hex1 : c.sched.executeAll fuel rtl c.world = (w1, .ok ()) := hex
      rw [hex1]
      have ha : a ∈ c.sched.tasks_ := by
        rw [hi.tasks, List.mem_range]
        exact hlt
      obtain ⟨t1, ht1, he1⟩ := loop_ok_evaluated fuel rtl _ _ w1 () hg.acyclic hex a ha
      have hg1 := (loop_fires fuel rtl _ _ w1 _ hg.acyclic hex).fires_good hg
      exact ⟨rfl, (hg1.counted a t1 ht1).1 he1⟩
    · intro fuel rtl b tb f htb hmem hd hfuel
      have hlt : f.task_ < c.world.heap.length := by
        have h1 := hg.acyclic b tb htb f hmem
        have h2 := (List.getElem?_eq_some.1 htb).1
        omega
      have htf : c.world.heap[f.task_]? = some c.world.heap[f.task_] := by simp [hlt]
      have hT := hwt b tb htb f hmem _ htf
      cases he : (c.world.heap[f.task_]).isEvaulated_ with
      | true =>
        obtain ⟨vs, v, _, _, hres⟩ := hg.sound _ _ htf he
        obtain ⟨ta, hta, hea⟩ := DependsOn.dep_evaluated hg.sound hd htf he
        have hget : FutureResult_.get (Task_.eval rtl fuel) f c.world = (c.world, .ok v) := by
          simp [FutureResult_.get, htf, AnyTask_.getStatus, he, AnyTask_.getRes, hT, hres]
        rw [hget]
        exact ⟨⟨v, rfl⟩, (hg.counted a ta hta).1 hea⟩
      | false =>
        obtain ⟨w1, v, hev, hnode, _, hcount, _⟩ :=
          eval_dep_count rtl fuel hg hnf hwt htf he hfuel hd
        have hget : FutureResult_.get (Task_.eval rtl fuel) f c.world = (w1, .ok v) := by
          simp [FutureResult_.get, htf, AnyTask_.getStatus, he, hev, hnode, AnyTask_.getRes,
            Task_.done, hT]
        rw [hget]
        exact ⟨⟨v, rfl⟩, hcount⟩
  · intro fuel rtl T tid w1 v hid h
    obtain ⟨t1, ht1, he1, _, _⟩ := getResult_ok_node hg.acyclic hid h
    have hg1 := (getResult_fires fuel rtl _ _ T tid w1 _ hg.acyclic h).fires_good hg
    exact (hg1.counted a t1 ht1).1 he1
  · intro fuel rtl w1 hmem h
    obtain ⟨t1, ht1, he1⟩ := loop_ok_evaluated fuel rtl _ _ w1 () hg.acyclic h a hmem
    have hg1 := (loop_fires fuel rtl _ _ w1 _ hg.acyclic h).fires_good hg
    exact (hg1.counted a t1 ht1).1 he1
  · intro fuel rtl b tb f w1 v htb hmem hfa h
    obtain ⟨hf, hok, _⟩ := get_post (Task_.eval rtl fuel) (eval_post rtl fuel) b tb
      (.future f) c.world w1 (.ok v) hg.acyclic htb hmem h
    have hc := hok v rfl
    rw [cached_future_iff] at hc
    obtain ⟨t1, ht1, he1, _, _⟩ := hc
    rw [hfa] at ht1
    exact ((hf.fires_good hg).counted a t1 ht1).1 he1

/-- C2 on two tests.  `UnnecessaryCalculations.test1`: after `executeAll` on a root task
followed by a chain of 100 dependants, the body of the root has run exactly once.
`MultipleArgsTest.test2` without `executeAll`: the body of the first task has not run in the
fresh registry, and `getResult<int>` on the second task, which reads the first through its
forward reference, ends and has run the body of the first exactly once. -/
theorem callable_at_most_once_witness :
    ((chain 100).sched.executeAll 1 false (chain 100).world).1.calls.count 0 = 1 ∧
    squareConfig.world.calls.count 0 = 0 ∧
    (squareConfig.sched.getResult 2 false squareConfig.world .int ⟨1⟩).2.Ends ∧
    (squareConfig.sched.getResult 2 false squareConfig.world .int ⟨1⟩).1.calls.count 0 = 1 ∧
    (squareConfig.sched.getResult 2 false squareConfig.world .int ⟨1⟩).1.thrown =
      squareConfig.world.thrown :=
  ⟨(callable_at_most_once (chain 100) (chain_reachable 100) 0).2.2.2.2.2.1 1 false
      ((chain 100).sched.executeAll 1 false (chain 100).world).1
      chain_root_mem (eq_of_snd_eq chain_executeAll_returns),
    ((callable_at_most_once squareConfig squareConfig_reachable 0).2.2.2.1 squareConfig_noFail
      squareConfig_wellTyped).1 ⟨plus, .int, fourOnes.map WrapArgument_, none, false⟩ rfl rfl,
    ((callable_at_most_once squareConfig squareConfig_reachable 0).2.2.2.1 squareConfig_noFail
      squareConfig_wellTyped).2.1 2 false .int ⟨1⟩ 1 rfl
      (DependsOn.step 1 0 ⟨square, .int, [.future ⟨.int, 0⟩], none, false⟩ ⟨.int, 0⟩ rfl
        (List.mem_singleton.2 rfl) (DependsOn.self 0))
      (by decide)⟩

end Scheduler
